import Mathlib

/-!
Verification of the news-collection core of `Git_Practice.py`.

Strings are embedded as `List Char` (one entry per Unicode code point, matching
Python `str` indexing).  Python standard-library routines used by the source
(`urllib.parse`, `re.fullmatch`, `str.strip`, ...) are modelled after the
CPython 3.11 implementations; the model of `str.lower` and `str.casefold`
covers the ASCII letters (the only cased characters exercised by the program
and by every concrete input used below) and leaves other characters unchanged.
-/

set_option maxRecDepth 20000

namespace NaverNews

/-- The set of characters accepted by Python `str.isspace`, `str.strip()` and
matched by the regex class `\s` (Unicode mode), per the CPython whitespace
tables. -/
def pyIsSpace (c : Char) : Bool :=
  let n := c.toNat
  (0x9 ≤ n && n ≤ 0xd) || (0x1c ≤ n && n ≤ 0x1f) || n = 0x20 || n = 0x85 ||
  n = 0xa0 || n = 0x1680 || (0x2000 ≤ n && n ≤ 0x200a) || n = 0x2028 ||
  n = 0x2029 || n = 0x202f || n = 0x205f || n = 0x3000

/-- Python `str.strip()` with no argument: remove leading and trailing
whitespace. -/
def pyStrip (l : List Char) : List Char :=
  ((l.dropWhile pyIsSpace).reverse.dropWhile pyIsSpace).reverse

/-- Python `str.split()` with no argument (accumulator form): split on
whitespace runs, dropping empty words. -/
def splitWSAux : List Char → List Char → List (List Char)
  | [], acc => if acc = [] then [] else [acc.reverse]
  | c :: cs, acc =>
    if pyIsSpace c then
      if acc = [] then splitWSAux cs [] else acc.reverse :: splitWSAux cs []
    else splitWSAux cs (c :: acc)

def splitWS (l : List Char) : List (List Char) := splitWSAux l []

/-- ASCII lower-casing of a single character; the model of Python `str.lower`
and `str.casefold` restricted to the ASCII range (other characters are kept
unchanged). -/
def asciiLower (c : Char) : Char :=
  if c.toNat ≥ 65 ∧ c.toNat ≤ 90 then Char.ofNat (c.toNat + 32) else c

/-- Python `str.lower` (ASCII model). -/
def lowerStr (l : List Char) : List Char := l.map asciiLower

/-- `normalize_title` from the source:
`" ".join((t or "").casefold().split())`. -/
def normalizeTitle (t : List Char) : List Char :=
  List.intercalate [' '] (splitWS (lowerStr t))

/-! ## Recency filter (`parse_relative_allowed`) -/

def isAsciiDigit (c : Char) : Bool := '0' ≤ c && c ≤ '9'

/-- Match `\s* w \s* 전` against `l` for a one-character Korean word `w`
(`분`), i.e. the tail of the first regex after the number group.  The match
must consume the whole remaining input (`re.fullmatch`). -/
def tailMatch1 (w : Char) (l : List Char) : Bool :=
  match l.dropWhile pyIsSpace with
  | c :: rest => c = w && (rest.dropWhile pyIsSpace) = ['전']
  | [] => false

/-- Match `\s* 시간 \s* 전` against `l` (tail of the second regex). -/
def tailMatch2 (l : List Char) : Bool :=
  match l.dropWhile pyIsSpace with
  | c₁ :: c₂ :: rest => c₁ = '시' && c₂ = '간' && (rest.dropWhile pyIsSpace) = ['전']
  | _ => false

/-- `re.fullmatch(r"([1-9]|[1-5][0-9])\s*분\s*전", t)` as a whole-string
matcher.  If the character after the first digit is again a digit, only the
two-digit alternative `[1-5][0-9]` can complete the match (the `\s*` that
follows the group cannot consume a digit); otherwise only the one-digit
alternative `[1-9]` can. -/
def fullmatchMinutes : List Char → Bool
  | d₁ :: d₂ :: rest =>
    if isAsciiDigit d₂ then
      ('1' ≤ d₁ && d₁ ≤ '5') && tailMatch1 '분' rest
    else
      ('1' ≤ d₁ && d₁ ≤ '9') && tailMatch1 '분' (d₂ :: rest)
  | _ => false

/-- `re.fullmatch(r"([1-9]|1[0-9]|2[0-3])\s*시간\s*전", t)` as a whole-string
matcher. -/
def fullmatchHours : List Char → Bool
  | d₁ :: d₂ :: rest =>
    if isAsciiDigit d₂ then
      (d₁ = '1' || (d₁ = '2' && d₂ ≤ '3')) && tailMatch2 rest
    else
      ('1' ≤ d₁ && d₁ ≤ '9') && tailMatch2 (d₂ :: rest)
  | _ => false

/-- `parse_relative_allowed` from the source: strip the text, then accept iff
one of the two regexes matches the whole string. -/
def parseRelativeAllowed (text : List Char) : Bool :=
  let t := pyStrip text
  fullmatchMinutes t || fullmatchHours t

/-! ## Claim C2: shape of the accepted recency labels -/

/-- The literal reading of the claim: after trimming, the text is exactly
`X분 전` (one space between the unit and `전`, nothing else) with
`X ∈ [1,59]`, or `X시간 전` with `X ∈ [1,23]`, the number written in ordinary
decimal. -/
def specRecencyShape (text : List Char) : Bool :=
  let t := pyStrip text
  ((List.range 60).any fun n =>
    decide (1 ≤ n) && t = (toString n).toList ++ ['분', ' ', '전']) ||
  ((List.range 24).any fun n =>
    decide (1 ≤ n) && t = (toString n).toList ++ ['시', '간', ' ', '전'])

/-- Numeric value of a decimal digit string. -/
def digitsVal (ds : List Char) : Nat :=
  ds.foldl (fun a c => 10 * a + (c.toNat - 48)) 0

/-- A non-empty all-digit string. -/
def DigitStr (ds : List Char) : Prop :=
  ds ≠ [] ∧ ∀ c ∈ ds, isAsciiDigit c = true

/-- All characters are Python whitespace. -/
def AllSpace (w : List Char) : Prop := ∀ c ∈ w, pyIsSpace c = true

/-- The decomposition accepted by the minutes regex. -/
def MinuteShape (t : List Char) : Prop :=
  ∃ ds w₁ w₂, t = ds ++ w₁ ++ ['분'] ++ w₂ ++ ['전'] ∧ DigitStr ds ∧
    AllSpace w₁ ∧ AllSpace w₂ ∧ ds.head? ≠ some '0' ∧
    1 ≤ digitsVal ds ∧ digitsVal ds ≤ 59

/-- The decomposition accepted by the hours regex. -/
def HourShape (t : List Char) : Prop :=
  ∃ ds w₁ w₂, t = ds ++ w₁ ++ ['시', '간'] ++ w₂ ++ ['전'] ∧ DigitStr ds ∧
    AllSpace w₁ ∧ AllSpace w₂ ∧ ds.head? ≠ some '0' ∧
    1 ≤ digitsVal ds ∧ digitsVal ds ≤ 23

/-- The shape actually accepted by the code: after trimming, a decimal number
without leading zero, optional whitespace, the unit (`분` or `시간`), optional
whitespace, `전` — with the number in `[1,59]` for minutes and `[1,23]` for
hours. -/
def AmendedRecencyShape (text : List Char) : Prop :=
  MinuteShape (pyStrip text) ∨ HourShape (pyStrip text)

/-! ## Percent-encoding (`urllib.parse.quote` / `unquote`), with the UTF-8
codec used by CPython (`errors='replace'`, maximal-subpart replacement). -/

/-- UTF-8 encoding of one code point (always 1-4 bytes; Lean `Char` excludes
surrogates, as does `str.encode` for well-formed text). -/
def utf8Encode (c : Char) : List Nat :=
  let n := c.toNat
  if n < 0x80 then [n]
  else if n < 0x800 then [0xC0 + n / 64, 0x80 + n % 64]
  else if n < 0x10000 then
    [0xE0 + n / 4096, 0x80 + n / 64 % 64, 0x80 + n % 64]
  else
    [0xF0 + n / 262144, 0x80 + n / 4096 % 64, 0x80 + n / 64 % 64, 0x80 + n % 64]

def replacementChar : Char := Char.ofNat 0xFFFD

def isCont (b : Nat) : Bool := 0x80 ≤ b && b ≤ 0xBF

/-- One step of UTF-8 decoding with the `replace` error handler: consume the
bytes of one scalar value (or one maximal subpart of an ill-formed sequence,
which becomes U+FFFD), returning the decoded character and the remainder. -/
def utf8Step (b : Nat) (bs : List Nat) : Char × List Nat :=
  if b < 0x80 then (Char.ofNat b, bs)
  else if 0xC2 ≤ b ∧ b ≤ 0xDF then
    match bs with
    | b₂ :: bs₂ =>
      if isCont b₂ then (Char.ofNat ((b - 0xC0) * 64 + (b₂ - 0x80)), bs₂)
      else (replacementChar, bs)
    | [] => (replacementChar, [])
  else if 0xE0 ≤ b ∧ b ≤ 0xEF then
    match bs with
    | b₂ :: bs₂ =>
      if (if b = 0xE0 then 0xA0 ≤ b₂ ∧ b₂ ≤ 0xBF
          else if b = 0xED then 0x80 ≤ b₂ ∧ b₂ ≤ 0x9F
          else isCont b₂ = true) then
        match bs₂ with
        | b₃ :: bs₃ =>
          if isCont b₃ then
            (Char.ofNat ((b - 0xE0) * 4096 + (b₂ - 0x80) * 64 + (b₃ - 0x80)),
             bs₃)
          else (replacementChar, bs₂)
        | [] => (replacementChar, [])
      else (replacementChar, bs)
    | [] => (replacementChar, [])
  else if 0xF0 ≤ b ∧ b ≤ 0xF4 then
    match bs with
    | b₂ :: bs₂ =>
      if (if b = 0xF0 then 0x90 ≤ b₂ ∧ b₂ ≤ 0xBF
          else if b = 0xF4 then 0x80 ≤ b₂ ∧ b₂ ≤ 0x8F
          else isCont b₂ = true) then
        match bs₂ with
        | b₃ :: bs₃ =>
          if isCont b₃ then
            match bs₃ with
            | b₄ :: bs₄ =>
              if isCont b₄ then
                (Char.ofNat ((b - 0xF0) * 262144 + (b₂ - 0x80) * 4096 +
                  (b₃ - 0x80) * 64 + (b₄ - 0x80)), bs₄)
              else (replacementChar, bs₃)
            | [] => (replacementChar, [])
          else (replacementChar, bs₂)
        | [] => (replacementChar, [])
      else (replacementChar, bs)
    | [] => (replacementChar, [])
  else (replacementChar, bs)

/-- Iterate `utf8Step`; the fuel is only a structural-recursion device, any
fuel at least the byte count gives the full decoding (each step consumes at
least one byte). -/
def utf8DecodeF : Nat → List Nat → List Char
  | 0, _ => []
  | _, [] => []
  | fuel + 1, b :: bs =>
    let st := utf8Step b bs
    st.1 :: utf8DecodeF fuel st.2

/-- UTF-8 decoding of a byte run with the `replace` error handler. -/
def utf8Decode (l : List Nat) : List Char := utf8DecodeF l.length l

/-- The bytes CPython never percent-encodes (`_ALWAYS_SAFE`): ASCII letters,
digits and `_ . - ~`. -/
def alwaysSafe (b : Nat) : Bool :=
  (48 ≤ b && b ≤ 57) || (65 ≤ b && b ≤ 90) || (97 ≤ b && b ≤ 122) ||
  b = 95 || b = 46 || b = 45 || b = 126

def hexDigitUpper (n : Nat) : Char :=
  if n < 10 then Char.ofNat (48 + n) else Char.ofNat (55 + n)

def quoteByte (safe : List Nat) (b : Nat) : List Char :=
  if alwaysSafe b || safe.contains b then [Char.ofNat b]
  else ['%', hexDigitUpper (b / 16), hexDigitUpper (b % 16)]

/-- `urllib.parse.quote(s, safe)`: UTF-8 encode, then percent-encode every
byte outside the always-safe set and `safe`. -/
def quotePy (safe : List Nat) (s : List Char) : List Char :=
  (((s.map utf8Encode).flatten).map (quoteByte safe)).flatten

/-- `urllib.parse.quote_plus(s, safe='')`: like `quote` but with the space
character turned into `+`. -/
def quotePlusPy (s : List Char) : List Char :=
  if s.contains ' ' then
    (quotePy [32] s).map (fun c => if c = ' ' then '+' else c)
  else quotePy [] s

def hexVal (c : Char) : Option Nat :=
  let n := c.toNat
  if 48 ≤ n ∧ n ≤ 57 then some (n - 48)
  else if 65 ≤ n ∧ n ≤ 70 then some (n - 55)
  else if 97 ≤ n ∧ n ≤ 102 then some (n - 87)
  else none

/-- `urllib.parse.unquote` (with UTF-8 / `replace`): decode each maximal run
of valid `%XX` escapes as UTF-8 with replacement; all other characters pass
through unchanged (each such character also terminates a byte run, exactly as
in CPython, where a plain ASCII byte is self-delimiting in the decoder and a
non-ASCII character is outside the decoded ASCII run). -/
def pctTokenF : Nat → List Char → List (Nat ⊕ Char)
  | 0, _ => []
  | _, [] => []
  | fuel + 1, c :: rest =>
    if c = '%' then
      match rest with
      | c₁ :: c₂ :: rest₂ =>
        match hexVal c₁, hexVal c₂ with
        | some h, some lo => Sum.inl (h * 16 + lo) :: pctTokenF fuel rest₂
        | _, _ => Sum.inr '%' :: pctTokenF fuel rest
      | _ => Sum.inr '%' :: pctTokenF fuel rest
    else Sum.inr c :: pctTokenF fuel rest

/-- Tokenize a percent-encoded string: each valid `%XX` becomes a byte token,
every other character a character token (the fuel is a structural-recursion
device; the string length is always enough). -/
def pctToken (l : List Char) : List (Nat ⊕ Char) := pctTokenF l.length l

/-- Decode the token stream: maximal runs of escape bytes (accumulated in
`acc`, reversed) are decoded as UTF-8 with replacement at each boundary. -/
def pctDecode : List (Nat ⊕ Char) → List Nat → List Char
  | [], acc => utf8Decode acc.reverse
  | Sum.inl b :: rest, acc => pctDecode rest (b :: acc)
  | Sum.inr c :: rest, acc => utf8Decode acc.reverse ++ c :: pctDecode rest []

def unquotePy (s : List Char) : List Char := pctDecode (pctToken s) []

/-- `urllib.parse.unquote_plus`: replace `+` by space, then unquote. -/
def unquotePlusPy (s : List Char) : List Char :=
  unquotePy (s.map fun c => if c = '+' then ' ' else c)

/-! ## Query strings (`parse_qsl`, `parse_qs`, `urlencode`) -/

/-- Python `str.split(sep)` for a one-character separator: always returns at
least one (possibly empty) part. -/
def splitOnChar (sep : Char) : List Char → List (List Char)
  | [] => [[]]
  | c :: rest =>
    let r := splitOnChar sep rest
    if c = sep then [] :: r
    else
      match r with
      | h :: t => (c :: h) :: t
      | [] => [[c]]

/-- Split at the first occurrence of `sep` (`str.split(sep, 1)` /
`str.partition`), if present. -/
def splitFirstChar (sep : Char) : List Char → Option (List Char × List Char)
  | [] => none
  | c :: rest =>
    if c = sep then some ([], rest)
    else (splitFirstChar sep rest).map fun p => (c :: p.1, p.2)

/-- `urllib.parse.parse_qsl(qs, keep_blank_values)` with the default `&`
separator: split on `&`, skip empty fields, split each field at the first
`=` (fields without `=` and fields with an empty value are kept only when
`keep_blank_values` is true), and unquote-plus names and values. -/
def parseQsl (qs : List Char) (keepBlank : Bool) :
    List (List Char × List Char) :=
  let pairs := if qs = [] then [] else splitOnChar '&' qs
  pairs.filterMap fun nv =>
    if nv = [] then none
    else
      match splitFirstChar '=' nv with
      | none =>
        if keepBlank then some (unquotePlusPy nv, []) else none
      | some (n, v) =>
        if v ≠ [] ∨ keepBlank then some (unquotePlusPy n, unquotePlusPy v)
        else none

/-- Append a `(key, value)` pair into the ordered group list, as the
`parse_qs` dict accumulation does (first-seen key order, values appended). -/
def insertGrp : List (List Char × List (List Char)) → List Char × List Char →
    List (List Char × List (List Char))
  | [], (k, v) => [(k, [v])]
  | (k', vs) :: rest, (k, v) =>
    if k' = k then (k', vs ++ [v]) :: rest
    else (k', vs) :: insertGrp rest (k, v)

/-- `urllib.parse.parse_qs`, as an ordered association list (Python dicts
preserve insertion order). -/
def parseQs (qs : List Char) (keepBlank : Bool) :
    List (List Char × List (List Char)) :=
  (parseQsl qs keepBlank).foldl insertGrp []

/-- `urllib.parse.urlencode(groups, doseq=True)` for a dict of string keys to
lists of string values: one `k=v` field per value, quote-plus applied to both,
joined by `&`. -/
def urlencodePy (groups : List (List Char × List (List Char))) : List Char :=
  List.intercalate ['&']
    ((groups.map fun g =>
      g.2.map fun v => quotePlusPy g.1 ++ '=' :: quotePlusPy v).flatten)

/-! ## URL parsing (`urlsplit`, `urlparse`, `urlunsplit`, `urlunparse`),
after the CPython 3.11 implementation. -/

structure URLParts where
  scheme : List Char
  netloc : List Char
  path : List Char
  params : List Char
  query : List Char
  fragment : List Char
deriving Repr, DecidableEq

def isAsciiAlpha (c : Char) : Bool :=
  (65 ≤ c.toNat && c.toNat ≤ 90) || (97 ≤ c.toNat && c.toNat ≤ 122)

/-- The characters allowed in a scheme name (`scheme_chars`). -/
def isSchemeChar (c : Char) : Bool :=
  isAsciiAlpha c || isAsciiDigit c || c = '+' || c = '-' || c = '.'

/-- WHATWG C0-control-or-space characters, stripped from the left of the URL
by `urlsplit`. -/
def isC0OrSpace (c : Char) : Bool := c.toNat ≤ 0x20

/-- The unsafe bytes removed everywhere by `urlsplit` (tab, CR, LF). -/
def removeUnsafe (l : List Char) : List Char :=
  l.filter fun c => ¬(c = '\t' ∨ c = '\r' ∨ c = '\n')

/-- Scheme detection of `urlsplit`: if the first `:` has a non-empty ASCII
letter-led run of scheme characters before it, split there and lower-case the
scheme. -/
def splitScheme (url : List Char) : List Char × List Char :=
  match url.findIdx? (fun c => c = ':') with
  | none => ([], url)
  | some i =>
    if 0 < i ∧ isAsciiAlpha (url.headD ' ') = true ∧
        (url.take i).all isSchemeChar = true then
      (lowerStr (url.take i), url.drop (i + 1))
    else ([], url)

def isNetlocDelim (c : Char) : Bool := c = '/' || c = '?' || c = '#'

/-- `urlsplit`, returning `none` where CPython raises `ValueError`.
Modelling notes: the bracketed-host (IPv6) validation and the NFKC netloc
check are approximated — a netloc containing `[` or `]` is treated as a parse
failure (CPython accepts it only for a syntactically valid IP literal); the
news URLs this program handles contain neither. -/
def urlsplitPy (url0 : List Char) :
    Option (List Char × List Char × List Char × List Char × List Char) :=
  let url1 := url0.dropWhile isC0OrSpace
  let url2 := removeUnsafe url1
  let su := splitScheme url2
  let scheme := su.1
  let u1 := su.2
  let nu :=
    if u1.take 2 = ['/', '/'] then
      let rest2 := u1.drop 2
      (rest2.takeWhile (fun c => !isNetlocDelim c),
       rest2.dropWhile (fun c => !isNetlocDelim c))
    else ([], u1)
  let netloc := nu.1
  let u2 := nu.2
  if '[' ∈ netloc ∨ ']' ∈ netloc then none
  else
    let fu := match splitFirstChar '#' u2 with
      | some p => p
      | none => (u2, [])
    let qu := match splitFirstChar '?' fu.1 with
      | some p => p
      | none => (fu.1, [])
    some (scheme, netloc, qu.1, qu.2, fu.2)

/-- The schemes for which `urlparse` splits path parameters
(`uses_params`). -/
def usesParams : List (List Char) :=
  ["", "ftp", "hdl", "prospero", "http", "imap", "https", "shttp", "rtsp",
   "rtsps", "rtspu", "sip", "sips", "mms", "sftp", "tel"].map String.toList

/-- `_splitparams`: split `;params` off the last path segment (off the whole
path when it contains no `/`). -/
def splitparamsPy (url : List Char) : List Char × List Char :=
  if '/' ∈ url then
    let rev := url.reverse
    let lastSeg := (rev.takeWhile (fun c => c ≠ '/')).reverse
    let pre := (rev.dropWhile (fun c => c ≠ '/')).reverse
    match splitFirstChar ';' lastSeg with
    | none => (url, [])
    | some (a, b) => (pre ++ a, b)
  else
    match splitFirstChar ';' url with
    | none => (url, [])
    | some (a, b) => (a, b)

/-- `urllib.parse.urlparse` (`none` where CPython raises). -/
def urlparsePy (url : List Char) : Option URLParts :=
  (urlsplitPy url).map fun su =>
    let scheme := su.1
    let netloc := su.2.1
    let u := su.2.2.1
    let query := su.2.2.2.1
    let fragment := su.2.2.2.2
    if scheme ∈ usesParams ∧ ';' ∈ u then
      let pp := splitparamsPy u
      ⟨scheme, netloc, pp.1, pp.2, query, fragment⟩
    else ⟨scheme, netloc, u, [], query, fragment⟩

/-- The schemes that use a network location (`uses_netloc`). -/
def usesNetloc : List (List Char) :=
  ["", "ftp", "http", "gopher", "nntp", "telnet", "imap", "wais", "file",
   "mms", "https", "shttp", "snews", "prospero", "rtsp", "rtsps", "rtspu",
   "rsync", "svn", "svn+ssh", "sftp", "nfs", "git", "git+ssh", "ws",
   "wss"].map String.toList

/-- `urllib.parse.urlunsplit` (CPython 3.11). -/
def urlunsplitPy (scheme netloc url query fragment : List Char) : List Char :=
  let url :=
    if netloc ≠ [] ∨ (scheme ≠ [] ∧ scheme ∈ usesNetloc ∧
        url.take 2 ≠ ['/', '/']) then
      let url := if url ≠ [] ∧ url.take 1 ≠ ['/'] then '/' :: url else url
      '/' :: '/' :: (netloc ++ url)
    else url
  let url := if scheme ≠ [] then scheme ++ ':' :: url else url
  let url := if query ≠ [] then url ++ '?' :: query else url
  if fragment ≠ [] then url ++ '#' :: fragment else url

/-- `urllib.parse.urlunparse`. -/
def urlunparsePy (scheme netloc path params query fragment : List Char) :
    List Char :=
  urlunsplitPy scheme netloc
    (if params ≠ [] then path ++ ';' :: params else path) query fragment

/-! ## `normalize_link` -/

/-- Python `str.rstrip(c)` for a single strip character. -/
def rstripChar (c : Char) (l : List Char) : List Char :=
  (l.reverse.dropWhile (fun d => d = c)).reverse

/-- The tracking-parameter block-list `TRACKING_PARAMS` from the source. -/
def TRACKING_PARAMS : List (List Char) :=
  ["utm_source", "utm_medium", "utm_campaign", "utm_term", "utm_content",
   "utm_name", "gclid", "fbclid", "igshid", "utm_id", "utm_referrer", "ref",
   "sns", "spm", "cmpid"].map String.toList

/-- Lexicographic sort of a list of strings; Python `sorted` on `str` sorts
lexicographically by code point, and since equal strings are identical the
sorted list is unique, so any correct sort agrees with it. -/
def insertSorted (x : List Char) : List (List Char) → List (List Char)
  | [] => [x]
  | y :: ys => if x ≤ y then x :: y :: ys else y :: insertSorted x ys

def sortStrs (l : List (List Char)) : List (List Char) :=
  l.foldr insertSorted []

/-- First value of a query parameter: `parse_qs(...).get(k, [None])[0]`. -/
def firstVal (groups : List (List Char × List (List Char))) (k : List Char) :
    Option (List Char) :=
  match groups.find? (fun g => g.1 = k) with
  | some g => g.2.head?
  | none => none

def NAVER_SUFFIX : List Char := "news.naver.com".toList

/-- `normalize_link` from the source, over the CPython `urllib.parse`
models above.  The `except` branch of the source (return the input unchanged)
corresponds to `urlparsePy` returning `none`. -/
def normalizeLink (url : List Char) : List Char :=
  if url = [] then []
  else
    match urlparsePy url with
    | none => url
    | some p =>
      let s0 := lowerStr p.scheme
      let scheme := if s0 = [] then "https".toList else s0
      let netloc := lowerStr p.netloc
      if NAVER_SUFFIX.isSuffixOf netloc then
        let qs := parseQs p.query false
        let oid := firstVal qs "oid".toList
        let aid := firstVal qs "aid".toList
        match oid, aid with
        | some o, some a =>
          if o ≠ [] ∧ a ≠ [] then
            "naver:oid=".toList ++ o ++ "&aid=".toList ++ a
          else netloc ++ rstripChar '/' p.path
        | _, _ => netloc ++ rstripChar '/' p.path
      else
        let qs := parseQs p.query true
        let qsClean := qs.filter fun g => ¬ g.1 ∈ TRACKING_PARAMS
        let qsSorted := qsClean.map fun g => (g.1, sortStrs g.2)
        let newQuery := urlencodePy qsSorted
        let np := rstripChar '/' p.path
        let newPath := if np = [] then ['/'] else np
        urlunparsePy scheme netloc newPath [] newQuery []

/-! ## Parsed HTML documents (the BeautifulSoup tree) -/

/-- A node of the parsed document: an element (tag name, plain attributes,
optional multi-valued `class` attribute, children) or a text node
(`NavigableString`). -/
inductive HNode where
  | elem (name : List Char) (attrs : List (List Char × List Char))
      (classes : Option (List (List Char))) (children : List HNode)
  | text (s : List Char)

/-- `Tag.get(key)` — `none` both for a missing attribute and on a text node
(`getattr` with default). -/
def HNode.attr (k : List Char) : HNode → Option (List Char)
  | .elem _ attrs _ _ => (attrs.find? fun p => p.1 = k).map (·.2)
  | .text _ => none

/-- `getattr(e, "name", None)`: tag name of an element, `none` for a
`NavigableString`. -/
def HNode.tagName : HNode → Option (List Char)
  | .elem n _ _ _ => some n
  | .text _ => none

def HNode.classes? : HNode → Option (List (List Char))
  | .elem _ _ cls _ => cls
  | .text _ => none

mutual
/-- All descendant strings of a node, in document order (`Tag.strings`; a
text node yields itself). -/
def HNode.strings : HNode → List (List Char)
  | .text s => [s]
  | .elem _ _ _ children => stringsList children

def stringsList : List HNode → List (List Char)
  | [] => []
  | n :: ns => n.strings ++ stringsList ns
end

/-- `get_text(separator, strip=True)`: strip each descendant string, drop the
empty ones, join with the separator. -/
def getTextStrip (sep : List Char) (n : HNode) : List Char :=
  List.intercalate sep ((n.strings.map pyStrip).filter fun s => s ≠ [])

mutual
/-- The pre-order traversal of a subtree: the node itself, then the
traversals of its children.  For a node at position `i` of the document
pre-order, BeautifulSoup `next_elements` is exactly the remainder of the
pre-order after position `i`. -/
def HNode.preorder : HNode → List HNode
  | .text s => [.text s]
  | .elem n a c children =>
    .elem n a c children :: preorderList children

def preorderList : List HNode → List HNode
  | [] => []
  | n :: ns => n.preorder ++ preorderList ns
end

/-- A document is the list of top-level nodes; its pre-order traversal
concatenates the subtree traversals. -/
def docPreorder (doc : List HNode) : List HNode := preorderList doc

/-- Pair every entry of a flat node list with its tail — the node together
with its `next_elements`. -/
def withTails : List HNode → List (HNode × List HNode)
  | [] => []
  | x :: xs => (x, xs) :: withTails xs

/-! ## Card extraction (`extract_card_from_time_span`) -/

def TIME_SPAN_CLASS : List (List Char) :=
  ["sds-comps-text", "sds-comps-text-type-body2",
   "sds-comps-text-weight-sm"].map String.toList

def SNIPPET_CLASSES : List (List Char) :=
  ["sds-comps-text-ellipsis", "sds-comps-text-type-body2"].map String.toList

/-- `has_classes(tag, classes)` from the source: the tag has a `class`
attribute containing every requested class. -/
def hasClasses (n : HNode) (cs : List (List Char)) : Bool :=
  match n.classes? with
  | some cls => cs.all fun c => cls.contains c
  | none => false

/-- The condition selecting timestamp markers in `fetch_news`:
`soup.find_all("span", class_=lambda x: x)` (a span with some non-empty class
string) filtered by `has_classes(s, TIME_SPAN_CLASS)`. -/
def isTimeSpan (n : HNode) : Bool :=
  (match n.tagName with
   | some nm => nm = "span".toList
   | none => false) &&
  (match n.classes? with
   | some cls => cls.any fun c => c ≠ []
   | none => false) &&
  hasClasses n TIME_SPAN_CLASS

/-- The first loop of `extract_card_from_time_span`: walk `next_elements`,
processing at most 200 entries (`steps > 200: break`), skipping strings, and
stopping at the first `a` element whose `data-heatmap-target` attribute is
`".tit"`.  Returns the anchor and its own `next_elements` (the tail after
it). -/
def findTitleAnchor : List HNode → Nat → Option (HNode × List HNode)
  | _, 0 => none
  | [], _ => none
  | .text _ :: rest, fuel + 1 => findTitleAnchor rest fuel
  | .elem nm attrs cls ch :: rest, fuel + 1 =>
    if nm = "a".toList ∧
        (HNode.elem nm attrs cls ch).attr "data-heatmap-target".toList =
          some ".tit".toList then
      some (.elem nm attrs cls ch, rest)
    else findTitleAnchor rest fuel

/-- The second loop of `extract_card_from_time_span`: walk the anchor's
`next_elements` with a fresh 200-step budget; take the first `span` element
having a `class` attribute with at least one of `SNIPPET_CLASSES` (the
source's `any`) whose stripped space-joined text is non-empty, differs from
the title and has length at least 10; empty if the budget runs out. -/
def findSnippet (title : List Char) : List HNode → Nat → List Char
  | _, 0 => []
  | [], _ => []
  | .text _ :: rest, fuel + 1 => findSnippet title rest fuel
  | .elem nm attrs cls ch :: rest, fuel + 1 =>
    if nm = "span".toList ∧ cls.isSome ∧
        SNIPPET_CLASSES.any (fun c => (cls.getD []).contains c) = true then
      let txt := getTextStrip [' '] (.elem nm attrs cls ch)
      if txt ≠ [] ∧ txt ≠ title ∧ 10 ≤ txt.length then txt
      else findSnippet title rest fuel
    else findSnippet title rest fuel

structure Card where
  title : List Char
  link : List Char
  snippet : List Char
deriving Repr, DecidableEq

/-- The acceptance test of the snippet walk, as a predicate on one node: a
`span` element carrying a `class` attribute with at least one of the two
`SNIPPET_CLASSES`, whose stripped space-joined text is non-empty, differs
from the title, and has length at least 10. -/
def snippetPred (title : List Char) : HNode → Bool
  | .text _ => false
  | .elem nm attrs cls ch =>
    if nm = "span".toList ∧ cls.isSome ∧
        SNIPPET_CLASSES.any (fun c => (cls.getD []).contains c) = true then
      if (let txt := getTextStrip [' '] (HNode.elem nm attrs cls ch)
          txt ≠ [] ∧ txt ≠ title ∧ 10 ≤ txt.length) then true
      else false
    else false

/-- `extract_card_from_time_span`, as a function of the marker's
`next_elements` list. -/
def extractCardFromTimeSpan (rest : List HNode) : Option Card :=
  match findTitleAnchor rest 200 with
  | none => none
  | some (a, aRest) =>
    let title := getTextStrip [] a
    let link := (a.attr "href".toList).getD []
    let snippet := findSnippet title aRest 200
    some ⟨title, link, snippet⟩

/-! ## The collector (`fetch_news`) -/

structure Row where
  title : List Char
  snippet : List Char
  link : List Char
  query : Option (List Char)
deriving Repr, DecidableEq

structure CState where
  seenTitles : List (List Char)
  seenLinks : List (List Char)
  rows : List Row
deriving Repr, DecidableEq

def initialCState : CState := ⟨[], [], []⟩

def mkRow (card : Card) (query : List Char) (includeQueryCol : Bool) : Row :=
  ⟨card.title, card.snippet, card.link,
   if includeQueryCol then some query else none⟩

/-- The dedup-and-append step of the `fetch_news` loop (source lines
187-196): skip when the non-empty normalized link was seen or the normalized
title was seen; otherwise record both keys and append the row. -/
def dedupAppend (st : CState) (card : Card) (query : List Char)
    (includeQueryCol : Bool) : CState :=
  let linkNorm := normalizeLink card.link
  let titleNorm := normalizeTitle card.title
  if (linkNorm ≠ [] ∧ linkNorm ∈ st.seenLinks) ∨ titleNorm ∈ st.seenTitles then
    st
  else
    ⟨titleNorm :: st.seenTitles,
     if linkNorm ≠ [] then linkNorm :: st.seenLinks else st.seenLinks,
     st.rows ++ [mkRow card query includeQueryCol]⟩

/-- The scan over the timestamp markers (each paired with its
`next_elements`): stop at `max_n` rows, filter by recency, extract, dedup,
append. -/
def collectGo (maxN : Nat) (query : List Char) (includeQueryCol : Bool) :
    List (HNode × List HNode) → CState → CState
  | [], st => st
  | (s, rest) :: spans, st =>
    if st.rows.length ≥ maxN then st
    else
      if ¬ parseRelativeAllowed (getTextStrip [] s) = true then
        collectGo maxN query includeQueryCol spans st
      else
        match extractCardFromTimeSpan rest with
        | none => collectGo maxN query includeQueryCol spans st
        | some card =>
          collectGo maxN query includeQueryCol spans
            (dedupAppend st card query includeQueryCol)

/-- The timestamp markers of a document in document order, each paired with
its `next_elements`. -/
def timeSpansOf (doc : List HNode) : List (HNode × List HNode) :=
  (withTails (docPreorder doc)).filter fun p => isTimeSpan p.1

/-- The rows `fetch_news` builds from a parsed document (the part of the
function after `BeautifulSoup(html, ...)`). -/
def collectRows (doc : List HNode) (maxN : Nat) (query : List Char)
    (includeQueryCol : Bool) : List Row :=
  (collectGo maxN query includeQueryCol (timeSpansOf doc) initialCState).rows

/-! ## Transport (`get_html`) and `fetch_news` -/

/-- Outcome of one `session.get` attempt: a response with a status code and
body, or a raised transport exception. -/
inductive AttemptResult where
  | ok (status : Nat) (body : List Char)
  | exc

/-- The retry loop of `get_html`: attempts `1 .. maxRetry`; a 200 response
returns its body, anything else (other status or exception) retries after the
backoff sleep (timing is not modelled); exhaustion yields `none`. -/
def getHtmlGo (attempts : Nat → AttemptResult) : Nat → Nat → Option (List Char)
  | 0, _ => none
  | remaining + 1, attempt =>
    match attempts attempt with
    | .ok 200 body => some body
    | _ => getHtmlGo attempts remaining (attempt + 1)

def getHtml (attempts : Nat → AttemptResult) (maxRetry : Nat) :
    Option (List Char) :=
  getHtmlGo attempts maxRetry 1

/-- The fixed part of `BASE_URL` before the substituted query. -/
def BASE_URL_PRE : List Char :=
  "https://search.naver.com/search.naver?ssc=tab.news.all&where=news&sm=tab_jum&query=".toList

/-- `build_url`: strip the query (`sanitize_query`), percent-encode it
(`urllib.parse.quote`, default `safe='/'`, byte 47) and substitute it into the
template. -/
def buildUrl (query : List Char) : List Char :=
  BASE_URL_PRE ++ quotePy [47] (pyStrip query)

/-- `fetch_news`.  The transport is abstracted as a function from the request
URL and the attempt number to that attempt's outcome, and BeautifulSoup
parsing of the fetched text is abstracted as `parseHtml`.  `if not html`
treats both a missing document and an empty body as failure. -/
def fetchNews (attempts : List Char → Nat → AttemptResult) (maxRetry : Nat)
    (parseHtml : List Char → List HNode) (query : List Char) (maxN : Nat)
    (includeQueryCol : Bool) : List Row :=
  let url := buildUrl query
  match getHtml (attempts url) maxRetry with
  | none => []
  | some html =>
    if html = [] then []
    else collectRows (parseHtml html) maxN query includeQueryCol

/-- The counterexample document for C5: a timestamp text, the title anchor,
its text, then a `span` carrying only ONE of the two snippet marker classes
with a 10-character text. -/
def cex5Anchor : HNode :=
  .elem "a".toList
    [("data-heatmap-target".toList, ".tit".toList),
     ("href".toList, "http://x/1".toList)] none [.text "Title".toList]

def cex5Snip : HNode :=
  .elem "span".toList [] (some ["sds-comps-text-ellipsis".toList])
    [.text "0123456789".toList]

def cex5Rest : List HNode :=
  [.text "5분 전".toList, cex5Anchor, .text "Title".toList, cex5Snip,
   .text "0123456789".toList]

/-! ## The collector invariants (claims C3 and C4) -/

/-- The same scan as `collectGo` but with no cap: what the loop would emit if
`max_n` were unbounded.  Its rows are the "eligible" markers of the claim —
recency-accepted, successfully extracted and not dropped as duplicates. -/
def collectAllGo (query : List Char) (includeQueryCol : Bool) :
    List (HNode × List HNode) → CState → CState
  | [], st => st
  | (s, rest) :: spans, st =>
    if ¬ parseRelativeAllowed (getTextStrip [] s) = true then
      collectAllGo query includeQueryCol spans st
    else
      match extractCardFromTimeSpan rest with
      | none => collectAllGo query includeQueryCol spans st
      | some card =>
        collectAllGo query includeQueryCol spans
          (dedupAppend st card query includeQueryCol)

def collectRowsAll (doc : List HNode) (query : List Char)
    (includeQueryCol : Bool) : List Row :=
  (collectAllGo query includeQueryCol (timeSpansOf doc) initialCState).rows

/-- The row each marker would contribute prior to dedup, in document order. -/
def candidatesOf (query : List Char) (includeQueryCol : Bool)
    (spans : List (HNode × List HNode)) : List Row :=
  spans.filterMap fun p =>
    if parseRelativeAllowed (getTextStrip [] p.1) = true then
      (extractCardFromTimeSpan p.2).map fun card =>
        mkRow card query includeQueryCol
    else none

def markerCandidates (doc : List HNode) (query : List Char)
    (includeQueryCol : Bool) : List Row :=
  candidatesOf query includeQueryCol (timeSpansOf doc)

def rowTitleKey (r : Row) : List Char := normalizeTitle r.title

def rowLinkKey (r : Row) : List Char := normalizeLink r.link

/-- Two rows with no key collision: different normalized title keys, and any
shared normalized link key must be the empty one. -/
def DistinctKeys (r₁ r₂ : Row) : Prop :=
  rowTitleKey r₁ ≠ rowTitleKey r₂ ∧
  (rowLinkKey r₁ = rowLinkKey r₂ → rowLinkKey r₁ = [])

/-- The loop invariant of `fetch_news`: emitted rows are pairwise free of key
collisions, and every emitted key is recorded in the seen-sets. -/
def CInv (st : CState) : Prop :=
  List.Pairwise DistinctKeys st.rows ∧
  (∀ r ∈ st.rows, rowTitleKey r ∈ st.seenTitles) ∧
  (∀ r ∈ st.rows, rowLinkKey r ≠ [] → rowLinkKey r ∈ st.seenLinks)

/-- A concrete document with two eligible timestamp markers, for the C4
witness. -/
def cexTime (label : List Char) : HNode :=
  .elem "span".toList [] (some TIME_SPAN_CLASS) [.text label]

def cexAnchor (href title : List Char) : HNode :=
  .elem "a".toList
    [("data-heatmap-target".toList, ".tit".toList), ("href".toList, href)]
    none [.text title]

def cex4Doc : List HNode :=
  [.elem "div".toList [] none
    [cexTime "5분 전".toList, cexAnchor "http://a/1".toList "T1".toList,
     cexTime "1시간 전".toList, cexAnchor "http://a/2".toList "T2".toList]]

/-- A title anchor carrying no `href` attribute, for the C10 witness. -/
def cex10Anchor : HNode :=
  .elem "a".toList [("data-heatmap-target".toList, ".tit".toList)] none
    [.text "NoHref".toList]

def cex10Rest : List HNode := [cex10Anchor, .text "NoHref".toList]

/-! ## Toward C1: character, strip and split lemmas -/

/-- The characters `urlsplit` removes everywhere (tab, CR, LF) are absent. -/
def Clean (l : List Char) : Prop :=
  ∀ c ∈ l, c ≠ '\t' ∧ c ≠ '\r' ∧ c ≠ '\n'

theorem length_dropWhile_le {α : Type} (p : α → Bool) (l : List α) :
    (l.dropWhile p).length ≤ l.length := by
  induction l with
  | nil => simp
  | cons a l ih =>
    by_cases h : p a
    · simp only [List.dropWhile_cons, h, if_true, List.length_cons]; omega
    · simp [List.dropWhile_cons, h]

theorem space_not_digit {c : Char} (h : pyIsSpace c = true) :
    isAsciiDigit c = false := by
  simp only [pyIsSpace, isAsciiDigit] at *
  simp only [Bool.or_eq_true, Bool.and_eq_true, decide_eq_true_eq] at h
  by_contra hc
  simp only [Bool.not_eq_false, Bool.and_eq_true, decide_eq_true_eq] at hc
  have h1 : ('0' : Char).toNat = 48 := rfl
  have h2 : ('9' : Char).toNat = 57 := rfl
  have hle : 48 ≤ c.toNat ∧ c.toNat ≤ 57 := by
    constructor
    · simpa [Char.le_def, h1] using hc.1
    · simpa [Char.le_def, h2] using hc.2
  omega

theorem dropWhile_append_of_all {p : Char → Bool} {s l : List Char}
    (hs : ∀ c ∈ s, p c = true) :
    (s ++ l).dropWhile p = l.dropWhile p := by
  induction s with
  | nil => rfl
  | cons a s ih =>
    have ha : p a = true := hs a (by simp)
    simp only [List.cons_append, List.dropWhile_cons, ha, if_true]
    exact ih fun c hc => hs c (by simp [hc])

theorem takeWhile_append_eq {p : Char → Bool} {l r : List Char}
    (hd : l.dropWhile p = r) : l = l.takeWhile p ++ r := by
  conv_lhs => rw [← List.takeWhile_append_dropWhile (p := p) (l := l)]
  rw [hd]

/-- Characterization of `tailMatch1 w`: it accepts exactly the strings of the
form `\s* w \s* 전` (for a non-space, non-`전` character `w`). -/
theorem tailMatch1_iff {w : Char} (hw : pyIsSpace w = false) (l : List Char) :
    tailMatch1 w l = true ↔
      ∃ s₁ s₂, l = s₁ ++ [w] ++ s₂ ++ ['전'] ∧ AllSpace s₁ ∧ AllSpace s₂ := by
  constructor
  · intro h
    unfold tailMatch1 at h
    generalize hd : l.dropWhile pyIsSpace = m at h
    rcases m with _ | ⟨c, rest⟩
    · exact absurd h (by simp)
    · simp only [Bool.and_eq_true, decide_eq_true_eq] at h
      obtain ⟨hc, hrest⟩ := h
      subst hc
      refine ⟨l.takeWhile pyIsSpace, rest.takeWhile pyIsSpace, ?_, ?_, ?_⟩
      · conv_lhs => rw [takeWhile_append_eq hd, takeWhile_append_eq hrest]
        simp
      · exact fun c hc => List.mem_takeWhile_imp hc
      · exact fun c hc => List.mem_takeWhile_imp hc
  · rintro ⟨s₁, s₂, rfl, hs₁, hs₂⟩
    unfold tailMatch1
    have h1 : (s₁ ++ [w] ++ s₂ ++ ['전']).dropWhile pyIsSpace =
        w :: (s₂ ++ ['전']) := by
      rw [List.append_assoc, List.append_assoc, dropWhile_append_of_all hs₁]
      simp [List.dropWhile_cons, hw]
    rw [h1]
    have hj : pyIsSpace '전' = false := by decide
    have h2 : (s₂ ++ ['전']).dropWhile pyIsSpace = ['전'] := by
      rw [dropWhile_append_of_all hs₂]
      simp [List.dropWhile_cons, hj]
    simp [h2]

/-- Characterization of `tailMatch2`: it accepts exactly `\s* 시간 \s* 전`. -/
theorem tailMatch2_iff (l : List Char) :
    tailMatch2 l = true ↔
      ∃ s₁ s₂, l = s₁ ++ ['시', '간'] ++ s₂ ++ ['전'] ∧ AllSpace s₁ ∧ AllSpace s₂ := by
  constructor
  · intro h
    unfold tailMatch2 at h
    generalize hd : l.dropWhile pyIsSpace = m at h
    rcases m with _ | ⟨c₁, _ | ⟨c₂, rest⟩⟩
    · exact absurd h (by simp)
    · exact absurd h (by simp)
    · simp only [Bool.and_eq_true, decide_eq_true_eq] at h
      obtain ⟨⟨hc₁, hc₂⟩, hrest⟩ := h
      subst hc₁; subst hc₂
      refine ⟨l.takeWhile pyIsSpace, rest.takeWhile pyIsSpace, ?_, ?_, ?_⟩
      · conv_lhs => rw [takeWhile_append_eq hd, takeWhile_append_eq hrest]
        simp
      · exact fun c hc => List.mem_takeWhile_imp hc
      · exact fun c hc => List.mem_takeWhile_imp hc
  · rintro ⟨s₁, s₂, rfl, hs₁, hs₂⟩
    unfold tailMatch2
    have hsi : pyIsSpace '시' = false := by decide
    have h1 : (s₁ ++ ['시', '간'] ++ s₂ ++ ['전']).dropWhile pyIsSpace =
        '시' :: '간' :: (s₂ ++ ['전']) := by
      rw [List.append_assoc, List.append_assoc, dropWhile_append_of_all hs₁]
      simp [List.dropWhile_cons, hsi]
    rw [h1]
    have hj : pyIsSpace '전' = false := by decide
    have h2 : (s₂ ++ ['전']).dropWhile pyIsSpace = ['전'] := by
      rw [dropWhile_append_of_all hs₂]
      simp [List.dropWhile_cons, hj]
    simp [h2]

theorem char_le_iff {a b : Char} : a ≤ b ↔ a.toNat ≤ b.toNat := by
  simp [Char.le_def, UInt32.le_def, Char.toNat, UInt32.toNat, BitVec.le_def]

theorem char_eq_iff {a b : Char} : a = b ↔ a.toNat = b.toNat :=
  ⟨fun h => by rw [h], fun h => Char.eq_of_val_eq (UInt32.ext h)⟩

theorem isAsciiDigit_iff {c : Char} :
    isAsciiDigit c = true ↔ 48 ≤ c.toNat ∧ c.toNat ≤ 57 := by
  have hb : (('0' : Char).toNat = 48) ∧ (('9' : Char).toNat = 57) := by decide
  simp [isAsciiDigit, char_le_iff, hb.1, hb.2]

theorem digitsVal_one (d : Char) : digitsVal [d] = d.toNat - 48 := by
  simp [digitsVal]

theorem digitsVal_two (d₁ d₂ : Char) :
    digitsVal [d₁, d₂] = 10 * (d₁.toNat - 48) + (d₂.toNat - 48) := by
  simp [digitsVal]

theorem digitsVal_foldl_ge (rest : List Char) (a : Nat) (ha : 1 ≤ a) :
    10 ^ rest.length * a ≤
      rest.foldl (fun x c => 10 * x + (c.toNat - 48)) a := by
  induction rest generalizing a with
  | nil => simp only [List.foldl_nil, List.length_nil, pow_zero, one_mul]; exact le_rfl
  | cons c r ih =>
    have h1 : 1 ≤ 10 * a + (c.toNat - 48) := by omega
    have h2 := ih (10 * a + (c.toNat - 48)) h1
    simp only [List.foldl_cons, List.length_cons]
    calc 10 ^ (r.length + 1) * a = 10 ^ r.length * (10 * a) := by ring
      _ ≤ 10 ^ r.length * (10 * a + (c.toNat - 48)) :=
          Nat.mul_le_mul_left _ (by omega)
      _ ≤ _ := h2

theorem digitsVal_long_ge (d : Char) (rest : List Char)
    (hd0 : d ≠ '0') (hd : isAsciiDigit d = true) :
    10 ^ rest.length ≤ digitsVal (d :: rest) := by
  have h48 : ('0' : Char).toNat = 48 := rfl
  have hne : d.toNat ≠ 48 := fun h => hd0 (char_eq_iff.mpr (by rw [h, h48]))
  have hrange := isAsciiDigit_iff.mp hd
  have ha : 1 ≤ d.toNat - 48 := by omega
  have := digitsVal_foldl_ge rest (d.toNat - 48) ha
  calc 10 ^ rest.length = 10 ^ rest.length * 1 := by ring
    _ ≤ 10 ^ rest.length * (d.toNat - 48) := Nat.mul_le_mul_left _ ha
    _ ≤ _ := by simpa [digitsVal] using this

theorem fullmatchMinutes_iff (t : List Char) :
    fullmatchMinutes t = true ↔ MinuteShape t := by
  have hbun : pyIsSpace '분' = false := by decide
  constructor
  · intro h
    rcases t with _ | ⟨d₁, _ | ⟨d₂, rest⟩⟩
    · exact absurd h (by simp [fullmatchMinutes])
    · exact absurd h (by simp [fullmatchMinutes])
    · have h' : (if isAsciiDigit d₂ = true
          then (decide ('1' ≤ d₁) && decide (d₁ ≤ '5')) && tailMatch1 '분' rest
          else (decide ('1' ≤ d₁) && decide (d₁ ≤ '9')) &&
            tailMatch1 '분' (d₂ :: rest)) = true := h
      clear h
      by_cases hd₂ : isAsciiDigit d₂ = true
      · rw [if_pos hd₂] at h'
        have h := h'
        simp only [Bool.and_eq_true, decide_eq_true_eq] at h
        obtain ⟨⟨h1, h5⟩, htail⟩ := h
        obtain ⟨s₁, s₂, hrest, hs₁, hs₂⟩ := (tailMatch1_iff hbun rest).mp htail
        refine ⟨[d₁, d₂], s₁, s₂, ?_, ?_, hs₁, hs₂, ?_, ?_, ?_⟩
        · simp [hrest]
        · refine ⟨by simp, ?_⟩
          intro c hc
          simp only [List.mem_cons, List.not_mem_nil, or_false] at hc
          rcases hc with rfl | rfl
          · exact isAsciiDigit_iff.mpr (by
              have := char_le_iff.mp h1
              have := char_le_iff.mp h5
              have c1 : ('1' : Char).toNat = 49 := rfl
              have c5 : ('5' : Char).toNat = 53 := rfl
              omega)
          · exact hd₂
        · have := char_le_iff.mp h1
          have c1 : ('1' : Char).toNat = 49 := rfl
          intro hcon
          have hcon2 : some d₁ = some '0' := hcon
          have hd0 : d₁ = '0' := by injection hcon2
          rw [char_eq_iff] at hd0
          have c0 : ('0' : Char).toNat = 48 := rfl
          omega
        · have := char_le_iff.mp h1
          have c1 : ('1' : Char).toNat = 49 := rfl
          rw [digitsVal_two]; omega
        · have := char_le_iff.mp h5
          have hd := isAsciiDigit_iff.mp hd₂
          have c5 : ('5' : Char).toNat = 53 := rfl
          rw [digitsVal_two]; omega
      · rw [if_neg hd₂] at h'
        have h := h'
        simp only [Bool.and_eq_true, decide_eq_true_eq] at h
        obtain ⟨⟨h1, h9⟩, htail⟩ := h
        obtain ⟨s₁, s₂, hrest, hs₁, hs₂⟩ := (tailMatch1_iff hbun _).mp htail
        refine ⟨[d₁], s₁, s₂, ?_, ?_, hs₁, hs₂, ?_, ?_, ?_⟩
        · simp [hrest]
        · refine ⟨by simp, ?_⟩
          intro c hc
          simp only [List.mem_cons, List.not_mem_nil, or_false] at hc
          subst hc
          exact isAsciiDigit_iff.mpr (by
            have := char_le_iff.mp h1
            have := char_le_iff.mp h9
            have c1 : ('1' : Char).toNat = 49 := rfl
            have c9 : ('9' : Char).toNat = 57 := rfl
            omega)
        · have := char_le_iff.mp h1
          have c1 : ('1' : Char).toNat = 49 := rfl
          intro hcon
          have hcon2 : some d₁ = some '0' := hcon
          have hd0 : d₁ = '0' := by injection hcon2
          rw [char_eq_iff] at hd0
          have c0 : ('0' : Char).toNat = 48 := rfl
          omega
        · have := char_le_iff.mp h1
          have c1 : ('1' : Char).toNat = 49 := rfl
          rw [digitsVal_one]; omega
        · have := char_le_iff.mp h9
          have c9 : ('9' : Char).toNat = 57 := rfl
          rw [digitsVal_one]; omega
  · rintro ⟨ds, w₁, w₂, rfl, ⟨hne, hdig⟩, hw₁, hw₂, h0, hlo, hhi⟩
    rcases ds with _ | ⟨d₁, _ | ⟨d₂, _ | ⟨d₃, tl⟩⟩⟩
    · exact absurd rfl hne
    · -- one digit
      have hd₁ : isAsciiDigit d₁ = true := hdig d₁ (by simp)
      have hd₁r := isAsciiDigit_iff.mp hd₁
      have h0n : d₁.toNat ≠ 48 := by
        intro hc
        apply h0
        simp only [List.head?_cons, Option.some.injEq]
        exact char_eq_iff.mpr (by rw [hc]; decide)
      rcases hu : w₁ ++ ['분'] ++ w₂ ++ ['전'] with _ | ⟨c₂, urest⟩
      · exact absurd hu (by simp)
      · have hteq : [d₁] ++ w₁ ++ ['분'] ++ w₂ ++ ['전'] = d₁ :: c₂ :: urest := by
          simp only [List.singleton_append, List.cons_append]
          rw [← hu]; simp
        rw [hteq]
        have hc₂ : isAsciiDigit c₂ = false := by
          rcases w₁ with _ | ⟨a, w⟩
          · simp at hu
            rw [← hu.1]; decide
          · simp at hu
            rw [← hu.1]
            exact space_not_digit (hw₁ a (by simp))
        have hval := digitsVal_one d₁
        show (if isAsciiDigit c₂ = true
          then (decide ('1' ≤ d₁) && decide (d₁ ≤ '5')) && tailMatch1 '분' urest
          else (decide ('1' ≤ d₁) && decide (d₁ ≤ '9')) &&
            tailMatch1 '분' (c₂ :: urest)) = true
        rw [if_neg (by simp [hc₂])]
        simp only [Bool.and_eq_true, decide_eq_true_eq]
        refine ⟨⟨?_, ?_⟩, ?_⟩
        · rw [char_le_iff]
          have c1 : ('1' : Char).toNat = 49 := rfl
          omega
        · rw [char_le_iff]
          have c9 : ('9' : Char).toNat = 57 := rfl
          omega
        · rw [show c₂ :: urest = w₁ ++ ['분'] ++ w₂ ++ ['전'] from hu.symm]
          exact (tailMatch1_iff hbun _).mpr ⟨w₁, w₂, by simp, hw₁, hw₂⟩
    · -- two digits
      have hd₁ : isAsciiDigit d₁ = true := hdig d₁ (by simp)
      have hd₂ : isAsciiDigit d₂ = true := hdig d₂ (by simp)
      have hd₁r := isAsciiDigit_iff.mp hd₁
      have hd₂r := isAsciiDigit_iff.mp hd₂
      have h0n : d₁.toNat ≠ 48 := by
        intro hc
        apply h0
        simp only [List.head?_cons, Option.some.injEq]
        exact char_eq_iff.mpr (by rw [hc]; decide)
      have hval := digitsVal_two d₁ d₂
      show (if isAsciiDigit d₂ = true
        then (decide ('1' ≤ d₁) && decide (d₁ ≤ '5')) &&
          tailMatch1 '분' (w₁ ++ ['분'] ++ w₂ ++ ['전'])
        else (decide ('1' ≤ d₁) && decide (d₁ ≤ '9')) &&
          tailMatch1 '분' (d₂ :: (w₁ ++ ['분'] ++ w₂ ++ ['전']))) = true
      rw [if_pos hd₂]
      simp only [Bool.and_eq_true, decide_eq_true_eq]
      refine ⟨⟨?_, ?_⟩, ?_⟩
      · rw [char_le_iff]
        have c1 : ('1' : Char).toNat = 49 := rfl
        omega
      · rw [char_le_iff]
        have c5 : ('5' : Char).toNat = 53 := rfl
        omega
      · exact (tailMatch1_iff hbun _).mpr ⟨w₁, w₂, by simp, hw₁, hw₂⟩
    · -- three or more digits: value at least 100, contradiction
      have h100 : 10 ^ (d₂ :: d₃ :: tl).length ≤ digitsVal (d₁ :: d₂ :: d₃ :: tl) :=
        digitsVal_long_ge d₁ (d₂ :: d₃ :: tl)
          (fun hc => h0 (by simp [hc])) (hdig d₁ (by simp))
      have hlen : (2 : Nat) ≤ (d₂ :: d₃ :: tl).length := by
        simp only [List.length_cons]; omega
      have : (100 : Nat) ≤ 10 ^ (d₂ :: d₃ :: tl).length :=
        calc (100 : Nat) = 10 ^ 2 := by norm_num
          _ ≤ 10 ^ (d₂ :: d₃ :: tl).length := Nat.pow_le_pow_right (by omega) hlen
      omega

theorem fullmatchHours_iff (t : List Char) :
    fullmatchHours t = true ↔ HourShape t := by
  constructor
  · intro h
    rcases t with _ | ⟨d₁, _ | ⟨d₂, rest⟩⟩
    · exact absurd h (by simp [fullmatchHours])
    · exact absurd h (by simp [fullmatchHours])
    · have h' : (if isAsciiDigit d₂ = true
          then (decide (d₁ = '1') || (decide (d₁ = '2') && decide (d₂ ≤ '3'))) &&
            tailMatch2 rest
          else (decide ('1' ≤ d₁) && decide (d₁ ≤ '9')) &&
            tailMatch2 (d₂ :: rest)) = true := h
      clear h
      by_cases hd₂ : isAsciiDigit d₂ = true
      · rw [if_pos hd₂] at h'
        have h := h'
        simp only [Bool.and_eq_true, Bool.or_eq_true, decide_eq_true_eq] at h
        obtain ⟨hd₁, htail⟩ := h
        obtain ⟨s₁, s₂, hrest, hs₁, hs₂⟩ := (tailMatch2_iff rest).mp htail
        have hd₂r := isAsciiDigit_iff.mp hd₂
        have hd₁n : d₁.toNat = 49 ∨ (d₁.toNat = 50 ∧ d₂.toNat ≤ 51) := by
          rcases hd₁ with h1 | ⟨h2, h3⟩
          · left; rw [char_eq_iff] at h1; exact h1
          · right
            rw [char_eq_iff] at h2
            rw [char_le_iff] at h3
            exact ⟨h2, h3⟩
        refine ⟨[d₁, d₂], s₁, s₂, ?_, ?_, hs₁, hs₂, ?_, ?_, ?_⟩
        · simp [hrest]
        · refine ⟨by simp, ?_⟩
          intro c hc
          simp only [List.mem_cons, List.not_mem_nil, or_false] at hc
          rcases hc with rfl | rfl
          · exact isAsciiDigit_iff.mpr (by omega)
          · exact hd₂
        · intro hcon
          have hcon2 : some d₁ = some '0' := hcon
          have hd0 : d₁ = '0' := by injection hcon2
          rw [char_eq_iff] at hd0
          have c0 : ('0' : Char).toNat = 48 := rfl
          omega
        · rw [digitsVal_two]; omega
        · rw [digitsVal_two]; omega
      · rw [if_neg hd₂] at h'
        have h := h'
        simp only [Bool.and_eq_true, decide_eq_true_eq] at h
        obtain ⟨⟨h1, h9⟩, htail⟩ := h
        obtain ⟨s₁, s₂, hrest, hs₁, hs₂⟩ := (tailMatch2_iff _).mp htail
        have c1 : ('1' : Char).toNat = 49 := rfl
        have c9 : ('9' : Char).toNat = 57 := rfl
        have h1n := char_le_iff.mp h1
        have h9n := char_le_iff.mp h9
        refine ⟨[d₁], s₁, s₂, ?_, ?_, hs₁, hs₂, ?_, ?_, ?_⟩
        · simp [hrest]
        · refine ⟨by simp, ?_⟩
          intro c hc
          simp only [List.mem_cons, List.not_mem_nil, or_false] at hc
          subst hc
          exact isAsciiDigit_iff.mpr (by omega)
        · intro hcon
          have hcon2 : some d₁ = some '0' := hcon
          have hd0 : d₁ = '0' := by injection hcon2
          rw [char_eq_iff] at hd0
          have c0 : ('0' : Char).toNat = 48 := rfl
          omega
        · rw [digitsVal_one]; omega
        · rw [digitsVal_one]; omega
  · rintro ⟨ds, w₁, w₂, rfl, ⟨hne, hdig⟩, hw₁, hw₂, h0, hlo, hhi⟩
    rcases ds with _ | ⟨d₁, _ | ⟨d₂, _ | ⟨d₃, tl⟩⟩⟩
    · exact absurd rfl hne
    · -- one digit
      have hd₁ : isAsciiDigit d₁ = true := hdig d₁ (by simp)
      have hd₁r := isAsciiDigit_iff.mp hd₁
      have h0n : d₁.toNat ≠ 48 := by
        intro hc
        apply h0
        simp only [List.head?_cons, Option.some.injEq]
        exact char_eq_iff.mpr (by rw [hc]; decide)
      rcases hu : w₁ ++ ['시', '간'] ++ w₂ ++ ['전'] with _ | ⟨c₂, urest⟩
      · exact absurd hu (by simp)
      · have hteq : [d₁] ++ w₁ ++ ['시', '간'] ++ w₂ ++ ['전'] = d₁ :: c₂ :: urest := by
          simp only [List.singleton_append, List.cons_append]
          rw [← hu]; simp
        rw [hteq]
        have hc₂ : isAsciiDigit c₂ = false := by
          rcases w₁ with _ | ⟨a, w⟩
          · simp at hu
            rw [← hu.1]; decide
          · simp at hu
            rw [← hu.1]
            exact space_not_digit (hw₁ a (by simp))
        have hval := digitsVal_one d₁
        show (if isAsciiDigit c₂ = true
          then (decide (d₁ = '1') || (decide (d₁ = '2') && decide (c₂ ≤ '3'))) &&
            tailMatch2 urest
          else (decide ('1' ≤ d₁) && decide (d₁ ≤ '9')) &&
            tailMatch2 (c₂ :: urest)) = true
        rw [if_neg (by simp [hc₂])]
        simp only [Bool.and_eq_true, decide_eq_true_eq]
        refine ⟨⟨?_, ?_⟩, ?_⟩
        · rw [char_le_iff]
          have c1 : ('1' : Char).toNat = 49 := rfl
          omega
        · rw [char_le_iff]
          have c9 : ('9' : Char).toNat = 57 := rfl
          omega
        · rw [show c₂ :: urest = w₁ ++ ['시', '간'] ++ w₂ ++ ['전'] from hu.symm]
          exact (tailMatch2_iff _).mpr ⟨w₁, w₂, by simp, hw₁, hw₂⟩
    · -- two digits
      have hd₁ : isAsciiDigit d₁ = true := hdig d₁ (by simp)
      have hd₂ : isAsciiDigit d₂ = true := hdig d₂ (by simp)
      have hd₁r := isAsciiDigit_iff.mp hd₁
      have hd₂r := isAsciiDigit_iff.mp hd₂
      have h0n : d₁.toNat ≠ 48 := by
        intro hc
        apply h0
        simp only [List.head?_cons, Option.some.injEq]
        exact char_eq_iff.mpr (by rw [hc]; decide)
      have hval := digitsVal_two d₁ d₂
      show (if isAsciiDigit d₂ = true
        then (decide (d₁ = '1') || (decide (d₁ = '2') && decide (d₂ ≤ '3'))) &&
          tailMatch2 (w₁ ++ ['시', '간'] ++ w₂ ++ ['전'])
        else (decide ('1' ≤ d₁) && decide (d₁ ≤ '9')) &&
          tailMatch2 (d₂ :: (w₁ ++ ['시', '간'] ++ w₂ ++ ['전']))) = true
      rw [if_pos hd₂]
      simp only [Bool.and_eq_true, Bool.or_eq_true, decide_eq_true_eq]
      refine ⟨?_, (tailMatch2_iff _).mpr ⟨w₁, w₂, by simp, hw₁, hw₂⟩⟩
      · have c1 : ('1' : Char).toNat = 49 := rfl
        have c2 : ('2' : Char).toNat = 50 := rfl
        have c3 : ('3' : Char).toNat = 51 := rfl
        by_cases ha : d₁.toNat = 49
        · left; exact char_eq_iff.mpr (by omega)
        · right
          constructor
          · exact char_eq_iff.mpr (by omega)
          · rw [char_le_iff]; omega
    · -- three or more digits: value at least 100, contradiction
      have h100 : 10 ^ (d₂ :: d₃ :: tl).length ≤ digitsVal (d₁ :: d₂ :: d₃ :: tl) :=
        digitsVal_long_ge d₁ (d₂ :: d₃ :: tl)
          (fun hc => h0 (by simp [hc])) (hdig d₁ (by simp))
      have hlen : (2 : Nat) ≤ (d₂ :: d₃ :: tl).length := by
        simp only [List.length_cons]; omega
      have : (100 : Nat) ≤ 10 ^ (d₂ :: d₃ :: tl).length :=
        calc (100 : Nat) = 10 ^ 2 := by norm_num
          _ ≤ 10 ^ (d₂ :: d₃ :: tl).length := Nat.pow_le_pow_right (by omega) hlen
      omega

theorem parseRelativeAllowed_iff_shape (text : List Char) :
    parseRelativeAllowed text = true ↔ AmendedRecencyShape text := by
  unfold parseRelativeAllowed AmendedRecencyShape
  simp only [Bool.or_eq_true]
  exact or_congr (fullmatchMinutes_iff _) (fullmatchHours_iff _)

/-- C2, counterexample.  The claim says `parse_relative_allowed` accepts
exactly the whole-string shapes `X분 전` / `X시간 전` (after trimming) and
rejects every other string; but the regexes have `\s*` around the unit, so the
code also accepts `1분전`, which has none of the two claimed shapes. -/
theorem claim_C2_counterexample :
    parseRelativeAllowed "1분전".toList = true ∧
      specRecencyShape "1분전".toList = false := by
  constructor
  · decide
  · decide

/-- C2, amended.  `parse_relative_allowed` accepts exactly the strings that,
after trimming, consist of a decimal number without leading zero, optional
whitespace, the unit `분` (number in `[1,59]`) or `시간` (number in `[1,23]`),
optional whitespace and `전`; in particular it accepts `59분 전` and
`23시간 전` and rejects `60분 전`, `0분 전`, `24시간 전` and `1일 전`. -/
theorem claim_C2 :
    (∀ text : List Char,
        parseRelativeAllowed text = true ↔ AmendedRecencyShape text) ∧
    parseRelativeAllowed "59분 전".toList = true ∧
    parseRelativeAllowed "23시간 전".toList = true ∧
    parseRelativeAllowed "60분 전".toList = false ∧
    parseRelativeAllowed "0분 전".toList = false ∧
    parseRelativeAllowed "24시간 전".toList = false ∧
    parseRelativeAllowed "1일 전".toList = false :=
  ⟨parseRelativeAllowed_iff_shape, by decide, by decide, by decide, by decide,
    by decide, by decide⟩

/-- C2, witness: the amended characterization applied at the concrete input
`59분 전`. -/
theorem claim_C2_witness : parseRelativeAllowed "59분 전".toList = true :=
  (claim_C2.1 "59분 전".toList).mpr
    (Or.inl ⟨['5', '9'], [], [' '], by decide, ⟨by decide, by decide⟩,
      fun c hc => absurd hc (List.not_mem_nil c),
      fun c hc => by simp only [List.mem_singleton] at hc; subst hc; decide,
      by decide, by decide, by decide⟩)

/-- The snippet walk selects exactly the first node within the step budget
satisfying `snippetPred`, and yields its text (the empty string if there is
none). -/
theorem findSnippet_eq (title : List Char) (l : List HNode) (fuel : Nat) :
    findSnippet title l fuel =
      match (l.take fuel).find? (snippetPred title) with
      | some e => getTextStrip [' '] e
      | none => [] := by
  induction l generalizing fuel with
  | nil => cases fuel <;> simp [findSnippet]
  | cons e rest ih =>
    cases fuel with
    | zero => simp [findSnippet]
    | succ fuel =>
      cases e with
      | text s =>
        have hp : snippetPred title (.text s) = false := rfl
        simp only [findSnippet, List.take_succ_cons, List.find?_cons, hp,
          cond_false]
        exact ih fuel
      | elem nm attrs cls ch =>
        by_cases h1 : nm = "span".toList ∧ cls.isSome ∧
            SNIPPET_CLASSES.any (fun c => (cls.getD []).contains c) = true
        · by_cases h2 : (let txt := getTextStrip [' '] (HNode.elem nm attrs cls ch)
              txt ≠ [] ∧ txt ≠ title ∧ 10 ≤ txt.length)
          · have hp : snippetPred title (.elem nm attrs cls ch) = true := by
              show (if nm = "span".toList ∧ cls.isSome ∧
                  SNIPPET_CLASSES.any (fun c => (cls.getD []).contains c) = true
                then if (let txt := getTextStrip [' '] (HNode.elem nm attrs cls ch)
                    txt ≠ [] ∧ txt ≠ title ∧ 10 ≤ txt.length) then true else false
                else false) = true
              rw [if_pos h1, if_pos h2]
            simp only [findSnippet, List.take_succ_cons, List.find?_cons, hp,
              cond_true]
            rw [if_pos h1]
            show (if (getTextStrip [' '] (HNode.elem nm attrs cls ch) ≠ [] ∧
                getTextStrip [' '] (HNode.elem nm attrs cls ch) ≠ title ∧
                10 ≤ (getTextStrip [' '] (HNode.elem nm attrs cls ch)).length)
              then getTextStrip [' '] (HNode.elem nm attrs cls ch)
              else findSnippet title rest fuel) = _
            rw [if_pos h2]
          · have hp : snippetPred title (.elem nm attrs cls ch) = false := by
              show (if nm = "span".toList ∧ cls.isSome ∧
                  SNIPPET_CLASSES.any (fun c => (cls.getD []).contains c) = true
                then if (let txt := getTextStrip [' '] (HNode.elem nm attrs cls ch)
                    txt ≠ [] ∧ txt ≠ title ∧ 10 ≤ txt.length) then true else false
                else false) = false
              rw [if_pos h1, if_neg h2]
            simp only [findSnippet, List.take_succ_cons, List.find?_cons, hp,
              cond_false]
            rw [if_pos h1]
            show (if (getTextStrip [' '] (HNode.elem nm attrs cls ch) ≠ [] ∧
                getTextStrip [' '] (HNode.elem nm attrs cls ch) ≠ title ∧
                10 ≤ (getTextStrip [' '] (HNode.elem nm attrs cls ch)).length)
              then getTextStrip [' '] (HNode.elem nm attrs cls ch)
              else findSnippet title rest fuel) = _
            rw [if_neg h2]
            exact ih fuel
        · have hp : snippetPred title (.elem nm attrs cls ch) = false := by
            show (if nm = "span".toList ∧ cls.isSome ∧
                SNIPPET_CLASSES.any (fun c => (cls.getD []).contains c) = true
              then if (let txt := getTextStrip [' '] (HNode.elem nm attrs cls ch)
                  txt ≠ [] ∧ txt ≠ title ∧ 10 ≤ txt.length) then true else false
              else false) = false
            rw [if_neg h1]
          simp only [findSnippet, List.take_succ_cons, List.find?_cons, hp,
            cond_false]
          rw [if_neg h1]
          exact ih fuel

/-- C8: when the transport produces no document after all retry attempts,
`fetch_news` returns the empty row list.  (The embedding is total, so no
exception can propagate to the caller; the `return []` path is the entire
behaviour.) -/
theorem claim_C8 (attempts : List Char → Nat → AttemptResult) (maxRetry : Nat)
    (parseHtml : List Char → List HNode) (query : List Char) (maxN : Nat)
    (includeQueryCol : Bool)
    (hfail : getHtml (attempts (buildUrl query)) maxRetry = none) :
    fetchNews attempts maxRetry parseHtml query maxN includeQueryCol = [] := by
  simp only [fetchNews, hfail]

/-- C8, witness: a transport whose two attempts raise and then return a 503
exhausts its retries, and `fetch_news` returns no rows. -/
theorem claim_C8_witness :
    getHtml ((fun _ k => if k = 1 then AttemptResult.exc
      else AttemptResult.ok 503 "x".toList) (buildUrl "q".toList)) 2 = none ∧
    fetchNews (fun _ k => if k = 1 then AttemptResult.exc
      else AttemptResult.ok 503 "x".toList) 2 (fun _ => []) "q".toList 10
      true = [] := by
  refine ⟨rfl, ?_⟩
  exact claim_C8 _ 2 (fun _ => []) "q".toList 10 true rfl

/-- C9: in the dedup step, an empty normalized link key never collides: after
a card with empty link key is accepted, a second card with empty link key is
kept iff its normalized title is new — both rows survive when the titles
normalize differently, only the first when they normalize equally. -/
theorem claim_C9 (st : CState) (c₁ c₂ : Card) (q : List Char) (ic : Bool)
    (hl₁ : normalizeLink c₁.link = []) (hl₂ : normalizeLink c₂.link = [])
    (ht₁ : normalizeTitle c₁.title ∉ st.seenTitles) :
    ((normalizeTitle c₂.title ≠ normalizeTitle c₁.title ∧
        normalizeTitle c₂.title ∉ st.seenTitles) →
      (dedupAppend (dedupAppend st c₁ q ic) c₂ q ic).rows =
        st.rows ++ [mkRow c₁ q ic, mkRow c₂ q ic]) ∧
    (normalizeTitle c₂.title = normalizeTitle c₁.title →
      (dedupAppend (dedupAppend st c₁ q ic) c₂ q ic).rows =
        st.rows ++ [mkRow c₁ q ic]) := by
  have h₁ : dedupAppend st c₁ q ic =
      ⟨normalizeTitle c₁.title :: st.seenTitles, st.seenLinks,
        st.rows ++ [mkRow c₁ q ic]⟩ := by
    unfold dedupAppend
    rw [hl₁]
    simp [ht₁]
  constructor
  · rintro ⟨hne, hnew⟩
    rw [h₁]
    unfold dedupAppend
    rw [hl₂]
    have : normalizeTitle c₂.title ∉
        normalizeTitle c₁.title :: st.seenTitles := by
      simp only [List.mem_cons]
      rintro (h | h)
      · exact hne h
      · exact hnew h
    simp [this]
  · intro heq
    rw [h₁]
    unfold dedupAppend
    rw [hl₂]
    simp [heq]

/-- C9, witness: two cards with empty raw links (so empty normalized link
keys) and distinct titles are both kept from the empty state; with equal
titles only the first is kept. -/
theorem claim_C9_witness :
    (dedupAppend (dedupAppend initialCState ⟨"A".toList, [], []⟩ [] false)
        ⟨"B".toList, [], []⟩ [] false).rows =
      [mkRow ⟨"A".toList, [], []⟩ [] false, mkRow ⟨"B".toList, [], []⟩ [] false] := by
  have h := claim_C9 initialCState ⟨"A".toList, [], []⟩ ⟨"B".toList, [], []⟩
    [] false rfl rfl (by simp [initialCState])
  have h2 := h.1 ⟨by decide, by simp [initialCState]⟩
  simpa [initialCState] using h2

/-- C10: a title anchor with no `href` attribute still yields a card, whose
link is the empty string; the empty link normalizes to the empty key, so the
resulting row is deduplicated by its normalized title alone. -/
theorem claim_C10 (rest : List HNode) (a : HNode) (aRest : List HNode)
    (hfind : findTitleAnchor rest 200 = some (a, aRest))
    (hhref : a.attr "href".toList = none) :
    extractCardFromTimeSpan rest =
      some ⟨getTextStrip [] a, [], findSnippet (getTextStrip [] a) aRest 200⟩ ∧
    normalizeLink [] = [] ∧
    (∀ st q ic,
      (normalizeTitle (getTextStrip [] a) ∈ st.seenTitles →
        dedupAppend st ⟨getTextStrip [] a, [],
          findSnippet (getTextStrip [] a) aRest 200⟩ q ic = st) ∧
      (normalizeTitle (getTextStrip [] a) ∉ st.seenTitles →
        (dedupAppend st ⟨getTextStrip [] a, [],
          findSnippet (getTextStrip [] a) aRest 200⟩ q ic).rows =
          st.rows ++ [mkRow ⟨getTextStrip [] a, [],
            findSnippet (getTextStrip [] a) aRest 200⟩ q ic])) := by
  refine ⟨?_, rfl, ?_⟩
  · unfold extractCardFromTimeSpan
    rw [hfind]
    show some (⟨getTextStrip [] a, (HNode.attr "href".toList a).getD [],
      findSnippet (getTextStrip [] a) aRest 200⟩ : Card) = _
    rw [hhref]
    rfl
  · intro st q ic
    have hnl : normalizeLink [] = [] := rfl
    constructor
    · intro hmem
      unfold dedupAppend
      simp [hmem, hnl]
    · intro hmem
      unfold dedupAppend
      simp [hmem, hnl]

/-- C5, amended.  When the title walk finds an anchor, extraction always
succeeds, and the snippet is the text of exactly the first node within the
200-step budget that is a `span` with a class attribute containing AT LEAST
ONE of the two marker classes (the source tests `any`, not the claimed
superset) and whose trimmed text is non-empty, differs from the title and is
at least 10 characters long; if the budget is exhausted with no such node the
snippet is empty and extraction still succeeds. -/
theorem claim_C5 (rest : List HNode) (a : HNode) (aRest : List HNode)
    (hfind : findTitleAnchor rest 200 = some (a, aRest)) :
    extractCardFromTimeSpan rest =
      some ⟨getTextStrip [] a, (a.attr "href".toList).getD [],
        findSnippet (getTextStrip [] a) aRest 200⟩ ∧
    findSnippet (getTextStrip [] a) aRest 200 =
      (match (aRest.take 200).find? (snippetPred (getTextStrip [] a)) with
       | some e => getTextStrip [' '] e
       | none => []) ∧
    ((∀ e ∈ aRest.take 200, snippetPred (getTextStrip [] a) e = false) →
      extractCardFromTimeSpan rest =
        some ⟨getTextStrip [] a, (a.attr "href".toList).getD [], []⟩) := by
  have h1 : extractCardFromTimeSpan rest =
      some ⟨getTextStrip [] a, (a.attr "href".toList).getD [],
        findSnippet (getTextStrip [] a) aRest 200⟩ := by
    unfold extractCardFromTimeSpan
    rw [hfind]
  refine ⟨h1, findSnippet_eq _ _ _, ?_⟩
  intro hall
  have hnone : (aRest.take 200).find? (snippetPred (getTextStrip [] a)) =
      none := by
    rw [List.find?_eq_none]
    intro e he
    simp [hall e he]
  rw [h1, findSnippet_eq, hnone]

/-- C5, counterexample.  The claim requires the snippet node's class set to be
a superset of both marker classes; but the code accepts this node, whose class
set contains only one of them (`has_classes`, the source's own superset test,
is false on it), and takes its text as the snippet. -/
theorem claim_C5_counterexample :
    extractCardFromTimeSpan cex5Rest =
      some ⟨"Title".toList, "http://x/1".toList, "0123456789".toList⟩ ∧
    hasClasses cex5Snip SNIPPET_CLASSES = false := by
  constructor
  · decide
  · decide

/-- C5, witness: the amended characterization applied to the concrete
counterexample document. -/
theorem claim_C5_witness :
    extractCardFromTimeSpan cex5Rest =
      some ⟨getTextStrip [] cex5Anchor,
        (cex5Anchor.attr "href".toList).getD [],
        findSnippet (getTextStrip [] cex5Anchor)
          [.text "Title".toList, cex5Snip, .text "0123456789".toList] 200⟩ :=
  (claim_C5 cex5Rest cex5Anchor
    [.text "Title".toList, cex5Snip, .text "0123456789".toList] (by rfl)).1

theorem dedupAppend_cases (st : CState) (card : Card) (q : List Char)
    (ic : Bool) :
    dedupAppend st card q ic = st ∨
      ((dedupAppend st card q ic).rows = st.rows ++ [mkRow card q ic] ∧
        (dedupAppend st card q ic).seenTitles =
          normalizeTitle card.title :: st.seenTitles ∧
        (dedupAppend st card q ic).seenLinks =
          (if normalizeLink card.link ≠ [] then
            normalizeLink card.link :: st.seenLinks else st.seenLinks)) := by
  unfold dedupAppend
  by_cases h : (normalizeLink card.link ≠ [] ∧
      normalizeLink card.link ∈ st.seenLinks) ∨
      normalizeTitle card.title ∈ st.seenTitles
  · left; rw [if_pos h]
  · right; rw [if_neg h]
    exact ⟨rfl, rfl, rfl⟩

/-- The uncapped scan only appends rows, and the appended rows form an
order-preserving selection of the per-marker candidates. -/
theorem collectAllGo_rows (q : List Char) (ic : Bool)
    (spans : List (HNode × List HNode)) (st : CState) :
    ∃ extra, (collectAllGo q ic spans st).rows = st.rows ++ extra ∧
      List.Sublist extra (candidatesOf q ic spans) := by
  induction spans generalizing st with
  | nil => exact ⟨[], by simp [collectAllGo], List.nil_sublist _⟩
  | cons p spans ih =>
    obtain ⟨s, rest⟩ := p
    by_cases hrec : parseRelativeAllowed (getTextStrip [] s) = true
    · rcases hext : extractCardFromTimeSpan rest with _ | card
      · have hstep : collectAllGo q ic ((s, rest) :: spans) st =
            collectAllGo q ic spans st := by
          simp only [collectAllGo]
          rw [if_neg (by simp [hrec]), hext]
        have hcand : candidatesOf q ic ((s, rest) :: spans) =
            candidatesOf q ic spans := by
          simp only [candidatesOf]
          rw [List.filterMap_cons]
          simp [hrec, hext]
        rw [hstep, hcand]
        exact ih st
      · have hstep : collectAllGo q ic ((s, rest) :: spans) st =
            collectAllGo q ic spans (dedupAppend st card q ic) := by
          simp only [collectAllGo]
          rw [if_neg (by simp [hrec]), hext]
        have hcand : candidatesOf q ic ((s, rest) :: spans) =
            mkRow card q ic :: candidatesOf q ic spans := by
          simp only [candidatesOf]
          rw [List.filterMap_cons]
          simp [hrec, hext]
        rw [hstep, hcand]
        obtain ⟨extra, he, hs⟩ := ih (dedupAppend st card q ic)
        rcases dedupAppend_cases st card q ic with hd | ⟨hd, -, -⟩
        · rw [hd] at he
          rw [hd]
          exact ⟨extra, he, List.Sublist.cons _ hs⟩
        · rw [hd] at he
          refine ⟨mkRow card q ic :: extra, ?_, List.Sublist.cons₂ _ hs⟩
          rw [he]; simp
    · have hstep : collectAllGo q ic ((s, rest) :: spans) st =
          collectAllGo q ic spans st := by
        simp only [collectAllGo]
        rw [if_pos (by simp [hrec])]
      have hcand : candidatesOf q ic ((s, rest) :: spans) =
          candidatesOf q ic spans := by
        simp only [candidatesOf]
        rw [List.filterMap_cons]
        simp [hrec]
      rw [hstep, hcand]
      exact ih st

/-- The capped scan is the `max_n` length cut of the uncapped scan. -/
theorem collectGo_take (maxN : Nat) (q : List Char) (ic : Bool)
    (spans : List (HNode × List HNode)) (st : CState)
    (h : st.rows.length ≤ maxN) :
    (collectGo maxN q ic spans st).rows =
      ((collectAllGo q ic spans st).rows).take maxN := by
  induction spans generalizing st with
  | nil =>
    simp only [collectGo, collectAllGo]
    rw [List.take_of_length_le h]
  | cons p spans ih =>
    obtain ⟨s, rest⟩ := p
    by_cases hcap : st.rows.length ≥ maxN
    · have hcollect : collectGo maxN q ic ((s, rest) :: spans) st = st := by
        unfold collectGo
        rw [if_pos hcap]
      rw [hcollect]
      obtain ⟨extra, he, -⟩ := collectAllGo_rows q ic ((s, rest) :: spans) st
      rw [he]
      have hlen : st.rows.length = maxN := le_antisymm h hcap
      rw [List.take_append_eq_append_take, List.take_of_length_le h,
        hlen, Nat.sub_self, List.take_zero, List.append_nil]
    · have hcollect : collectGo maxN q ic ((s, rest) :: spans) st =
          (if ¬ parseRelativeAllowed (getTextStrip [] s) = true then
            collectGo maxN q ic spans st
          else
            match extractCardFromTimeSpan rest with
            | none => collectGo maxN q ic spans st
            | some card =>
              collectGo maxN q ic spans (dedupAppend st card q ic)) := by
        simp only [collectGo]
        rw [if_neg hcap]
      rw [hcollect]
      by_cases hrec : parseRelativeAllowed (getTextStrip [] s) = true
      · rcases hext : extractCardFromTimeSpan rest with _ | card
        · rw [if_neg (by simp [hrec])]
          have hall : collectAllGo q ic ((s, rest) :: spans) st =
              collectAllGo q ic spans st := by
            simp only [collectAllGo]
            rw [if_neg (by simp [hrec]), hext]
          rw [hall]
          exact ih st h
        · rw [if_neg (by simp [hrec])]
          have hall : collectAllGo q ic ((s, rest) :: spans) st =
              collectAllGo q ic spans (dedupAppend st card q ic) := by
            simp only [collectAllGo]
            rw [if_neg (by simp [hrec]), hext]
          rw [hall]
          apply ih
          rcases dedupAppend_cases st card q ic with hd | ⟨hd, -, -⟩
          · rw [hd]; exact h
          · rw [hd]
            simp only [List.length_append, List.length_cons,
              List.length_nil]
            omega
      · rw [if_pos (by simp [hrec])]
        have hall : collectAllGo q ic ((s, rest) :: spans) st =
            collectAllGo q ic spans st := by
          simp only [collectAllGo]
          rw [if_pos (by simp [hrec])]
        rw [hall]
        exact ih st h

theorem dedupAppend_inv (st : CState) (card : Card) (q : List Char) (ic : Bool)
    (h : CInv st) : CInv (dedupAppend st card q ic) := by
  unfold dedupAppend
  by_cases hcond : (normalizeLink card.link ≠ [] ∧
      normalizeLink card.link ∈ st.seenLinks) ∨
      normalizeTitle card.title ∈ st.seenTitles
  · rw [if_pos hcond]; exact h
  · rw [if_neg hcond]
    push_neg at hcond
    obtain ⟨hlink, htitle⟩ := hcond
    obtain ⟨hpw, hts, hls⟩ := h
    have hrowT : rowTitleKey (mkRow card q ic) = normalizeTitle card.title :=
      rfl
    have hrowL : rowLinkKey (mkRow card q ic) = normalizeLink card.link := rfl
    refine ⟨?_, ?_, ?_⟩
    · rw [List.pairwise_append]
      refine ⟨hpw, List.pairwise_singleton _ _, ?_⟩
      intro r hr r' hr'
      simp only [List.mem_singleton] at hr'
      subst hr'
      constructor
      · intro heq
        exact htitle (hrowT ▸ heq ▸ hts r hr)
      · intro heq
        by_contra hne
        have h1 : rowLinkKey r ∈ st.seenLinks := hls r hr hne
        have h2 : normalizeLink card.link ∈ st.seenLinks := by
          rw [← hrowL, ← heq]; exact h1
        have h3 : normalizeLink card.link ≠ [] := by
          rw [← hrowL, ← heq]; exact hne
        exact absurd h2 (hlink h3)
    · intro r hr
      rcases List.mem_append.mp hr with hr | hr
      · exact List.mem_cons_of_mem _ (hts r hr)
      · simp only [List.mem_singleton] at hr
        subst hr
        rw [hrowT]
        exact List.mem_cons_self _ _
    · intro r hr hne
      rcases List.mem_append.mp hr with hr | hr
      · have := hls r hr hne
        split
        · exact List.mem_cons_of_mem _ this
        · exact this
      · simp only [List.mem_singleton] at hr
        subst hr
        rw [hrowL] at hne ⊢
        rw [if_pos hne]
        exact List.mem_cons_self _ _

theorem collectGo_inv (maxN : Nat) (q : List Char) (ic : Bool)
    (spans : List (HNode × List HNode)) (st : CState) (h : CInv st) :
    CInv (collectGo maxN q ic spans st) := by
  induction spans generalizing st with
  | nil => exact h
  | cons p spans ih =>
    obtain ⟨s, rest⟩ := p
    simp only [collectGo]
    by_cases hcap : st.rows.length ≥ maxN
    · rw [if_pos hcap]; exact h
    · rw [if_neg hcap]
      by_cases hrec : parseRelativeAllowed (getTextStrip [] s) = true
      · rw [if_neg (by simp [hrec])]
        rcases hext : extractCardFromTimeSpan rest with _ | card
        · exact ih st h
        · exact ih _ (dedupAppend_inv st card q ic h)
      · rw [if_pos (by simp [hrec])]
        exact ih st h

/-- C3: within one `fetch_news` run no two emitted rows share a normalized
title key, and no two share a non-empty normalized link key; and once a
normalized title key has been seen, a later card with the same key (for
instance a title differing only in ASCII casing or whitespace, which
`normalize_title` collapses to the same key) leaves the state unchanged, so
only the first such card in document order is kept. -/
theorem claim_C3 :
    (∀ (doc : List HNode) (maxN : Nat) (q : List Char) (ic : Bool),
      List.Pairwise DistinctKeys (collectRows doc maxN q ic)) ∧
    (∀ (st : CState) (card : Card) (q : List Char) (ic : Bool),
      normalizeTitle card.title ∈ st.seenTitles →
        dedupAppend st card q ic = st) ∧
    (∀ t : List Char, normalizeTitle (lowerStr t) = normalizeTitle t) := by
  refine ⟨?_, ?_, ?_⟩
  · intro doc maxN q ic
    exact (collectGo_inv maxN q ic (timeSpansOf doc) initialCState
      ⟨List.Pairwise.nil, by simp [initialCState], by simp [initialCState]⟩).1
  · intro st card q ic hmem
    unfold dedupAppend
    rw [if_pos (Or.inr hmem)]
  · intro t
    unfold normalizeTitle lowerStr
    have hlow : ∀ c, asciiLower (asciiLower c) = asciiLower c := by
      intro c
      by_cases h : c.toNat ≥ 65 ∧ c.toNat ≤ 90
      · have h1 : asciiLower c = Char.ofNat (c.toNat + 32) := by
          unfold asciiLower
          rw [if_pos h]
        have hvalid : (c.toNat + 32).isValidChar := Or.inl (by omega)
        have hv : (Char.ofNat (c.toNat + 32)).toNat = c.toNat + 32 := by
          unfold Char.ofNat
          rw [dif_pos hvalid]
          rfl
        rw [h1]
        unfold asciiLower
        rw [if_neg (by rw [hv]; omega)]
      · have h1 : asciiLower c = c := by
          unfold asciiLower
          rw [if_neg h]
        rw [h1, h1]
    rw [List.map_map]
    have hfun : asciiLower ∘ asciiLower = asciiLower := funext hlow
    rw [hfun]

/-- C4: `fetch_news` emits at most `max_n` rows; it emits the first-`max_n`
cut of the uncapped scan (so a document with more than `max_n` eligible
markers — recency-accepted, successfully extracted, not dropped as a
duplicate — yields exactly `max_n` rows); and the uncapped scan is an
order-preserving selection of the per-marker candidate rows in document
order, so rows are never re-sorted. -/
theorem claim_C4 (doc : List HNode) (maxN : Nat) (q : List Char) (ic : Bool)
    (hm : 1 ≤ maxN) :
    (collectRows doc maxN q ic).length ≤ maxN ∧
    collectRows doc maxN q ic = (collectRowsAll doc q ic).take maxN ∧
    (maxN < (collectRowsAll doc q ic).length →
      (collectRows doc maxN q ic).length = maxN) ∧
    List.Sublist (collectRowsAll doc q ic) (markerCandidates doc q ic) := by
  have htake : collectRows doc maxN q ic =
      (collectRowsAll doc q ic).take maxN := by
    unfold collectRows collectRowsAll
    exact collectGo_take maxN q ic (timeSpansOf doc) initialCState
      (by simp [initialCState])
  refine ⟨?_, htake, ?_, ?_⟩
  · rw [htake, List.length_take]
    omega
  · intro hlt
    rw [htake, List.length_take]
    omega
  · obtain ⟨extra, he, hs⟩ :=
      collectAllGo_rows q ic (timeSpansOf doc) initialCState
    unfold collectRowsAll markerCandidates
    rw [he]
    simpa [initialCState] using hs

/-- C4, witness: the two-marker document capped at one row. -/
theorem claim_C4_witness :
    (collectRows cex4Doc 1 [] false).length ≤ 1 ∧
    collectRows cex4Doc 1 [] false = (collectRowsAll cex4Doc [] false).take 1 ∧
    1 < (collectRowsAll cex4Doc [] false).length ∧
    (collectRows cex4Doc 1 [] false).length = 1 := by
  have h := claim_C4 cex4Doc 1 [] false (by decide)
  have hlen : 1 < (collectRowsAll cex4Doc [] false).length := by decide
  exact ⟨h.1, h.2.1, hlen, h.2.2.1 hlen⟩

/-- C10, witness: extraction on the href-less anchor still succeeds, with an
empty link. -/
theorem claim_C10_witness :
    extractCardFromTimeSpan cex10Rest =
      some ⟨getTextStrip [] cex10Anchor, [],
        findSnippet (getTextStrip [] cex10Anchor)
          [.text "NoHref".toList] 200⟩ :=
  (claim_C10 cex10Rest cex10Anchor [.text "NoHref".toList]
    (by rfl) (by rfl)).1

theorem ofNat_toNat_eq {n : Nat} (h : n.isValidChar) :
    (Char.ofNat n).toNat = n := by
  unfold Char.ofNat
  rw [dif_pos h]
  rfl

theorem asciiLower_toNat (c : Char) :
    (asciiLower c = c ∧ ¬(65 ≤ c.toNat ∧ c.toNat ≤ 90)) ∨
    ((asciiLower c).toNat = c.toNat + 32 ∧ 65 ≤ c.toNat ∧ c.toNat ≤ 90) := by
  unfold asciiLower
  by_cases h : c.toNat ≥ 65 ∧ c.toNat ≤ 90
  · right
    rw [if_pos h, ofNat_toNat_eq (Or.inl (by omega))]
    exact ⟨rfl, h.1, h.2⟩
  · left
    rw [if_neg h]
    exact ⟨rfl, h⟩

theorem asciiLower_idem (c : Char) : asciiLower (asciiLower c) = asciiLower c := by
  rcases asciiLower_toNat c with ⟨h, hn⟩ | ⟨h, h1, h2⟩
  · rw [h, h]
  · show (if _ then _ else _) = _
    rw [if_neg (by omega)]

theorem lowerStr_idem (l : List Char) : lowerStr (lowerStr l) = lowerStr l := by
  unfold lowerStr
  rw [List.map_map]
  exact congrFun (congrArg List.map (funext asciiLower_idem)) l

theorem lowerStr_eq_nil {l : List Char} (h : lowerStr l = []) : l = [] :=
  List.map_eq_nil_iff.mp h

theorem mem_lowerStr {c : Char} {l : List Char} (h : c ∈ lowerStr l) :
    ∃ d ∈ l, c = asciiLower d := by
  obtain ⟨d, hd, he⟩ := List.mem_map.mp h
  exact ⟨d, hd, he.symm⟩

theorem asciiLower_not_delim {c : Char} (h : isNetlocDelim c = false) :
    isNetlocDelim (asciiLower c) = false := by
  rcases asciiLower_toNat c with ⟨he, hn⟩ | ⟨he, hr1, hr2⟩
  · rw [he]; exact h
  · have h47 : ('/' : Char).toNat = 47 := rfl
    have h63 : ('?' : Char).toNat = 63 := rfl
    have h35 : ('#' : Char).toNat = 35 := rfl
    unfold isNetlocDelim
    simp only [Bool.or_eq_false_iff, decide_eq_false_iff_not]
    exact ⟨⟨by rw [char_eq_iff, h47, he]; omega,
      by rw [char_eq_iff, h63, he]; omega⟩,
      by rw [char_eq_iff, h35, he]; omega⟩

theorem asciiLower_clean {c : Char}
    (hcl : c ≠ '\t' ∧ c ≠ '\r' ∧ c ≠ '\n') :
    asciiLower c ≠ '\t' ∧ asciiLower c ≠ '\r' ∧ asciiLower c ≠ '\n' := by
  rcases asciiLower_toNat c with ⟨he, hn⟩ | ⟨he, hr1, hr2⟩
  · rw [he]; exact hcl
  · have h9 : ('\t' : Char).toNat = 9 := rfl
    have h13 : ('\r' : Char).toNat = 13 := rfl
    have h10 : ('\n' : Char).toNat = 10 := rfl
    refine ⟨?_, ?_, ?_⟩
    · rw [ne_eq, char_eq_iff, h9, he]; omega
    · rw [ne_eq, char_eq_iff, h13, he]; omega
    · rw [ne_eq, char_eq_iff, h10, he]; omega

theorem asciiLower_not_bracket (c : Char) {d : Char}
    (hd : d.toNat = 91 ∨ d.toNat = 93) (h : asciiLower c = d) : c = d := by
  rcases asciiLower_toNat c with ⟨h0, hn⟩ | ⟨h0, hr1, hr2⟩
  · rw [← h0]; exact h
  · rw [char_eq_iff, h0] at h
    omega

theorem clean_lowerStr {l : List Char} (hl : Clean l) : Clean (lowerStr l) := by
  intro c hc
  obtain ⟨d, hd, he⟩ := mem_lowerStr hc
  rw [he]
  exact asciiLower_clean (hl d hd)

theorem clean_of_clean_mem {l m : List Char} (h : Clean l)
    (hm : ∀ c ∈ m, c ∈ l) : Clean m :=
  fun c hc => h c (hm c hc)

theorem dropWhile_eq_drop {p : Char → Bool} (l : List Char) :
    ∃ m, l.dropWhile p = l.drop m := by
  induction l with
  | nil => exact ⟨0, rfl⟩
  | cons a t ih =>
    by_cases ha : p a = true
    · obtain ⟨m, hm⟩ := ih
      refine ⟨m + 1, ?_⟩
      rw [List.dropWhile_cons_of_pos ha, List.drop_succ_cons]
      exact hm
    · exact ⟨0,
        by rw [List.dropWhile_cons_of_neg (by simpa using ha)]; rfl⟩

/-- Removing a trailing run of `c` yields a prefix: some `take`. -/
theorem rstripChar_eq_take (c : Char) (l : List Char) :
    ∃ n, rstripChar c l = l.take n := by
  obtain ⟨m, hm⟩ := dropWhile_eq_drop (p := fun d => d = c) l.reverse
  refine ⟨l.length - m, ?_⟩
  unfold rstripChar
  rw [hm, List.reverse_drop, List.reverse_reverse, List.length_reverse]

theorem rstripChar_dropWhile {c : Char} {l : List Char}
    (h : rstripChar c l = l) :
    l.reverse.dropWhile (fun d => d = c) = l.reverse := by
  have h2 := congrArg List.reverse h
  unfold rstripChar at h2
  rwa [List.reverse_reverse] at h2

theorem dropWhile_idem {p : Char → Bool} (l : List Char) :
    (l.dropWhile p).dropWhile p = l.dropWhile p := by
  induction l with
  | nil => rfl
  | cons a t ih =>
    by_cases ha : p a = true
    · rw [List.dropWhile_cons_of_pos ha]
      exact ih
    · rw [List.dropWhile_cons_of_neg (by simpa using ha),
        List.dropWhile_cons_of_neg (by simpa using ha)]

theorem rstripChar_idem (c : Char) (l : List Char) :
    rstripChar c (rstripChar c l) = rstripChar c l := by
  unfold rstripChar
  rw [List.reverse_reverse, dropWhile_idem]

/-- If the tail `y` does not end in the strip character, `rstrip` of
`x ++ y` is itself. -/
theorem rstripChar_append_keep {c : Char} {x y : List Char}
    (hy : rstripChar c y = y) (hne : y ≠ []) :
    rstripChar c (x ++ y) = x ++ y := by
  have hdw := rstripChar_dropWhile hy
  unfold rstripChar
  rw [List.reverse_append, List.dropWhile_append, hdw]
  rw [if_neg (by simp [hne])]
  rw [← List.reverse_append, List.reverse_reverse]

theorem takeWhile_append_of_all {p : Char → Bool} {l₁ l₂ : List Char}
    (h : ∀ c ∈ l₁, p c = true) :
    (l₁ ++ l₂).takeWhile p = l₁ ++ l₂.takeWhile p := by
  induction l₁ with
  | nil => rfl
  | cons a t ih =>
    rw [List.cons_append, List.takeWhile_cons_of_pos (h a (by simp)),
      ih (fun c hc => h c (by simp [hc])), List.cons_append]

theorem splitFirstChar_of_not_mem {sep : Char} {l : List Char}
    (h : sep ∉ l) : splitFirstChar sep l = none := by
  induction l with
  | nil => rfl
  | cons a t ih =>
    unfold splitFirstChar
    rw [if_neg (by rintro rfl; exact h (by simp)),
      ih (fun hm => h (by simp [hm]))]
    rfl

theorem splitFirstChar_append {sep : Char} {a b : List Char}
    (h : sep ∉ a) : splitFirstChar sep (a ++ sep :: b) = some (a, b) := by
  induction a with
  | nil =>
    show splitFirstChar sep (sep :: b) = some ([], b)
    unfold splitFirstChar
    rw [if_pos rfl]
  | cons x t ih =>
    rw [List.cons_append]
    unfold splitFirstChar
    rw [if_neg (by rintro rfl; exact h (by simp)),
      ih (fun hm => h (by simp [hm]))]
    rfl

theorem splitFirstChar_parts {sep : Char} {l a b : List Char}
    (h : splitFirstChar sep l = some (a, b)) :
    l = a ++ sep :: b ∧ sep ∉ a := by
  induction l generalizing a b with
  | nil => exact absurd h (by simp [splitFirstChar])
  | cons x t ih =>
    unfold splitFirstChar at h
    by_cases hx : x = sep
    · rw [if_pos hx] at h
      injection h with h
      injection h with h1 h2
      subst h1; subst h2; subst hx
      exact ⟨rfl, by simp⟩
    · rw [if_neg hx] at h
      match hs : splitFirstChar sep t with
      | none => rw [hs] at h; exact absurd h (by simp)
      | some (a₀, b₀) =>
        rw [hs] at h
        injection h with h
        injection h with h1 h2
        obtain ⟨he, hm⟩ := ih hs
        subst h2
        rw [← h1, he]
        refine ⟨rfl, ?_⟩
        intro hmem
        rcases List.mem_cons.mp hmem with h3 | h3
        · exact hx h3.symm
        · exact hm h3

theorem findIdx_colon_go (rest : List Char) :
    ∀ (pre : List Char) (i : Nat), (∀ c ∈ pre, ¬ c = ':') →
    List.findIdx? (fun c => c = ':') (pre ++ ':' :: rest) i =
      some (i + pre.length) := by
  intro pre
  induction pre with
  | nil =>
    intro i _
    rw [List.nil_append, List.findIdx?_cons, if_pos (by simp)]
    simp
  | cons a t ih =>
    intro i h
    rw [List.cons_append, List.findIdx?_cons,
      if_neg (by simpa using h a (by simp)),
      ih (i + 1) (fun c hc => h c (by simp [hc]))]
    simp
    omega

theorem findIdx_colon {pre rest : List Char} (h : ∀ c ∈ pre, ¬ c = ':') :
    (pre ++ ':' :: rest).findIdx? (fun c => c = ':') = some pre.length := by
  have h0 := findIdx_colon_go rest pre 0 h
  simpa using h0

/-! ## Toward C1: the UTF-8 and percent-encoding roundtrip -/

theorem char_valid (c : Char) :
    c.toNat < 0xd800 ∨ (0xe000 ≤ c.toNat ∧ c.toNat < 0x110000) :=
  c.valid

theorem ofNat_eq_self (c : Char) : Char.ofNat c.toNat = c := by
  rw [char_eq_iff, ofNat_toNat_eq]
  rcases char_valid c with h | h
  · exact Or.inl h
  · exact Or.inr h

theorem utf8Encode_ne_nil (c : Char) : utf8Encode c ≠ [] := by
  unfold utf8Encode
  intro h
  by_cases h1 : c.toNat < 128
  · rw [if_pos h1] at h
    simp at h
  · rw [if_neg h1] at h
    by_cases h2 : c.toNat < 2048
    · rw [if_pos h2] at h
      simp at h
    · rw [if_neg h2] at h
      by_cases h3 : c.toNat < 65536
      · rw [if_pos h3] at h
        simp at h
      · rw [if_neg h3] at h
        simp at h

theorem isCont_iff {b : Nat} : isCont b = true ↔ 0x80 ≤ b ∧ b ≤ 0xBF := by
  unfold isCont
  simp

/-- Decoding one step from the first byte of the UTF-8 encoding of a scalar
consumes exactly its bytes and yields it back. -/
theorem utf8Step_enc (c : Char) (rest : List Nat) (b : Nat) (bs : List Nat)
    (henc : utf8Encode c = b :: bs) : utf8Step b (bs ++ rest) = (c, rest) := by
  have hv := char_valid c
  unfold utf8Encode at henc
  by_cases h1 : c.toNat < 0x80
  · rw [if_pos h1] at henc
    injection henc with hb hbs
    subst hb
    subst hbs
    unfold utf8Step
    rw [List.nil_append, if_pos h1, ofNat_eq_self]
  · rw [if_neg h1] at henc
    by_cases h2 : c.toNat < 0x800
    · rw [if_pos h2] at henc
      injection henc with hb hrest
      subst hb
      subst hrest
      unfold utf8Step
      rw [if_neg (by omega), if_pos (by constructor <;> omega)]
      show (if isCont (0x80 + c.toNat % 64) then
        (Char.ofNat ((0xC0 + c.toNat / 64 - 0xC0) * 64 +
          (0x80 + c.toNat % 64 - 0x80)), rest)
        else (replacementChar, (0x80 + c.toNat % 64) :: rest)) = (c, rest)
      rw [if_pos (isCont_iff.mpr (by omega))]
      rw [show (0xC0 + c.toNat / 64 - 0xC0) * 64 + (0x80 + c.toNat % 64 - 0x80)
        = c.toNat from by omega, ofNat_eq_self]
    · rw [if_neg h2] at henc
      by_cases h3 : c.toNat < 0x10000
      · rw [if_pos h3] at henc
        injection henc with hb hrest
        subst hb
        subst hrest
        unfold utf8Step
        rw [if_neg (by omega), if_neg (by omega), if_pos (by constructor <;> omega)]
        show (if (if 0xE0 + c.toNat / 4096 = 0xE0 then
              0xA0 ≤ 0x80 + c.toNat / 64 % 64 ∧ 0x80 + c.toNat / 64 % 64 ≤ 0xBF
            else if 0xE0 + c.toNat / 4096 = 0xED then
              0x80 ≤ 0x80 + c.toNat / 64 % 64 ∧ 0x80 + c.toNat / 64 % 64 ≤ 0x9F
            else isCont (0x80 + c.toNat / 64 % 64) = true) then
            (if isCont (0x80 + c.toNat % 64) then
              (Char.ofNat ((0xE0 + c.toNat / 4096 - 0xE0) * 4096 +
                (0x80 + c.toNat / 64 % 64 - 0x80) * 64 +
                (0x80 + c.toNat % 64 - 0x80)), rest)
            else (replacementChar, (0x80 + c.toNat % 64) :: rest))
          else (replacementChar, (0x80 + c.toNat / 64 % 64) ::
            (0x80 + c.toNat % 64) :: rest)) = (c, rest)
        rw [if_pos ?_]
        · rw [if_pos (isCont_iff.mpr (by omega))]
          rw [show (0xE0 + c.toNat / 4096 - 0xE0) * 4096 +
            (0x80 + c.toNat / 64 % 64 - 0x80) * 64 +
            (0x80 + c.toNat % 64 - 0x80) = c.toNat from by omega, ofNat_eq_self]
        · by_cases hE0 : 0xE0 + c.toNat / 4096 = 0xE0
          · rw [if_pos hE0]
            omega
          · rw [if_neg hE0]
            by_cases hED : 0xE0 + c.toNat / 4096 = 0xED
            · rw [if_pos hED]
              omega
            · rw [if_neg hED]
              exact isCont_iff.mpr (by omega)
      · rw [if_neg h3] at henc
        injection henc with hb hrest
        subst hb
        subst hrest
        unfold utf8Step
        rw [if_neg (by omega), if_neg (by omega), if_neg (by omega),
          if_pos (by constructor <;> omega)]
        show (if (if 0xF0 + c.toNat / 262144 = 0xF0 then
              0x90 ≤ 0x80 + c.toNat / 4096 % 64 ∧ 0x80 + c.toNat / 4096 % 64 ≤ 0xBF
            else if 0xF0 + c.toNat / 262144 = 0xF4 then
              0x80 ≤ 0x80 + c.toNat / 4096 % 64 ∧ 0x80 + c.toNat / 4096 % 64 ≤ 0x8F
            else isCont (0x80 + c.toNat / 4096 % 64) = true) then
            (if isCont (0x80 + c.toNat / 64 % 64) then
              (if isCont (0x80 + c.toNat % 64) then
                (Char.ofNat ((0xF0 + c.toNat / 262144 - 0xF0) * 262144 +
                  (0x80 + c.toNat / 4096 % 64 - 0x80) * 4096 +
                  (0x80 + c.toNat / 64 % 64 - 0x80) * 64 +
                  (0x80 + c.toNat % 64 - 0x80)), rest)
              else (replacementChar, (0x80 + c.toNat % 64) :: rest))
            else (replacementChar, (0x80 + c.toNat / 64 % 64) ::
              (0x80 + c.toNat % 64) :: rest))
          else (replacementChar, (0x80 + c.toNat / 4096 % 64) ::
            (0x80 + c.toNat / 64 % 64) :: (0x80 + c.toNat % 64) :: rest)) =
          (c, rest)
        rw [if_pos ?_]
        · rw [if_pos (isCont_iff.mpr (by omega)),
            if_pos (isCont_iff.mpr (by omega))]
          rw [show (0xF0 + c.toNat / 262144 - 0xF0) * 262144 +
            (0x80 + c.toNat / 4096 % 64 - 0x80) * 4096 +
            (0x80 + c.toNat / 64 % 64 - 0x80) * 64 +
            (0x80 + c.toNat % 64 - 0x80) = c.toNat from by omega, ofNat_eq_self]
        · by_cases hF0 : 0xF0 + c.toNat / 262144 = 0xF0
          · rw [if_pos hF0]
            omega
          · rw [if_neg hF0]
            by_cases hF4 : 0xF0 + c.toNat / 262144 = 0xF4
            · rw [if_pos hF4]
              omega
            · rw [if_neg hF4]
              exact isCont_iff.mpr (by omega)

theorem utf8Step_length (b : Nat) (bs : List Nat) :
    (utf8Step b bs).2.length ≤ bs.length := by
  unfold utf8Step
  repeat' split
  all_goals simp_all
  all_goals omega

theorem utf8DecodeF_fuel : ∀ (f₁ f₂ : Nat) (l : List Nat),
    l.length ≤ f₁ → l.length ≤ f₂ → utf8DecodeF f₁ l = utf8DecodeF f₂ l := by
  intro f₁
  induction f₁ with
  | zero =>
    intro f₂ l h₁ _
    have : l = [] := List.length_eq_zero.mp (by omega)
    subst this
    cases f₂ <;> rfl
  | succ f ih =>
    intro f₂ l h₁ h₂
    match l with
    | [] => cases f₂ <;> rfl
    | b :: bs =>
      match f₂ with
      | 0 => simp at h₂
      | g + 1 =>
        show (utf8Step b bs).1 :: utf8DecodeF f (utf8Step b bs).2 =
          (utf8Step b bs).1 :: utf8DecodeF g (utf8Step b bs).2
        have hl := utf8Step_length b bs
        simp only [List.length_cons] at h₁ h₂
        rw [ih g (utf8Step b bs).2 (by omega) (by omega)]

/-- Decoding the concatenated UTF-8 encodings of a character list gives the
characters back. -/
theorem utf8DecodeF_flatMap : ∀ (cs : List Char) (fuel : Nat),
    (cs.flatMap utf8Encode).length ≤ fuel →
    utf8DecodeF fuel (cs.flatMap utf8Encode) = cs := by
  intro cs
  induction cs with
  | nil =>
    intro fuel _
    cases fuel <;> rfl
  | cons c cs ih =>
    intro fuel h
    rw [List.flatMap_cons] at h ⊢
    obtain ⟨b, bs, henc⟩ : ∃ b bs, utf8Encode c = b :: bs := by
      match h2 : utf8Encode c with
      | [] => exact absurd h2 (utf8Encode_ne_nil c)
      | x :: xs => exact ⟨x, xs, rfl⟩
    rw [henc] at h ⊢
    match fuel with
      | 0 => simp at h
      | f + 1 =>
        show (utf8Step b (bs ++ cs.flatMap utf8Encode)).1 ::
          utf8DecodeF f (utf8Step b (bs ++ cs.flatMap utf8Encode)).2 = c :: cs
        rw [utf8Step_enc c (cs.flatMap utf8Encode) b bs henc]
        show c :: utf8DecodeF f (cs.flatMap utf8Encode) = c :: cs
        rw [ih f (by
          simp only [List.length_append, List.length_cons] at h
          omega)]

theorem utf8Decode_flatMap (cs : List Char) :
    utf8Decode (cs.flatMap utf8Encode) = cs :=
  utf8DecodeF_flatMap cs _ le_rfl

theorem hexVal_hexDigitUpper {n : Nat} (h : n < 16) :
    hexVal (hexDigitUpper n) = some n := by
  unfold hexDigitUpper
  by_cases h10 : n < 10
  · rw [if_pos h10]
    have ht : (Char.ofNat (48 + n)).toNat = 48 + n :=
      ofNat_toNat_eq (Or.inl (by omega))
    unfold hexVal
    rw [ht, if_pos (by omega)]
    congr 1
    omega
  · rw [if_neg h10]
    have ht : (Char.ofNat (55 + n)).toNat = 55 + n :=
      ofNat_toNat_eq (Or.inl (by omega))
    unfold hexVal
    rw [ht, if_neg (by omega), if_pos (by omega)]
    congr 1
    omega

theorem pctTokenF_fuel : ∀ (f₁ f₂ : Nat) (l : List Char),
    l.length ≤ f₁ → l.length ≤ f₂ → pctTokenF f₁ l = pctTokenF f₂ l := by
  intro f₁
  induction f₁ with
  | zero =>
    intro f₂ l h₁ _
    have : l = [] := List.length_eq_zero.mp (by omega)
    subst this
    cases f₂ <;> rfl
  | succ f ih =>
    intro f₂ l h₁ h₂
    match l with
    | [] => cases f₂ <;> rfl
    | c :: rest =>
      match f₂ with
      | 0 => simp at h₂
      | g + 1 =>
        simp only [List.length_cons] at h₁ h₂
        show (if c = '%' then _ else _) = (if c = '%' then _ else _)
        by_cases hc : c = '%'
        · rw [if_pos hc, if_pos hc]
          match rest with
          | [] =>
            show Sum.inr '%' :: pctTokenF f [] = Sum.inr '%' :: pctTokenF g []
            rw [ih g [] (by simp) (by simp)]
          | [c₁] =>
            show Sum.inr '%' :: pctTokenF f [c₁] =
              Sum.inr '%' :: pctTokenF g [c₁]
            rw [ih g [c₁] (by simp at h₁ ⊢; omega) (by simp at h₂ ⊢; omega)]
          | c₁ :: c₂ :: rest₂ =>
            simp only [List.length_cons] at h₁ h₂
            match hv₁ : hexVal c₁, hv₂ : hexVal c₂ with
            | some h₀, some lo =>
              show (match hexVal c₁, hexVal c₂ with
                | some h₀, some lo => Sum.inl (h₀ * 16 + lo) :: pctTokenF f rest₂
                | _, _ => Sum.inr '%' :: pctTokenF f (c₁ :: c₂ :: rest₂)) =
                (match hexVal c₁, hexVal c₂ with
                | some h₀, some lo => Sum.inl (h₀ * 16 + lo) :: pctTokenF g rest₂
                | _, _ => Sum.inr '%' :: pctTokenF g (c₁ :: c₂ :: rest₂))
              rw [hv₁, hv₂]
              show Sum.inl (h₀ * 16 + lo) :: pctTokenF f rest₂ =
                Sum.inl (h₀ * 16 + lo) :: pctTokenF g rest₂
              rw [ih g rest₂ (by omega) (by omega)]
            | some h₀, none =>
              show (match hexVal c₁, hexVal c₂ with
                | some h₀, some lo => Sum.inl (h₀ * 16 + lo) :: pctTokenF f rest₂
                | _, _ => Sum.inr '%' :: pctTokenF f (c₁ :: c₂ :: rest₂)) =
                (match hexVal c₁, hexVal c₂ with
                | some h₀, some lo => Sum.inl (h₀ * 16 + lo) :: pctTokenF g rest₂
                | _, _ => Sum.inr '%' :: pctTokenF g (c₁ :: c₂ :: rest₂))
              rw [hv₁, hv₂]
              show Sum.inr '%' :: pctTokenF f (c₁ :: c₂ :: rest₂) =
                Sum.inr '%' :: pctTokenF g (c₁ :: c₂ :: rest₂)
              rw [ih g (c₁ :: c₂ :: rest₂) (by simp; omega) (by simp; omega)]
            | none, hv₂x =>
              show (match hexVal c₁, hexVal c₂ with
                | some h₀, some lo => Sum.inl (h₀ * 16 + lo) :: pctTokenF f rest₂
                | _, _ => Sum.inr '%' :: pctTokenF f (c₁ :: c₂ :: rest₂)) =
                (match hexVal c₁, hexVal c₂ with
                | some h₀, some lo => Sum.inl (h₀ * 16 + lo) :: pctTokenF g rest₂
                | _, _ => Sum.inr '%' :: pctTokenF g (c₁ :: c₂ :: rest₂))
              rw [hv₁]
              show Sum.inr '%' :: pctTokenF f (c₁ :: c₂ :: rest₂) =
                Sum.inr '%' :: pctTokenF g (c₁ :: c₂ :: rest₂)
              rw [ih g (c₁ :: c₂ :: rest₂) (by simp; omega) (by simp; omega)]
        · rw [if_neg hc, if_neg hc]
          show Sum.inr c :: pctTokenF f rest = Sum.inr c :: pctTokenF g rest
          rw [ih g rest (by omega) (by omega)]

theorem utf8Encode_bytes (c : Char) :
    ∀ b ∈ utf8Encode c, b < 256 ∧ (0x80 ≤ c.toNat → 0x80 ≤ b) := by
  have hv := char_valid c
  intro b hb
  unfold utf8Encode at hb
  by_cases h1 : c.toNat < 128
  · rw [if_pos h1] at hb
    simp only [List.mem_singleton] at hb
    omega
  · rw [if_neg h1] at hb
    by_cases h2 : c.toNat < 2048
    · rw [if_pos h2] at hb
      simp only [List.mem_cons, List.not_mem_nil, or_false] at hb
      rcases hb with rfl | rfl <;> omega
    · rw [if_neg h2] at hb
      by_cases h3 : c.toNat < 65536
      · rw [if_pos h3] at hb
        simp only [List.mem_cons, List.not_mem_nil, or_false] at hb
        rcases hb with rfl | rfl | rfl <;> omega
      · rw [if_neg h3] at hb
        simp only [List.mem_cons, List.not_mem_nil, or_false] at hb
        rcases hb with rfl | rfl | rfl | rfl <;> omega

theorem quotePy_cons (safe : List Nat) (c : Char) (s : List Char) :
    quotePy safe (c :: s) =
      (utf8Encode c).flatMap (quoteByte safe) ++ quotePy safe s := by
  unfold quotePy
  simp [List.flatMap]

theorem alwaysSafe_ge {b : Nat} (h : 0x80 ≤ b) : alwaysSafe b = false := by
  unfold alwaysSafe
  simp only [Bool.or_eq_false_iff, Bool.and_eq_false_iff,
    decide_eq_false_iff_not]
  omega

/-- A lone non-`%` character is a character token. -/
theorem pctTokenF_chr {c : Char} (hc : ¬ c = '%') (l : List Char) (f : Nat) :
    pctTokenF (f + 1) (c :: l) = Sum.inr c :: pctTokenF f l := by
  show (if c = '%' then _ else _) = _
  rw [if_neg hc]

/-- An escape triple is a byte token. -/
theorem pctTokenF_esc {b : Nat} (hb : b < 256) (l : List Char) (f : Nat) :
    pctTokenF (f + 1) ('%' :: hexDigitUpper (b / 16) ::
      hexDigitUpper (b % 16) :: l) = Sum.inl b :: pctTokenF f l := by
  show (if ('%' : Char) = '%' then _ else _) = _
  rw [if_pos rfl]
  show (match hexVal (hexDigitUpper (b / 16)), hexVal (hexDigitUpper (b % 16))
    with
    | some h₀, some lo => Sum.inl (h₀ * 16 + lo) :: pctTokenF f l
    | _, _ => Sum.inr '%' :: pctTokenF f (hexDigitUpper (b / 16) ::
        hexDigitUpper (b % 16) :: l)) = _
  rw [hexVal_hexDigitUpper (by omega), hexVal_hexDigitUpper (by omega)]
  show Sum.inl (b / 16 * 16 + b % 16) :: pctTokenF f l = _
  rw [show b / 16 * 16 + b % 16 = b from by omega]

/-- A run of escaped bytes tokenizes to the byte tokens. -/
theorem pctTokenF_escrun (safe : List Nat) :
    ∀ (bs : List Nat) (tail : List Char) (fuel : Nat),
    (∀ b ∈ bs, b < 256 ∧ (alwaysSafe b || safe.contains b) = false) →
    (bs.flatMap (quoteByte safe)).length + tail.length ≤ fuel →
    pctTokenF fuel (bs.flatMap (quoteByte safe) ++ tail) =
      bs.map Sum.inl ++ pctTokenF tail.length tail := by
  intro bs
  induction bs with
  | nil =>
    intro tail fuel _ hf
    rw [List.flatMap_nil, List.nil_append, List.map_nil, List.nil_append]
    exact pctTokenF_fuel fuel tail.length tail (by simpa using hf) le_rfl
  | cons b bs ih =>
    intro tail fuel hok hf
    have hb := hok b (by simp)
    have hqb3 : quoteByte safe b =
        ['%', hexDigitUpper (b / 16), hexDigitUpper (b % 16)] := by
      unfold quoteByte
      rw [if_neg (by rw [hb.2]; simp)]
    rw [List.flatMap_cons] at hf ⊢
    rw [hqb3] at hf ⊢
    simp only [List.length_append, List.length_cons, List.length_nil] at hf
    match fuel with
    | 0 => omega
    | f + 1 =>
      rw [List.append_assoc, List.cons_append, List.cons_append,
        List.cons_append, List.nil_append]
      rw [pctTokenF_esc hb.1]
      rw [pctTokenF_fuel f ((bs.flatMap (quoteByte safe)).length +
        tail.length) _ (by simp only [List.length_append]; omega)
        (by simp only [List.length_append]; exact le_rfl)]
      rw [ih tail _ (fun x hx => hok x (by simp [hx])) le_rfl]
      rfl

/-- Tokenizing the quoted form of a string: safe characters become character
tokens, every other character the byte tokens of its UTF-8 encoding. -/
theorem pctToken_quote (safe : List Nat)
    (hs : ∀ b ∈ safe, b < 0x80 ∧ b ≠ 37) :
    ∀ (s : List Char) (fuel : Nat), (quotePy safe s).length ≤ fuel →
    pctTokenF fuel (quotePy safe s) =
      s.flatMap (fun c =>
        if alwaysSafe c.toNat || safe.contains c.toNat then [Sum.inr c]
        else (utf8Encode c).map Sum.inl) := by
  intro s
  induction s with
  | nil =>
    intro fuel _
    cases fuel <;> rfl
  | cons c s ih =>
    intro fuel h
    rw [quotePy_cons] at h ⊢
    rw [List.flatMap_cons]
    by_cases hok : (alwaysSafe c.toNat || safe.contains c.toNat) = true
    · have hlt : c.toNat < 0x80 := by
        rcases Bool.or_eq_true_iff.mp hok with h0 | h0
        · unfold alwaysSafe at h0
          simp only [Bool.or_eq_true, Bool.and_eq_true,
            decide_eq_true_eq] at h0
          omega
        · have := hs c.toNat (by simpa using h0)
          omega
      have henc : utf8Encode c = [c.toNat] := by
        unfold utf8Encode
        rw [if_pos hlt]
      rw [henc] at h ⊢
      have hqb : quoteByte safe c.toNat = [c] := by
        unfold quoteByte
        rw [if_pos hok, ofNat_eq_self]
      rw [show ([c.toNat].flatMap (quoteByte safe)) = [c] from by
        rw [List.flatMap_cons, List.flatMap_nil, List.append_nil, hqb]] at h ⊢
      have hcp : ¬ c = '%' := by
        intro hc
        subst hc
        rcases Bool.or_eq_true_iff.mp hok with h0 | h0
        · exact absurd h0 (by decide)
        · have := hs '%'.toNat (by simpa using h0)
          exact this.2 rfl
      simp only [List.length_cons, List.singleton_append] at h ⊢
      match fuel with
      | 0 => omega
      | f + 1 =>
        rw [pctTokenF_chr hcp]
        rw [pctTokenF_fuel f (quotePy safe s).length _ (by omega) le_rfl]
        rw [ih _ le_rfl, if_pos hok, List.singleton_append]
    · have hunsafe : ∀ b ∈ utf8Encode c,
          b < 256 ∧ (alwaysSafe b || safe.contains b) = false := by
        intro b hb
        have hbb := utf8Encode_bytes c b hb
        by_cases hlt : c.toNat < 0x80
        · have henc : utf8Encode c = [c.toNat] := by
            unfold utf8Encode
            rw [if_pos hlt]
          rw [henc] at hb
          simp only [List.mem_singleton] at hb
          subst hb
          exact ⟨hbb.1, by simpa using hok⟩
        · have hge := hbb.2 (by omega)
          refine ⟨hbb.1, ?_⟩
          rw [alwaysSafe_ge hge, Bool.false_or]
          by_cases hmem : b ∈ safe
          · exact absurd (hs b hmem).1 (by omega)
          · simpa using hmem
      rw [pctTokenF_escrun safe (utf8Encode c) (quotePy safe s) fuel hunsafe
        (by simpa using h)]
      rw [ih _ le_rfl, if_neg hok]

/-- Feeding byte tokens accumulates them. -/
theorem pctDecode_bytes : ∀ (bs : List Nat) (T : List (Nat ⊕ Char))
    (acc : List Nat),
    pctDecode (bs.map Sum.inl ++ T) acc = pctDecode T (bs.reverse ++ acc) := by
  intro bs
  induction bs with
  | nil => intro T acc; rfl
  | cons b bs ih =>
    intro T acc
    rw [List.map_cons, List.cons_append]
    show pctDecode (bs.map Sum.inl ++ T) (b :: acc) = _
    rw [ih, List.reverse_cons, List.append_assoc]
    rfl

theorem pctDecode_chr (c : Char) (T : List (Nat ⊕ Char)) (acc : List Nat) :
    pctDecode (Sum.inr c :: T) acc =
      utf8Decode acc.reverse ++ c :: pctDecode T [] := rfl

/-- Decoding the token stream of a string restores it (with a pending run of
already-accumulated characters in front). -/
theorem pctDecode_run (safe : List Nat) :
    ∀ (s pending : List Char),
    pctDecode (s.flatMap (fun c =>
        if alwaysSafe c.toNat || safe.contains c.toNat then [Sum.inr c]
        else (utf8Encode c).map Sum.inl))
      ((pending.flatMap utf8Encode).reverse) = pending ++ s := by
  intro s
  induction s with
  | nil =>
    intro pending
    show utf8Decode ((pending.flatMap utf8Encode).reverse).reverse = _
    rw [List.reverse_reverse, utf8Decode_flatMap, List.append_nil]
  | cons c s ih =>
    intro pending
    rw [List.flatMap_cons]
    by_cases hok : (alwaysSafe c.toNat || safe.contains c.toNat) = true
    · rw [if_pos hok, List.singleton_append, pctDecode_chr,
        List.reverse_reverse, utf8Decode_flatMap]
      have h0 := ih []
      simp only [List.flatMap_nil, List.reverse_nil, List.nil_append] at h0
      rw [h0]
    · rw [if_neg hok, pctDecode_bytes]
      have hacc : (utf8Encode c).reverse ++
          (pending.flatMap utf8Encode).reverse =
          ((pending ++ [c]).flatMap utf8Encode).reverse := by
        rw [← List.reverse_append]
        congr 1
        simp
      rw [hacc, ih (pending ++ [c])]
      simp

/-- `unquote(quote(s, safe)) = s` whenever the extra safe bytes are ASCII and
not the percent sign. -/
theorem unquote_quote (safe : List Nat) (hs : ∀ b ∈ safe, b < 0x80 ∧ b ≠ 37)
    (s : List Char) : unquotePy (quotePy safe s) = s := by
  unfold unquotePy pctToken
  rw [pctToken_quote safe hs s _ le_rfl]
  simpa using pctDecode_run safe s []

theorem alwaysSafe_hex {n : Nat} (h : n < 16) :
    alwaysSafe (hexDigitUpper n).toNat = true := by
  unfold hexDigitUpper
  by_cases h10 : n < 10
  · rw [if_pos h10, ofNat_toNat_eq (Or.inl (by omega))]
    unfold alwaysSafe
    simp only [Bool.or_eq_true, Bool.and_eq_true, decide_eq_true_eq]
    omega
  · rw [if_neg h10, ofNat_toNat_eq (Or.inl (by omega))]
    unfold alwaysSafe
    simp only [Bool.or_eq_true, Bool.and_eq_true, decide_eq_true_eq]
    omega

/-- Every character of a quoted string is always-safe, an extra safe byte, or
the percent sign. -/
theorem quote_chars (safe : List Nat) (s : List Char) :
    ∀ c ∈ quotePy safe s,
      alwaysSafe c.toNat = true ∨ c.toNat ∈ safe ∨ c = '%' := by
  induction s with
  | nil =>
    intro c hc
    exact absurd hc (by intro h; exact List.not_mem_nil c h)
  | cons a s ih =>
    intro c hc
    rw [quotePy_cons] at hc
    rcases List.mem_append.mp hc with hc | hc
    · obtain ⟨b, hb, hcb⟩ := List.mem_flatMap.mp hc
      have hb256 := (utf8Encode_bytes a b hb).1
      unfold quoteByte at hcb
      by_cases hok : (alwaysSafe b || safe.contains b) = true
      · rw [if_pos hok] at hcb
        simp only [List.mem_singleton] at hcb
        subst hcb
        rw [ofNat_toNat_eq (Or.inl (by omega))]
        rcases Bool.or_eq_true_iff.mp hok with h0 | h0
        · exact Or.inl h0
        · exact Or.inr (Or.inl (by simpa using h0))
      · rw [if_neg hok] at hcb
        simp only [List.mem_cons, List.not_mem_nil, or_false] at hcb
        rcases hcb with rfl | rfl | rfl
        · exact Or.inr (Or.inr rfl)
        · exact Or.inl (alwaysSafe_hex (by omega))
        · exact Or.inl (alwaysSafe_hex (by omega))
    · exact ih c hc

theorem quotePlus_chars (s : List Char) :
    ∀ c ∈ quotePlusPy s,
      alwaysSafe c.toNat = true ∨ c = '+' ∨ c = '%' := by
  unfold quotePlusPy
  by_cases hsp : s.contains ' ' = true
  · rw [if_pos hsp]
    intro c hc
    obtain ⟨d, hd, he⟩ := List.mem_map.mp hc
    rcases quote_chars [32] s d hd with h0 | h0 | h0
    · by_cases hde : d = ' '
      · rw [← he, if_pos hde]
        exact Or.inr (Or.inl rfl)
      · rw [← he, if_neg hde]
        exact Or.inl h0
    · simp only [List.mem_singleton] at h0
      have hde : d = ' ' := by
        rw [char_eq_iff, h0]
        rfl
      rw [← he, if_pos hde]
      exact Or.inr (Or.inl rfl)
    · subst h0
      rw [← he, if_neg (by decide)]
      exact Or.inr (Or.inr rfl)
  · rw [if_neg hsp]
    intro c hc
    rcases quote_chars [] s c hc with h0 | h0 | h0
    · exact Or.inl h0
    · exact absurd h0 (List.not_mem_nil _)
    · exact Or.inr (Or.inr h0)

theorem map_id_of_fixed {α : Type} {f : α → α} :
    ∀ (l : List α), (∀ a ∈ l, f a = a) → l.map f = l := by
  intro l hl
  induction l with
  | nil => rfl
  | cons a t ih =>
    rw [List.map_cons, hl a (by simp), ih (fun x hx => hl x (by simp [hx]))]

theorem unquotePlus_quotePlus (s : List Char) :
    unquotePlusPy (quotePlusPy s) = s := by
  unfold quotePlusPy
  by_cases hsp : s.contains ' ' = true
  · rw [if_pos hsp]
    unfold unquotePlusPy
    rw [List.map_map]
    rw [map_id_of_fixed (quotePy [32] s) ?_]
    · exact unquote_quote [32] (by simp) s
    intro a ha
    show (if (if a = ' ' then '+' else a) = '+' then ' ' else
      (if a = ' ' then '+' else a)) = a
    by_cases hsp2 : a = ' '
    · rw [if_pos hsp2, if_pos rfl, hsp2]
    · rw [if_neg hsp2]
      have hap : ¬ a = '+' := by
        intro h0
        rcases quote_chars [32] s a ha with h1 | h1 | h1
        · rw [h0] at h1
          exact absurd h1 (by decide)
        · simp only [List.mem_singleton] at h1
          rw [h0] at h1
          exact absurd h1 (by decide)
        · rw [h0] at h1
          exact absurd h1 (by decide)
      rw [if_neg hap]
  · rw [if_neg hsp]
    unfold unquotePlusPy
    rw [map_id_of_fixed (quotePy [] s) ?_]
    · exact unquote_quote [] (by simp) s
    intro a ha
    show (if a = '+' then ' ' else a) = a
    have hap : ¬ a = '+' := by
      intro h0
      rcases quote_chars [] s a ha with h1 | h1 | h1
      · rw [h0] at h1
        exact absurd h1 (by decide)
      · exact absurd h1 (List.not_mem_nil _)
      · rw [h0] at h1
        exact absurd h1 (by decide)
    rw [if_neg hap]

/-! ## Toward C1: the query-string roundtrip -/

theorem not_mem_quotePlus {c : Char} (h1 : alwaysSafe c.toNat = false)
    (h2 : c ≠ '+') (h3 : c ≠ '%') (x : List Char) : c ∉ quotePlusPy x := by
  intro hmem
  rcases quotePlus_chars x c hmem with h0 | h0 | h0
  · rw [h1] at h0
    exact absurd h0 (by decide)
  · exact h2 h0
  · exact h3 h0

theorem splitOnChar_no_sep {sep : Char} :
    ∀ {l : List Char}, sep ∉ l → splitOnChar sep l = [l] := by
  intro l
  induction l with
  | nil => intro _; rfl
  | cons c rest ih =>
    intro h
    unfold splitOnChar
    rw [if_neg (by rintro rfl; exact h (by simp)),
      ih (fun hm => h (by simp [hm]))]

theorem splitOnChar_append {sep : Char} {a r : List Char} (h : sep ∉ a) :
    splitOnChar sep (a ++ sep :: r) = a :: splitOnChar sep r := by
  induction a with
  | nil =>
    show (if sep = sep then [] :: splitOnChar sep r else
      match splitOnChar sep r with
      | p :: t => (sep :: p) :: t
      | [] => [[sep]]) = [] :: splitOnChar sep r
    rw [if_pos rfl]
  | cons c a ih =>
    have hca : ¬ c = sep := by rintro rfl; exact h (by simp)
    rw [List.cons_append]
    show (if c = sep then [] :: splitOnChar sep (a ++ sep :: r) else
      match splitOnChar sep (a ++ sep :: r) with
      | p :: t => (c :: p) :: t
      | [] => [[c]]) = (c :: a) :: splitOnChar sep r
    rw [if_neg hca, ih (fun hm => h (by simp [hm]))]

theorem splitOn_intercalate (sep : Char) :
    ∀ (fs : List (List Char)), fs ≠ [] → (∀ f ∈ fs, sep ∉ f) →
    splitOnChar sep (List.intercalate [sep] fs) = fs := by
  intro fs
  induction fs with
  | nil => intro h _; exact absurd rfl h
  | cons f fs ih =>
    intro _ hns
    match fs with
    | [] =>
      rw [show List.intercalate [sep] [f] = f from by
        unfold List.intercalate
        simp]
      exact splitOnChar_no_sep (hns f (by simp))
    | f₂ :: rest =>
      rw [show List.intercalate [sep] (f :: f₂ :: rest) =
          f ++ sep :: List.intercalate [sep] (f₂ :: rest) from by
        unfold List.intercalate
        rw [List.intersperse_cons_cons, List.flatten_cons, List.flatten_cons]
        rw [List.singleton_append]]
      rw [splitOnChar_append (hns f (by simp)),
        ih (by simp) (fun x hx => hns x (by simp [hx]))]

theorem filterMap_eq_map_of_some {α β : Type} (f : α → Option β) (g : α → β) :
    ∀ (l : List α), (∀ x ∈ l, f x = some (g x)) → l.filterMap f = l.map g := by
  intro l
  induction l with
  | nil => intro _; rfl
  | cons a t ih =>
    intro h
    rw [List.filterMap_cons, h a (by simp), List.map_cons,
      ih (fun x hx => h x (by simp [hx]))]

/-- Running a field decoder that inverts one field over the encoded field
list gives back the flattened pairs. -/
theorem fields_filterMap (φ : List Char → Option (List Char × List Char))
    (hφ : ∀ k v, φ (quotePlusPy k ++ '=' :: quotePlusPy v) = some (k, v)) :
    ∀ (grps : List (List Char × List (List Char))),
    ((grps.map fun g => g.2.map fun v =>
      quotePlusPy g.1 ++ '=' :: quotePlusPy v).flatten).filterMap φ =
      grps.flatMap (fun g => g.2.map fun v => (g.1, v)) := by
  intro grps
  induction grps with
  | nil => rfl
  | cons g grps ih =>
    rw [List.map_cons, List.flatten_cons, List.filterMap_append,
      List.flatMap_cons, ih, List.filterMap_map]
    congr 1
    rw [filterMap_eq_map_of_some
      (φ ∘ fun v => quotePlusPy g.1 ++ '=' :: quotePlusPy v)
      (fun v => (g.1, v)) g.2 (fun v _ => hφ g.1 v)]

theorem intercalate_head_ne {sep : Char} {f : List Char}
    (hf : f ≠ []) (rest : List (List Char)) :
    List.intercalate [sep] (f :: rest) ≠ [] := by
  match rest with
  | [] =>
    rw [show List.intercalate [sep] [f] = f from by
      unfold List.intercalate
      simp]
    exact hf
  | r :: t =>
    unfold List.intercalate
    rw [List.intersperse_cons_cons, List.flatten_cons]
    simp [hf]

theorem amp_not_in_field (k v : List Char) :
    ('&' : Char) ∉ quotePlusPy k ++ '=' :: quotePlusPy v := by
  intro hmem
  rcases List.mem_append.mp hmem with h | h
  · exact not_mem_quotePlus (by decide) (by decide) (by decide) k h
  · rcases List.mem_cons.mp h with h | h
    · exact absurd h (by decide)
    · exact not_mem_quotePlus (by decide) (by decide) (by decide) v h

/-- `parse_qsl(urlencode(groups, doseq=True), keep_blank_values=True)` gives
back the flattened pairs when every group has at least one value. -/
theorem parseQsl_urlencode (grps : List (List Char × List (List Char)))
    (wf1 : ∀ g ∈ grps, g.2 ≠ []) :
    parseQsl (urlencodePy grps) true =
      grps.flatMap (fun g => g.2.map fun v => (g.1, v)) := by
  cases grps with
  | nil => rfl
  | cons g grps =>
    obtain ⟨v₀, vs', hg2⟩ : ∃ v vs, g.2 = v :: vs := by
      match h2 : g.2 with
      | [] => exact absurd h2 (wf1 g (by simp))
      | v :: vs => exact ⟨v, vs, rfl⟩
    have hfields : ((g :: grps).map fun gg => gg.2.map fun v =>
        quotePlusPy gg.1 ++ '=' :: quotePlusPy v).flatten =
        (quotePlusPy g.1 ++ '=' :: quotePlusPy v₀) ::
        ((vs'.map fun v => quotePlusPy g.1 ++ '=' :: quotePlusPy v) ++
          (grps.map fun gg => gg.2.map fun v =>
            quotePlusPy gg.1 ++ '=' :: quotePlusPy v).flatten) := by
      rw [List.map_cons, List.flatten_cons, hg2, List.map_cons,
        List.cons_append]
    have hffree : ∀ f ∈ ((g :: grps).map fun gg => gg.2.map fun v =>
        quotePlusPy gg.1 ++ '=' :: quotePlusPy v).flatten, ('&' : Char) ∉ f := by
      intro f hf
      obtain ⟨lst, hlst, hfl⟩ := List.mem_flatten.mp hf
      obtain ⟨gg, _, he⟩ := List.mem_map.mp hlst
      rw [← he] at hfl
      obtain ⟨v, _, hev⟩ := List.mem_map.mp hfl
      rw [← hev]
      exact amp_not_in_field gg.1 v
    have hfne : ((g :: grps).map fun gg => gg.2.map fun v =>
        quotePlusPy gg.1 ++ '=' :: quotePlusPy v).flatten ≠ [] := by
      rw [hfields]
      simp
    have hne : urlencodePy (g :: grps) ≠ [] := by
      unfold urlencodePy
      rw [hfields]
      exact intercalate_head_ne (by simp) _
    unfold parseQsl
    rw [if_neg hne]
    unfold urlencodePy
    rw [splitOn_intercalate '&' _ hfne hffree]
    rw [fields_filterMap _ ?_ (g :: grps)]
    intro k v
    simp only []
    rw [if_neg (by simp)]
    rw [splitFirstChar_append
      (not_mem_quotePlus (by decide) (by decide) (by decide) k)]
    show (if quotePlusPy v ≠ [] ∨ True then
      some (unquotePlusPy (quotePlusPy k), unquotePlusPy (quotePlusPy v))
      else none) = some (k, v)
    rw [if_pos (Or.inr trivial), unquotePlus_quotePlus, unquotePlus_quotePlus]

theorem insertGrp_cons (a : List Char × List (List Char))
    (rest : List (List Char × List (List Char))) (k : List Char)
    (v : List Char) :
    insertGrp (a :: rest) (k, v) =
      if a.1 = k then (a.1, a.2 ++ [v]) :: rest
      else a :: insertGrp rest (k, v) := rfl

theorem insertGrp_new {acc : List (List Char × List (List Char))}
    {k : List Char} (v : List Char) (hk : ∀ g ∈ acc, g.1 ≠ k) :
    insertGrp acc (k, v) = acc ++ [(k, [v])] := by
  induction acc with
  | nil => rfl
  | cons g rest ih =>
    rw [insertGrp_cons, if_neg (hk g (by simp)),
      ih (fun x hx => hk x (by simp [hx])), List.cons_append]

theorem insertGrp_last {k : List Char} (vs₀ : List (List Char))
    (v : List Char) :
    ∀ (acc₁ : List (List Char × List (List Char))),
    (∀ g ∈ acc₁, g.1 ≠ k) →
    insertGrp (acc₁ ++ [(k, vs₀)]) (k, v) = acc₁ ++ [(k, vs₀ ++ [v])] := by
  intro acc₁
  induction acc₁ with
  | nil =>
    intro _
    rw [List.nil_append, List.nil_append]
    show (if k = k then (k, vs₀ ++ [v]) :: [] else _) = [(k, vs₀ ++ [v])]
    rw [if_pos rfl]
  | cons g rest ih =>
    intro hk
    rw [List.cons_append, insertGrp_cons, if_neg (hk g (by simp)),
      ih (fun x hx => hk x (by simp [hx])), List.cons_append]

theorem foldl_insertGrp_value_run {k : List Char} :
    ∀ (vs : List (List Char)) (vs₀ : List (List Char))
      (acc₁ : List (List Char × List (List Char))),
    (∀ g ∈ acc₁, g.1 ≠ k) →
    List.foldl insertGrp (acc₁ ++ [(k, vs₀)]) (vs.map fun v => (k, v)) =
      acc₁ ++ [(k, vs₀ ++ vs)] := by
  intro vs
  induction vs with
  | nil =>
    intro vs₀ acc₁ _
    rw [List.map_nil, List.foldl_nil, List.append_nil]
  | cons v vs ih =>
    intro vs₀ acc₁ hk
    rw [List.map_cons, List.foldl_cons, insertGrp_last vs₀ v acc₁ hk,
      ih (vs₀ ++ [v]) acc₁ hk, List.append_assoc, List.singleton_append]

theorem foldl_insertGrp_groups :
    ∀ (grps : List (List Char × List (List Char)))
      (acc : List (List Char × List (List Char))),
    (∀ g ∈ grps, g.2 ≠ []) →
    List.Pairwise (fun a b => a.1 ≠ b.1) grps →
    (∀ g ∈ grps, ∀ a ∈ acc, a.1 ≠ g.1) →
    List.foldl insertGrp acc
      (grps.flatMap fun g => g.2.map fun v => (g.1, v)) = acc ++ grps := by
  intro grps
  induction grps with
  | nil =>
    intro acc _ _ _
    rw [List.flatMap_nil, List.foldl_nil, List.append_nil]
  | cons g grps ih =>
    intro acc wf1 wf2 hdisj
    obtain ⟨v₀, vs', hg2⟩ : ∃ v vs, g.2 = v :: vs := by
      match h2 : g.2 with
      | [] => exact absurd h2 (wf1 g (by simp))
      | v :: vs => exact ⟨v, vs, rfl⟩
    obtain ⟨hw2h, hw2t⟩ := List.pairwise_cons.mp wf2
    rw [List.flatMap_cons, List.foldl_append, hg2, List.map_cons,
      List.foldl_cons]
    rw [insertGrp_new v₀ (fun a ha => hdisj g (by simp) a ha)]
    rw [foldl_insertGrp_value_run vs' [v₀] acc
      (fun a ha => hdisj g (by simp) a ha)]
    rw [List.singleton_append, ← hg2]
    rw [ih (acc ++ [(g.1, g.2)]) (fun x hx => wf1 x (by simp [hx])) hw2t ?_]
    · rw [List.append_assoc, List.singleton_append]
    intro g' hg' a ha
    rcases List.mem_append.mp ha with ha | ha
    · exact hdisj g' (by simp [hg']) a ha
    · simp only [List.mem_singleton] at ha
      rw [ha]
      exact hw2h g' hg'

/-- Re-parsing an urlencoded well-formed group list gives it back. -/
theorem parseQs_urlencode (grps : List (List Char × List (List Char)))
    (wf1 : ∀ g ∈ grps, g.2 ≠ [])
    (wf2 : List.Pairwise (fun a b => a.1 ≠ b.1) grps) :
    parseQs (urlencodePy grps) true = grps := by
  unfold parseQs
  rw [parseQsl_urlencode grps wf1]
  simpa using foldl_insertGrp_groups grps [] wf1 wf2 (by simp)

theorem insertGrp_keys :
    ∀ (acc : List (List Char × List (List Char))) (k : List Char)
      (v : List Char), ∀ g ∈ insertGrp acc (k, v),
      g.1 = k ∨ g.1 ∈ acc.map Prod.fst := by
  intro acc
  induction acc with
  | nil =>
    intro k v g hg
    simp only [insertGrp, List.mem_singleton] at hg
    rw [hg]
    exact Or.inl rfl
  | cons a rest ih =>
    intro k v g hg
    rw [insertGrp_cons] at hg
    by_cases ha : a.1 = k
    · rw [if_pos ha] at hg
      rcases List.mem_cons.mp hg with rfl | hg
      · exact Or.inl ha
      · exact Or.inr (List.mem_map.mpr ⟨g, List.mem_cons_of_mem a hg, rfl⟩)
    · rw [if_neg ha] at hg
      rcases List.mem_cons.mp hg with rfl | hg
      · exact Or.inr (by simp)
      · rcases ih k v g hg with h | h
        · exact Or.inl h
        · exact Or.inr (by simp [h])

theorem insertGrp_vals {acc : List (List Char × List (List Char))}
    {k : List Char} {v : List Char} (hv : ∀ g ∈ acc, g.2 ≠ []) :
    ∀ g ∈ insertGrp acc (k, v), g.2 ≠ [] := by
  induction acc with
  | nil =>
    intro g hg
    simp only [insertGrp, List.mem_singleton] at hg
    rw [hg]
    simp
  | cons a rest ih =>
    intro g hg
    rw [insertGrp_cons] at hg
    by_cases ha : a.1 = k
    · rw [if_pos ha] at hg
      rcases List.mem_cons.mp hg with rfl | hg
      · simp
      · exact hv g (by simp [hg])
    · rw [if_neg ha] at hg
      rcases List.mem_cons.mp hg with rfl | hg
      · exact hv g (by simp)
      · exact ih (fun x hx => hv x (by simp [hx])) g hg

theorem insertGrp_pairwise {acc : List (List Char × List (List Char))}
    {k : List Char} {v : List Char}
    (hp : List.Pairwise (fun a b => a.1 ≠ b.1) acc) :
    List.Pairwise (fun a b => a.1 ≠ b.1) (insertGrp acc (k, v)) := by
  induction acc with
  | nil => simp [insertGrp]
  | cons a rest ih =>
    obtain ⟨hh, ht⟩ := List.pairwise_cons.mp hp
    rw [insertGrp_cons]
    by_cases ha : a.1 = k
    · rw [if_pos ha]
      exact List.pairwise_cons.mpr ⟨hh, ht⟩
    · rw [if_neg ha]
      refine List.pairwise_cons.mpr ⟨?_, ih ht⟩
      intro b hb
      rcases insertGrp_keys rest k v b hb with h | h
      · rw [h]
        exact ha
      · obtain ⟨g₀, hg₀, he⟩ := List.mem_map.mp h
        rw [← he]
        exact hh g₀ hg₀

/-- The groups produced by `parse_qs` have pairwise distinct keys and
non-empty value lists. -/
theorem parseQs_wf (qs : List Char) (kb : Bool) :
    List.Pairwise (fun a b => a.1 ≠ b.1) (parseQs qs kb) ∧
    ∀ g ∈ parseQs qs kb, g.2 ≠ [] := by
  unfold parseQs
  generalize parseQsl qs kb = pairs
  have hgen : ∀ (pairs : List (List Char × List Char))
      (acc : List (List Char × List (List Char))),
      List.Pairwise (fun a b => a.1 ≠ b.1) acc → (∀ g ∈ acc, g.2 ≠ []) →
      List.Pairwise (fun a b => a.1 ≠ b.1) (List.foldl insertGrp acc pairs) ∧
      ∀ g ∈ List.foldl insertGrp acc pairs, g.2 ≠ [] := by
    intro pairs
    induction pairs with
    | nil => intro acc h1 h2; exact ⟨h1, h2⟩
    | cons p rest ih =>
      intro acc h1 h2
      rw [List.foldl_cons]
      exact ih (insertGrp acc p) (insertGrp_pairwise h1)
        (insertGrp_vals h2)
  exact hgen pairs [] (by simp) (by simp)

/-! ## Toward C1: sorting lemmas -/

theorem mem_insertSorted {x : List Char} :
    ∀ (l : List (List Char)) {z : List Char},
    z ∈ insertSorted x l → z = x ∨ z ∈ l := by
  intro l
  induction l with
  | nil =>
    intro z hz
    simp only [insertSorted, List.mem_singleton] at hz
    exact Or.inl hz
  | cons y ys ih =>
    intro z hz
    unfold insertSorted at hz
    by_cases hxy : x ≤ y
    · rw [if_pos hxy] at hz
      rcases List.mem_cons.mp hz with rfl | hz
      · exact Or.inl rfl
      · exact Or.inr hz
    · rw [if_neg hxy] at hz
      rcases List.mem_cons.mp hz with rfl | hz
      · exact Or.inr (by simp)
      · rcases ih hz with h | h
        · exact Or.inl h
        · exact Or.inr (by simp [h])

theorem pairwise_insertSorted (x : List Char) :
    ∀ (l : List (List Char)), List.Pairwise (· ≤ ·) l →
    List.Pairwise (· ≤ ·) (insertSorted x l) := by
  intro l
  induction l with
  | nil => intro _; simp [insertSorted]
  | cons y ys ih =>
    intro hp
    obtain ⟨hh, ht⟩ := List.pairwise_cons.mp hp
    unfold insertSorted
    by_cases hxy : x ≤ y
    · rw [if_pos hxy]
      refine List.pairwise_cons.mpr ⟨?_, hp⟩
      intro z hz
      rcases List.mem_cons.mp hz with rfl | hz
      · exact hxy
      · exact le_trans hxy (hh z hz)
    · rw [if_neg hxy]
      refine List.pairwise_cons.mpr ⟨?_, ih ht⟩
      intro z hz
      rcases mem_insertSorted ys hz with rfl | hz
      · exact le_of_not_le hxy
      · exact hh z hz

theorem sortStrs_sorted (l : List (List Char)) :
    List.Pairwise (· ≤ ·) (sortStrs l) := by
  induction l with
  | nil => simp [sortStrs]
  | cons a t ih =>
    show List.Pairwise (· ≤ ·) (insertSorted a (sortStrs t))
    exact pairwise_insertSorted a _ ih

theorem sortStrs_of_sorted :
    ∀ (l : List (List Char)), List.Pairwise (· ≤ ·) l → sortStrs l = l := by
  intro l
  induction l with
  | nil => intro _; rfl
  | cons a t ih =>
    intro hp
    obtain ⟨hh, ht⟩ := List.pairwise_cons.mp hp
    show insertSorted a (sortStrs t) = a :: t
    rw [ih ht]
    match t, hh with
    | [], _ => rfl
    | b :: ts, hh =>
      show (if a ≤ b then a :: b :: ts else _) = _
      rw [if_pos (hh b (by simp))]

theorem sortStrs_idem (l : List (List Char)) :
    sortStrs (sortStrs l) = sortStrs l :=
  sortStrs_of_sorted _ (sortStrs_sorted l)

theorem insertSorted_length (x : List Char) :
    ∀ (l : List (List Char)),
    (insertSorted x l).length = l.length + 1 := by
  intro l
  induction l with
  | nil => rfl
  | cons y ys ih =>
    unfold insertSorted
    by_cases hxy : x ≤ y
    · rw [if_pos hxy]
      rfl
    · rw [if_neg hxy, List.length_cons, ih, List.length_cons]

theorem sortStrs_ne_nil {l : List (List Char)} (h : l ≠ []) :
    sortStrs l ≠ [] := by
  match l, h with
  | a :: t, _ =>
    show insertSorted a (sortStrs t) ≠ []
    intro h0
    have := insertSorted_length a (sortStrs t)
    rw [h0] at this
    simp at this

/-! ## Toward C1: structure of `urlsplit` results -/

theorem clean_removeUnsafe (l : List Char) : Clean (removeUnsafe l) := by
  intro c hc
  have h := List.of_mem_filter hc
  simp only [decide_not, Bool.not_eq_eq_eq_not, Bool.not_true,
    decide_eq_false_iff_not] at h
  push_neg at h
  exact ⟨h.1, h.2.1, h.2.2⟩

theorem splitFirstChar_none_mem {sep : Char} :
    ∀ {l : List Char}, splitFirstChar sep l = none → sep ∉ l := by
  intro l
  induction l with
  | nil => intro _ h; exact List.not_mem_nil sep h
  | cons c rest ih =>
    intro h hmem
    unfold splitFirstChar at h
    by_cases hc : c = sep
    · rw [if_pos hc] at h
      exact absurd h (by simp)
    · rw [if_neg hc] at h
      match hs : splitFirstChar sep rest with
      | some p => rw [hs] at h; exact absurd h (by simp)
      | none =>
        rcases List.mem_cons.mp hmem with h2 | h2
        · exact hc h2.symm
        · exact ih hs h2

theorem headD_append {a : List Char} (h : a ≠ []) (b : List Char) (d : Char) :
    (a ++ b).headD d = a.headD d := by
  match a, h with
  | x :: t, _ => rfl

theorem headD_lowerStr {a : List Char} (h : a ≠ []) :
    (lowerStr a).headD ' ' = asciiLower (a.headD ' ') := by
  match a, h with
  | x :: t, _ => rfl

theorem asciiLower_alpha {c : Char} (h : isAsciiAlpha c = true) :
    isAsciiAlpha (asciiLower c) = true := by
  unfold isAsciiAlpha at h ⊢
  simp only [Bool.or_eq_true, Bool.and_eq_true, decide_eq_true_eq] at h ⊢
  rcases asciiLower_toNat c with ⟨he, hn⟩ | ⟨he, h1, h2⟩
  · rw [he]
    exact h
  · rw [he]
    omega

theorem isSchemeChar_iff {c : Char} : isSchemeChar c = true ↔
    (65 ≤ c.toNat ∧ c.toNat ≤ 90) ∨ (97 ≤ c.toNat ∧ c.toNat ≤ 122) ∨
    (48 ≤ c.toNat ∧ c.toNat ≤ 57) ∨ c.toNat = 43 ∨ c.toNat = 45 ∨
    c.toNat = 46 := by
  have h48 : ('0' : Char).toNat = 48 := rfl
  have h57 : ('9' : Char).toNat = 57 := rfl
  have h43 : ('+' : Char).toNat = 43 := rfl
  have h45 : ('-' : Char).toNat = 45 := rfl
  have h46 : ('.' : Char).toNat = 46 := rfl
  unfold isSchemeChar isAsciiAlpha isAsciiDigit
  simp only [Bool.or_eq_true, Bool.and_eq_true, decide_eq_true_eq,
    char_le_iff, char_eq_iff, h48, h57, h43, h45, h46]
  tauto

theorem asciiLower_schemeChar {c : Char} (h : isSchemeChar c = true) :
    isSchemeChar (asciiLower c) = true := by
  rcases asciiLower_toNat c with ⟨he, hn⟩ | ⟨he, h1, h2⟩
  · rw [he]
    exact h
  · exact isSchemeChar_iff.mpr (Or.inr (Or.inl ⟨by omega, by omega⟩))

theorem take_one_append {a : List Char} (h : a ≠ []) (b : List Char) :
    (a ++ b).take 1 = a.take 1 := by
  match a, h with
  | x :: t, _ =>
    rw [List.cons_append, List.take_succ_cons, List.take_succ_cons,
      List.take_zero, List.take_zero]

theorem delim_cases {c : Char} (h : isNetlocDelim c = true) :
    c = '/' ∨ c = '?' ∨ c = '#' := by
  unfold isNetlocDelim at h
  simp only [Bool.or_eq_true, decide_eq_true_eq] at h
  tauto

theorem findIdx_aux (p : Char → Bool) :
    ∀ (l : List Char) (s i : Nat), List.findIdx? p l s = some i →
    ∃ a c b, l = a ++ c :: b ∧ p c = true ∧ (∀ d ∈ a, p d = false) ∧
      i = s + a.length := by
  intro l
  induction l with
  | nil =>
    intro s i h
    exact absurd h (by simp)
  | cons c rest ih =>
    intro s i h
    rw [List.findIdx?_cons] at h
    by_cases hc : p c = true
    · rw [if_pos hc] at h
      injection h with h
      exact ⟨[], c, rest, rfl, hc, by simp, by simp [h.symm]⟩
    · rw [if_neg hc] at h
      obtain ⟨a, c₀, b, he, hpc, ha, hi⟩ := ih (s + 1) i h
      refine ⟨c :: a, c₀, b, by rw [he, List.cons_append], hpc, ?_, ?_⟩
      · intro d hd
        rcases List.mem_cons.mp hd with rfl | hd
        · simpa using hc
        · exact ha d hd
      · rw [List.length_cons]
        omega

theorem drop_succ_append {a b : List Char} (c : Char) :
    (a ++ c :: b).drop (a.length + 1) = b := by
  induction a with
  | nil => simp
  | cons x t ih =>
    rw [List.cons_append, List.length_cons, List.drop_succ_cons]
    exact ih

/-- `splitScheme` on a string built from a valid scheme and a colon. -/
theorem splitScheme_append {sch : List Char} (rest : List Char)
    (h1 : sch ≠ []) (h2 : isAsciiAlpha (sch.headD ' ') = true)
    (h3 : sch.all isSchemeChar = true) :
    splitScheme (sch ++ ':' :: rest) = (lowerStr sch, rest) := by
  have hcolon : ∀ c ∈ sch, ¬ c = ':' := by
    intro c hc he
    have := List.all_eq_true.mp h3 c hc
    rw [he] at this
    exact absurd this (by decide)
  unfold splitScheme
  rw [findIdx_colon hcolon]
  show (if 0 < sch.length ∧
      isAsciiAlpha ((sch ++ ':' :: rest).headD ' ') = true ∧
      ((sch ++ ':' :: rest).take sch.length).all isSchemeChar = true then
      (lowerStr ((sch ++ ':' :: rest).take sch.length),
        (sch ++ ':' :: rest).drop (sch.length + 1))
    else ([], sch ++ ':' :: rest)) = (lowerStr sch, rest)
  rw [List.take_left, headD_append h1, drop_succ_append]
  rw [if_pos ⟨List.length_pos.mpr h1, h2, h3⟩]

/-- Structure of a `splitScheme` result. -/
theorem splitScheme_spec (u : List Char) :
    splitScheme u = ([], u) ∨
    ∃ pre rest, u = pre ++ ':' :: rest ∧
      splitScheme u = (lowerStr pre, rest) ∧ pre ≠ [] ∧
      isAsciiAlpha (pre.headD ' ') = true ∧ pre.all isSchemeChar = true := by
  unfold splitScheme
  match hf : u.findIdx? (fun c => c = ':') with
  | none => exact Or.inl rfl
  | some i =>
    by_cases hcond : 0 < i ∧ isAsciiAlpha (u.headD ' ') = true ∧
        (u.take i).all isSchemeChar = true
    · right
      obtain ⟨a, c, b, he, hpc, ha, hi⟩ := findIdx_aux _ u 0 i hf
      have hc : c = ':' := by simpa using hpc
      subst hc
      have hia : i = a.length := by omega
      have hane : a ≠ [] := by
        intro h0
        rw [h0] at hia
        simp at hia
        omega
      have htake : u.take i = a := by rw [he, hia, List.take_left]
      have hdrop : u.drop (i + 1) = b := by rw [he, hia, drop_succ_append]
      refine ⟨a, b, he, ?_, hane, ?_, ?_⟩
      · show (if 0 < i ∧ isAsciiAlpha (u.headD ' ') = true ∧
            (u.take i).all isSchemeChar = true then
            (lowerStr (u.take i), u.drop (i + 1)) else ([], u)) =
          (lowerStr a, b)
        rw [if_pos hcond, htake, hdrop]
      · rw [he, headD_append hane] at hcond
        exact hcond.2.1
      · rw [← htake]
        exact hcond.2.2
    · refine Or.inl ?_
      show (if 0 < i ∧ isAsciiAlpha (u.headD ' ') = true ∧
          (u.take i).all isSchemeChar = true then
          (lowerStr (u.take i), u.drop (i + 1)) else ([], u)) = ([], u)
      rw [if_neg hcond]

/-- Structure of `_splitparams`: the non-params part keeps only characters of
the input and keeps its first character. -/
theorem splitparams_sub (u : List Char) :
    (∀ c ∈ (splitparamsPy u).1, c ∈ u) ∧
    ((splitparamsPy u).1 ≠ [] →
      (splitparamsPy u).1.take 1 = u.take 1) := by
  simp only [splitparamsPy]
  by_cases hsl : ('/' : Char) ∈ u
  · rw [if_pos hsl]
    have hsplit : (u.reverse.dropWhile (fun c => c ≠ '/')).reverse ++
        (u.reverse.takeWhile (fun c => c ≠ '/')).reverse = u := by
      rw [← List.reverse_append, List.takeWhile_append_dropWhile,
        List.reverse_reverse]
    have hpre_ne : (u.reverse.dropWhile (fun c => c ≠ '/')).reverse ≠ [] := by
      simp only [ne_eq, List.reverse_eq_nil_iff]
      intro h0
      have hall := List.dropWhile_eq_nil_iff.mp h0
      have h2 := hall '/' (by simpa using hsl)
      simp at h2
    match hsc : splitFirstChar ';'
        ((u.reverse.takeWhile (fun c => c ≠ '/')).reverse) with
    | none => exact ⟨fun c hc => hc, fun _ => rfl⟩
    | some (a, b) =>
      obtain ⟨hseg, _⟩ := splitFirstChar_parts hsc
      constructor
      · intro c hc
        rcases List.mem_append.mp hc with hc | hc
        · rw [← hsplit]
          exact List.mem_append.mpr (Or.inl hc)
        · rw [← hsplit]
          refine List.mem_append.mpr (Or.inr ?_)
          rw [hseg]
          exact List.mem_append.mpr (Or.inl hc)
      · intro _
        rw [take_one_append hpre_ne]
        conv_rhs => rw [← hsplit]
        rw [take_one_append hpre_ne]
  · rw [if_neg hsl]
    match hsc : splitFirstChar ';' u with
    | none => exact ⟨fun c hc => hc, fun _ => rfl⟩
    | some (a, b) =>
      obtain ⟨hseg, _⟩ := splitFirstChar_parts hsc
      constructor
      · intro c hc
        rw [hseg]
        exact List.mem_append.mpr (Or.inl hc)
      · intro hne
        rw [hseg, take_one_append hne]

theorem dropWhile_cons_false {p : Char → Bool} :
    ∀ {l : List Char} {x : Char} {t : List Char},
    l.dropWhile p = x :: t → p x = false := by
  intro l
  induction l with
  | nil => intro x t h; simp at h
  | cons a r ih =>
    intro x t h
    by_cases ha : p a = true
    · rw [List.dropWhile_cons_of_pos ha] at h
      exact ih h
    · rw [List.dropWhile_cons_of_neg (by simpa using ha)] at h
      injection h with h1 _
      rw [← h1]
      simpa using ha

/-- The path piece cut out by the fragment and query splits contains no `?`
or `#`, only characters of the remainder, and keeps its first character. -/
theorem frag_query_path (u2 : List Char) :
    ('?' : Char) ∉ (match splitFirstChar '?'
        (match splitFirstChar '#' u2 with
        | some p => p
        | none => (u2, [])).1 with
      | some p => p
      | none => ((match splitFirstChar '#' u2 with
          | some p => p
          | none => (u2, [])).1, [])).1 ∧
    ('#' : Char) ∉ (match splitFirstChar '?'
        (match splitFirstChar '#' u2 with
        | some p => p
        | none => (u2, [])).1 with
      | some p => p
      | none => ((match splitFirstChar '#' u2 with
          | some p => p
          | none => (u2, [])).1, [])).1 ∧
    (∀ c ∈ (match splitFirstChar '?'
        (match splitFirstChar '#' u2 with
        | some p => p
        | none => (u2, [])).1 with
      | some p => p
      | none => ((match splitFirstChar '#' u2 with
          | some p => p
          | none => (u2, [])).1, [])).1, c ∈ u2) ∧
    ((match splitFirstChar '?'
        (match splitFirstChar '#' u2 with
        | some p => p
        | none => (u2, [])).1 with
      | some p => p
      | none => ((match splitFirstChar '#' u2 with
          | some p => p
          | none => (u2, [])).1, [])).1 ≠ [] →
      (match splitFirstChar '?'
        (match splitFirstChar '#' u2 with
        | some p => p
        | none => (u2, [])).1 with
      | some p => p
      | none => ((match splitFirstChar '#' u2 with
          | some p => p
          | none => (u2, [])).1, [])).1.take 1 = u2.take 1) := by
  have main : ∀ (f1 : List Char), ('#' : Char) ∉ f1 → (∀ c ∈ f1, c ∈ u2) →
      (f1 ≠ [] → f1.take 1 = u2.take 1) →
      ('?' : Char) ∉ (match splitFirstChar '?' f1 with
        | some p => p
        | none => (f1, [])).1 ∧
      ('#' : Char) ∉ (match splitFirstChar '?' f1 with
        | some p => p
        | none => (f1, [])).1 ∧
      (∀ c ∈ (match splitFirstChar '?' f1 with
        | some p => p
        | none => (f1, [])).1, c ∈ u2) ∧
      ((match splitFirstChar '?' f1 with
        | some p => p
        | none => (f1, [])).1 ≠ [] →
        (match splitFirstChar '?' f1 with
        | some p => p
        | none => (f1, [])).1.take 1 = u2.take 1) := by
    intro f1 hhash hsub htake
    match hq : splitFirstChar '?' f1 with
    | none =>
      exact ⟨splitFirstChar_none_mem hq, hhash, hsub, htake⟩
    | some (a, b) =>
      obtain ⟨hparts, hnot⟩ := splitFirstChar_parts hq
      refine ⟨hnot, ?_, ?_, ?_⟩
      · intro hmem
        exact hhash (by rw [hparts]; exact List.mem_append.mpr (Or.inl hmem))
      · intro c hc
        exact hsub c (by rw [hparts]; exact List.mem_append.mpr (Or.inl hc))
      · intro hne
        rw [← htake (by rw [hparts]; simp), hparts, take_one_append hne]
  match hf : splitFirstChar '#' u2 with
  | none =>
    exact main u2 (splitFirstChar_none_mem hf) (fun c hc => hc) (fun _ => rfl)
  | some (a1, b1) =>
    obtain ⟨hparts, hnot⟩ := splitFirstChar_parts hf
    exact main a1 hnot
      (fun c hc => by rw [hparts]; exact List.mem_append.mpr (Or.inl hc))
      (fun hne => by rw [hparts, take_one_append hne])

/-- Invariants of a successful `urlparse`: scheme shape, netloc and path
character classes, and the leading slash of the path under a netloc. -/
theorem urlparse_inv (url : List Char) (p : URLParts)
    (hp : urlparsePy url = some p) :
    (p.scheme = [] ∨ (p.scheme ≠ [] ∧
      isAsciiAlpha (p.scheme.headD ' ') = true ∧
      p.scheme.all isSchemeChar = true ∧ lowerStr p.scheme = p.scheme)) ∧
    (∀ c ∈ p.netloc, isNetlocDelim c = false) ∧
    ('[' : Char) ∉ p.netloc ∧ (']' : Char) ∉ p.netloc ∧
    ('?' : Char) ∉ p.path ∧ ('#' : Char) ∉ p.path ∧
    (p.netloc ≠ [] → p.path = [] ∨ p.path.take 1 = ['/']) ∧
    Clean p.netloc ∧ Clean p.path := by
  unfold urlparsePy at hp
  rcases Option.map_eq_some'.mp hp with ⟨su, hsu, hfp⟩
  unfold urlsplitPy at hsu
  simp only [] at hsu
  generalize hu2 : removeUnsafe (url.dropWhile isC0OrSpace) = url2 at hsu
  have hclean2 : Clean url2 := by
    rw [← hu2]
    exact clean_removeUnsafe _
  -- the scheme component and the post-scheme remainder
  have hscheme : (∃ u1 : List Char, splitScheme url2 = ((splitScheme url2).1, u1) ∧
      (∀ c ∈ u1, c ∈ url2) ∧
      ((splitScheme url2).1 = [] ∨ ((splitScheme url2).1 ≠ [] ∧
        isAsciiAlpha ((splitScheme url2).1.headD ' ') = true ∧
        (splitScheme url2).1.all isSchemeChar = true ∧
        lowerStr (splitScheme url2).1 = (splitScheme url2).1))) := by
    rcases splitScheme_spec url2 with hss | ⟨pre, rest, hu2eq, hss, hpre,
      halpha, hschC⟩
    · refine ⟨url2, by rw [hss], fun c hc => hc, Or.inl (by rw [hss])⟩
    · refine ⟨rest, by rw [hss], ?_, Or.inr ⟨?_, ?_, ?_, ?_⟩⟩
      · intro c hc
        rw [hu2eq]
        exact List.mem_append.mpr (Or.inr (by simp [hc]))
      · rw [hss]
        show lowerStr pre ≠ []
        exact fun h0 => hpre (lowerStr_eq_nil h0)
      · rw [hss]
        show isAsciiAlpha ((lowerStr pre).headD ' ') = true
        rw [headD_lowerStr hpre]
        exact asciiLower_alpha halpha
      · rw [hss]
        show (lowerStr pre).all isSchemeChar = true
        rw [List.all_eq_true]
        intro c hc
        obtain ⟨d, hd, he⟩ := mem_lowerStr hc
        rw [he]
        exact asciiLower_schemeChar (List.all_eq_true.mp hschC d hd)
      · rw [hss]
        show lowerStr (lowerStr pre) = lowerStr pre
        exact lowerStr_idem pre
  obtain ⟨u1, hsseq, hu1sub, hschemeOK⟩ := hscheme
  rw [hsseq] at hsu
  simp only [] at hsu
  by_cases hta : u1.take 2 = ['/', '/']
  · rw [if_pos hta] at hsu
    simp only [] at hsu
    generalize hNL : List.takeWhile (fun c => !isNetlocDelim c)
      (List.drop 2 u1) = NL at hsu
    generalize hU2 : List.dropWhile (fun c => !isNetlocDelim c)
      (List.drop 2 u1) = U2 at hsu
    have hnl_delim : ∀ c ∈ NL, isNetlocDelim c = false := by
      intro c hc
      rw [← hNL] at hc
      have := List.mem_takeWhile_imp hc
      simpa using this
    have hnl_sub : ∀ c ∈ NL, c ∈ url2 := by
      intro c hc
      rw [← hNL] at hc
      exact hu1sub c (List.drop_subset 2 u1
        ((List.takeWhile_sublist _).subset hc))
    have hu2sub : ∀ c ∈ U2, c ∈ url2 := by
      intro c hc
      rw [← hU2] at hc
      exact hu1sub c (List.drop_subset 2 u1
        ((List.dropWhile_sublist _).subset hc))
    have hu2head : ∀ (x : Char) (t : List Char), U2 = x :: t →
        isNetlocDelim x = true := by
      intro x t hxt
      have h4 := dropWhile_cons_false
        (show (List.drop 2 u1).dropWhile (fun c => !isNetlocDelim c) = x :: t
          from by rw [hU2]; exact hxt)
      simpa using h4
    by_cases hbr : ('[' : Char) ∈ NL ∨ (']' : Char) ∈ NL
    · rw [if_pos hbr] at hsu
      exact absurd hsu (by simp)
    · rw [if_neg hbr] at hsu
      push_neg at hbr
      injection hsu with hsu
      subst hsu
      simp only [] at hfp
      obtain ⟨hq1, hq2, hq3, hq4⟩ := frag_query_path U2
      generalize hP0 : (match splitFirstChar '?'
          (match splitFirstChar '#' U2 with
          | some p => p
          | none => (U2, [])).1 with
        | some p => p
        | none => ((match splitFirstChar '#' U2 with
            | some p => p
            | none => (U2, [])).1, [])).1 = path0 at hfp hq1 hq2 hq3 hq4
      have hcleanNL : Clean NL := clean_of_clean_mem hclean2 hnl_sub
      have hslash : ∀ (path1 : List Char), (∀ c ∈ path1, c ∈ path0) →
          (path1 ≠ [] → path1.take 1 = path0.take 1) →
          (NL ≠ [] → path1 = [] ∨ path1.take 1 = ['/']) := by
        intro path1 hsub htk _
        by_cases hpe : path1 = []
        · exact Or.inl hpe
        · right
          obtain ⟨c0, hc0⟩ : ∃ c0, c0 ∈ path1 := by
            match path1, hpe with
            | x :: t, _ => exact ⟨x, by simp⟩
          have hpne : path0 ≠ [] := by
            intro h0
            rw [h0] at hsub
            exact List.not_mem_nil c0 (hsub c0 hc0)
          have htk2 : path1.take 1 = U2.take 1 := by
            rw [htk hpe]
            exact hq4 hpne
          have hU2ne : U2 ≠ [] := by
            intro h0
            rw [h0] at htk2
            simp only [List.take_nil] at htk2
            match path1, hpe, htk2 with
            | x :: t, _, htk2 => simp at htk2
          obtain ⟨x, t, hxt⟩ : ∃ x t, U2 = x :: t := by
            match U2, hU2ne with
            | x :: t, _ => exact ⟨x, t, rfl⟩
          have hx : isNetlocDelim x = true := hu2head x t hxt
          rw [htk2, hxt]
          rcases delim_cases hx with rfl | rfl | rfl
          · rfl
          · exfalso
            refine absurd (hsub '?' ?_) (fun hmem => hq1 hmem)
            have : '?' ∈ path1.take 1 := by
              rw [htk2, hxt]
              simp
            exact List.take_subset 1 path1 this
          · exfalso
            refine absurd (hsub '#' ?_) (fun hmem => hq2 hmem)
            have : '#' ∈ path1.take 1 := by
              rw [htk2, hxt]
              simp
            exact List.take_subset 1 path1 this
      by_cases hpp : (splitScheme url2).1 ∈ usesParams ∧ ';' ∈ path0
      · rw [if_pos hpp] at hfp
        subst hfp
        obtain ⟨hsp_sub, hsp_take⟩ := splitparams_sub path0
        refine ⟨hschemeOK, hnl_delim, hbr.1, hbr.2, ?_, ?_, ?_, hcleanNL, ?_⟩
        · exact fun hmem => hq1 (hsp_sub '?' hmem)
        · exact fun hmem => hq2 (hsp_sub '#' hmem)
        · exact hslash _ hsp_sub hsp_take
        · exact clean_of_clean_mem hclean2
            (fun c hc => hu2sub c (hq3 c (hsp_sub c hc)))
      · rw [if_neg hpp] at hfp
        subst hfp
        refine ⟨hschemeOK, hnl_delim, hbr.1, hbr.2, hq1, hq2, ?_,
          hcleanNL, clean_of_clean_mem hclean2 (fun c hc => hu2sub c (hq3 c hc))⟩
        exact hslash path0 (fun c hc => hc) (fun _ => rfl)
  · rw [if_neg hta] at hsu
    simp only [] at hsu
    rw [if_neg (by simp)] at hsu
    injection hsu with hsu
    subst hsu
    simp only [] at hfp
    obtain ⟨hq1, hq2, hq3, hq4⟩ := frag_query_path u1
    generalize hP0 : (match splitFirstChar '?'
        (match splitFirstChar '#' u1 with
        | some p => p
        | none => (u1, [])).1 with
      | some p => p
      | none => ((match splitFirstChar '#' u1 with
          | some p => p
          | none => (u1, [])).1, [])).1 = path0 at hfp hq1 hq2 hq3 hq4
    by_cases hpp : (splitScheme url2).1 ∈ usesParams ∧ ';' ∈ path0
    · rw [if_pos hpp] at hfp
      subst hfp
      obtain ⟨hsp_sub, hsp_take⟩ := splitparams_sub path0
      refine ⟨hschemeOK, by simp, by simp, by simp, ?_, ?_, ?_, by simp [Clean], ?_⟩
      · exact fun hmem => hq1 (hsp_sub '?' hmem)
      · exact fun hmem => hq2 (hsp_sub '#' hmem)
      · intro h0
        exact absurd rfl h0
      · exact clean_of_clean_mem hclean2
          (fun c hc => hu1sub c (hq3 c (hsp_sub c hc)))
    · rw [if_neg hpp] at hfp
      subst hfp
      refine ⟨hschemeOK, by simp, by simp, by simp, hq1, hq2, ?_,
        by simp [Clean], clean_of_clean_mem hclean2
          (fun c hc => hu1sub c (hq3 c hc))⟩
      intro h0
      exact absurd rfl h0

/-! ## Toward C1: the reconstructed URL and its reparse -/

theorem mem_intersperse {sep x : List Char} :
    ∀ {xs : List (List Char)}, x ∈ xs.intersperse sep → x = sep ∨ x ∈ xs := by
  intro xs
  induction xs with
  | nil => intro h; simp at h
  | cons a t ih =>
    intro h
    match t with
    | [] =>
      simp only [List.intersperse_singleton, List.mem_singleton] at h
      exact Or.inr (by simp [h])
    | b :: t2 =>
      rw [List.intersperse_cons_cons] at h
      rcases List.mem_cons.mp h with rfl | h
      · exact Or.inr (by simp)
      · rcases List.mem_cons.mp h with rfl | h
        · exact Or.inl rfl
        · rcases ih h with h2 | h2
          · exact Or.inl h2
          · exact Or.inr (by simp [h2])

theorem urlencode_chars (grps : List (List Char × List (List Char))) :
    ∀ c ∈ urlencodePy grps,
      alwaysSafe c.toNat = true ∨ c = '+' ∨ c = '%' ∨ c = '&' ∨ c = '=' := by
  intro c hc
  unfold urlencodePy at hc
  unfold List.intercalate at hc
  obtain ⟨l, hl, hcl⟩ := List.mem_flatten.mp hc
  rcases mem_intersperse hl with rfl | hl
  · simp only [List.mem_singleton] at hcl
    exact Or.inr (Or.inr (Or.inr (Or.inl hcl)))
  · obtain ⟨fl, hfl, hlf⟩ := List.mem_flatten.mp hl
    obtain ⟨g, _, hg⟩ := List.mem_map.mp hfl
    rw [← hg] at hlf
    obtain ⟨v, _, hv⟩ := List.mem_map.mp hlf
    rw [← hv] at hcl
    rcases List.mem_append.mp hcl with hk | hk
    · have hq := quotePlus_chars g.1 c hk
      tauto
    · rcases List.mem_cons.mp hk with rfl | hk
      · exact Or.inr (Or.inr (Or.inr (Or.inr rfl)))
      · rcases quotePlus_chars v c hk with h | h | h
        · exact Or.inl h
        · exact Or.inr (Or.inl h)
        · exact Or.inr (Or.inr (Or.inl h))

theorem alwaysSafe_ge_45 {n : Nat} (h : alwaysSafe n = true) : 45 ≤ n := by
  unfold alwaysSafe at h
  simp only [Bool.or_eq_true, Bool.and_eq_true, decide_eq_true_eq] at h
  omega

theorem urlencode_clean (grps : List (List Char × List (List Char))) :
    Clean (urlencodePy grps) := by
  intro c hc
  rcases urlencode_chars grps c hc with h | h | h | h | h
  · have h45 := alwaysSafe_ge_45 h
    refine ⟨?_, ?_, ?_⟩ <;>
    · rw [ne_eq, char_eq_iff]
      intro h0
      rw [h0] at h45
      revert h45
      decide
  all_goals subst h
  all_goals refine ⟨by decide, by decide, by decide⟩

theorem hash_not_in_urlencode (grps : List (List Char × List (List Char))) :
    ('#' : Char) ∉ urlencodePy grps := by
  intro hmem
  rcases urlencode_chars grps '#' hmem with h | h | h | h | h
  · exact absurd h (by decide)
  all_goals exact absurd h (by decide)

theorem urlencode_ne_nil {grps : List (List Char × List (List Char))}
    (wf1 : ∀ g ∈ grps, g.2 ≠ []) (hne : grps ≠ []) :
    urlencodePy grps ≠ [] := by
  match grps, hne with
  | g :: grps', _ =>
    obtain ⟨v₀, vs', hg2⟩ : ∃ v vs, g.2 = v :: vs := by
      match h2 : g.2 with
      | [] => exact absurd h2 (wf1 g (by simp))
      | v :: vs => exact ⟨v, vs, rfl⟩
    unfold urlencodePy
    rw [List.map_cons, List.flatten_cons, hg2, List.map_cons,
      List.cons_append]
    exact intercalate_head_ne (by simp) _

theorem removeUnsafe_eq_self {l : List Char} (h : Clean l) :
    removeUnsafe l = l := by
  unfold removeUnsafe
  rw [List.filter_eq_self]
  intro c hc
  obtain ⟨h1, h2, h3⟩ := h c hc
  simp [h1, h2, h3]

theorem clean_append {a b : List Char} (ha : Clean a) (hb : Clean b) :
    Clean (a ++ b) :=
  fun c hc => (List.mem_append.mp hc).elim (ha c) (hb c)

theorem clean_cons {c : Char} {l : List Char}
    (hc : c ≠ '\t' ∧ c ≠ '\r' ∧ c ≠ '\n') (hl : Clean l) :
    Clean (c :: l) := by
  intro d hd
  rcases List.mem_cons.mp hd with rfl | hd
  · exact hc
  · exact hl d hd

theorem alpha_not_c0 {c : Char} (h : isAsciiAlpha c = true) :
    isC0OrSpace c = false := by
  unfold isAsciiAlpha at h
  unfold isC0OrSpace
  simp only [Bool.or_eq_true, Bool.and_eq_true, decide_eq_true_eq] at h
  simp only [decide_eq_false_iff_not]
  omega

theorem take1_slash {l : List Char} (h : l.take 1 = ['/']) :
    ∃ t, l = '/' :: t := by
  match l with
  | [] => simp at h
  | c :: t =>
    rw [List.take_succ_cons, List.take_zero] at h
    injection h with h1 _
    exact ⟨t, by rw [h1]⟩

theorem lstrip_noop {sch : List Char} (rest : List Char) (hs1 : sch ≠ [])
    (hs2 : isAsciiAlpha (sch.headD ' ') = true) :
    (sch ++ rest).dropWhile isC0OrSpace = sch ++ rest := by
  match sch, hs1 with
  | s₀ :: sch', _ =>
    have hs2' : isAsciiAlpha s₀ = true := hs2
    rw [List.cons_append, List.dropWhile_cons_of_neg
      (by rw [alpha_not_c0 hs2']; simp)]

/-- Re-splitting a URL rebuilt with a netloc. -/
theorem urlsplit_build_netloc (sch NL npX nq' qt : List Char)
    (hs1 : sch ≠ []) (hs2 : isAsciiAlpha (sch.headD ' ') = true)
    (hs3 : sch.all isSchemeChar = true) (hs4 : lowerStr sch = sch)
    (hclsch : Clean sch)
    (hnl1 : ∀ c ∈ NL, isNetlocDelim c = false)
    (hnl2 : ('[' : Char) ∉ NL) (hnl3 : (']' : Char) ∉ NL) (hclNL : Clean NL)
    (hx1 : npX.take 1 = ['/']) (hx2 : ('?' : Char) ∉ npX)
    (hx3 : ('#' : Char) ∉ npX) (hclx : Clean npX)
    (hqt : (qt = [] ∧ nq' = []) ∨
      (qt = '?' :: nq' ∧ ('#' : Char) ∉ nq' ∧ Clean nq')) :
    urlsplitPy (sch ++ ':' :: '/' :: '/' :: (NL ++ (npX ++ qt))) =
      some (sch, NL, npX, nq', []) := by
  obtain ⟨npt, rfl⟩ := take1_slash hx1
  have hclqt : Clean qt := by
    rcases hqt with ⟨rfl, _⟩ | ⟨rfl, _, hcl⟩
    · intro c hc
      exact absurd hc (List.not_mem_nil c)
    · exact clean_cons (by refine ⟨by decide, by decide, by decide⟩) hcl
  have hclv : Clean (sch ++ ':' :: '/' :: '/' :: (NL ++ ('/' :: npt ++ qt))) := by
    refine clean_append hclsch (clean_cons (by decide) (clean_cons (by decide)
      (clean_cons (by decide) (clean_append hclNL ?_))))
    rw [List.cons_append]
    exact clean_cons (by decide) (clean_append (fun c hc => hclx c (by simp [hc])) hclqt)
  unfold urlsplitPy
  simp only []
  rw [lstrip_noop _ hs1 hs2]
  rw [removeUnsafe_eq_self hclv]
  rw [splitScheme_append _ hs1 hs2 hs3, hs4]
  simp only []
  rw [show List.take 2 ('/' :: '/' :: (NL ++ ('/' :: npt ++ qt))) = ['/', '/']
    from rfl]
  rw [if_pos rfl]
  rw [show List.drop 2 ('/' :: '/' :: (NL ++ ('/' :: npt ++ qt))) =
    NL ++ ('/' :: npt ++ qt) from rfl]
  rw [takeWhile_append_of_all (fun c hc => by rw [Bool.not_eq_true', hnl1 c hc])]
  rw [dropWhile_append_of_all (fun c hc => by rw [Bool.not_eq_true', hnl1 c hc])]
  rw [List.cons_append, List.takeWhile_cons_of_neg (by simp [isNetlocDelim]),
    List.dropWhile_cons_of_neg (by simp [isNetlocDelim])]
  rw [List.append_nil]
  rw [if_neg (by push_neg; exact ⟨hnl2, hnl3⟩)]
  simp only []
  have hhq : ('#' : Char) ∉ '/' :: (npt ++ qt) := by
    intro hmem
    rcases List.mem_cons.mp hmem with h | h
    · exact absurd h (by decide)
    · rcases List.mem_append.mp h with h | h
      · exact hx3 (by simp [h])
      · rcases hqt with ⟨rfl, _⟩ | ⟨rfl, hq, _⟩
        · exact List.not_mem_nil _ h
        · rcases List.mem_cons.mp h with h2 | h2
          · exact absurd h2 (by decide)
          · exact hq h2
  rw [splitFirstChar_of_not_mem hhq]
  simp only []
  rcases hqt with ⟨rfl, rfl⟩ | ⟨rfl, _, _⟩
  · rw [List.append_nil]
    rw [splitFirstChar_of_not_mem hx2]
  · rw [← List.cons_append]
    rw [splitFirstChar_append hx2]

/-- Re-splitting a URL rebuilt without a netloc. -/
theorem urlsplit_build_plain (sch npX nq' qt : List Char)
    (hs1 : sch ≠ []) (hs2 : isAsciiAlpha (sch.headD ' ') = true)
    (hs3 : sch.all isSchemeChar = true) (hs4 : lowerStr sch = sch)
    (hclsch : Clean sch)
    (hx0 : npX ≠ []) (hta : (npX ++ qt).take 2 ≠ ['/', '/'])
    (hx2 : ('?' : Char) ∉ npX) (hx3 : ('#' : Char) ∉ npX) (hclx : Clean npX)
    (hqt : (qt = [] ∧ nq' = []) ∨
      (qt = '?' :: nq' ∧ ('#' : Char) ∉ nq' ∧ Clean nq')) :
    urlsplitPy (sch ++ ':' :: (npX ++ qt)) = some (sch, [], npX, nq', []) := by
  have hclqt : Clean qt := by
    rcases hqt with ⟨rfl, _⟩ | ⟨rfl, _, hcl⟩
    · intro c hc
      exact absurd hc (List.not_mem_nil c)
    · exact clean_cons (by refine ⟨by decide, by decide, by decide⟩) hcl
  have hclv : Clean (sch ++ ':' :: (npX ++ qt)) :=
    clean_append hclsch (clean_cons (by decide) (clean_append hclx hclqt))
  unfold urlsplitPy
  simp only []
  rw [lstrip_noop _ hs1 hs2]
  rw [removeUnsafe_eq_self hclv]
  rw [splitScheme_append _ hs1 hs2 hs3, hs4]
  simp only []
  rw [if_neg hta]
  simp only []
  have hhq : ('#' : Char) ∉ npX ++ qt := by
    intro hmem
    rcases List.mem_append.mp hmem with h | h
    · exact hx3 h
    · rcases hqt with ⟨rfl, _⟩ | ⟨rfl, hq, _⟩
      · exact List.not_mem_nil _ h
      · rcases List.mem_cons.mp h with h2 | h2
        · exact absurd h2 (by decide)
        · exact hq h2
  rw [if_neg (by simp)]
  rw [splitFirstChar_of_not_mem hhq]
  simp only []
  rcases hqt with ⟨rfl, rfl⟩ | ⟨rfl, _, _⟩
  · rw [List.append_nil]
    rw [splitFirstChar_of_not_mem hx2]
  · rw [splitFirstChar_append hx2]

/-- Parsing adds no params when the split path has no semicolon. -/
theorem urlparse_of_split {url : List Char}
    {sch0 nl0 path0 q0 f0 : List Char}
    (hs : urlsplitPy url = some (sch0, nl0, path0, q0, f0))
    (hsem : (';' : Char) ∉ path0) :
    urlparsePy url = some ⟨sch0, nl0, path0, [], q0, f0⟩ := by
  unfold urlparsePy
  rw [hs]
  show some _ = some _
  congr 1
  simp only []
  rw [if_neg (fun hand => hsem hand.2)]

theorem normalizeLink_general (url : List Char) (p : URLParts)
    (hp : urlparsePy url = some p)
    (hsuf : NAVER_SUFFIX.isSuffixOf (lowerStr p.netloc) = false)
    (hne : url ≠ []) :
    normalizeLink url =
      urlunparsePy
        (if lowerStr p.scheme = [] then "https".toList else lowerStr p.scheme)
        (lowerStr p.netloc)
        (if rstripChar '/' p.path = [] then ['/'] else rstripChar '/' p.path)
        []
        (urlencodePy
          (((parseQs p.query true).filter fun g => ¬ g.1 ∈ TRACKING_PARAMS).map
            fun g => (g.1, sortStrs g.2)))
        [] := by
  unfold normalizeLink
  rw [if_neg hne, hp]
  simp only [hsuf, Bool.false_eq_true, if_false]

/-- The second `normalize_link` pass over a URL that parses into the
reconstruction components leaves scheme, netloc and query unchanged. -/
theorem normalizeLink_rebuild (v sch NL npX : List Char)
    (grps : List (List Char × List (List Char)))
    (hpv : urlparsePy v = some ⟨sch, NL, npX, [], urlencodePy grps, []⟩)
    (hvne : v ≠ [])
    (hs1 : sch ≠ []) (hs4 : lowerStr sch = sch) (hnl4 : lowerStr NL = NL)
    (hnlsuf : NAVER_SUFFIX.isSuffixOf NL = false)
    (hg1 : List.Pairwise (fun a b => a.1 ≠ b.1) grps)
    (hg2 : ∀ g ∈ grps, g.1 ∉ TRACKING_PARAMS)
    (hg3 : ∀ g ∈ grps, g.2 ≠ [])
    (hg4 : ∀ g ∈ grps, sortStrs g.2 = g.2) :
    normalizeLink v = urlunparsePy sch NL
      (if rstripChar '/' npX = [] then ['/'] else rstripChar '/' npX) []
      (urlencodePy grps) [] := by
  have h := normalizeLink_general v ⟨sch, NL, npX, [], urlencodePy grps, []⟩
    hpv (by show NAVER_SUFFIX.isSuffixOf (lowerStr NL) = false
            rw [hnl4]
            exact hnlsuf) hvne
  rw [h]
  show urlunparsePy (if lowerStr sch = [] then "https".toList else lowerStr sch)
    (lowerStr NL) _ [] _ [] = _
  rw [hs4, if_neg hs1, hnl4]
  congr 1
  show urlencodePy (((parseQs (urlencodePy grps) true).filter
    fun g => ¬ g.1 ∈ TRACKING_PARAMS).map fun g => (g.1, sortStrs g.2)) =
    urlencodePy grps
  rw [parseQs_urlencode grps hg3 hg1]
  rw [List.filter_eq_self.mpr (fun g hg => by simpa using hg2 g hg)]
  rw [map_id_of_fixed grps (fun g hg => by rw [hg4 g hg])]

/-- `urlunparse` with empty params and fragment, unfolded to a scheme-colon
prefix, the netloc-conditional body, and an optional query tail. -/
theorem urlunparse_empty (sch NL path nq : List Char) (hs1 : sch ≠ []) :
    urlunparsePy sch NL path [] nq [] =
      sch ++ ':' ::
        ((if NL ≠ [] ∨ (sch ≠ [] ∧ sch ∈ usesNetloc ∧ path.take 2 ≠ ['/', '/'])
          then '/' :: '/' :: (NL ++
            (if path ≠ [] ∧ path.take 1 ≠ ['/'] then '/' :: path else path))
          else path) ++ (if nq ≠ [] then '?' :: nq else [])) := by
  unfold urlunparsePy urlunsplitPy
  show (if nq ≠ [] then
      (if sch ≠ [] then sch ++ ':' ::
        (if NL ≠ [] ∨ (sch ≠ [] ∧ sch ∈ usesNetloc ∧ path.take 2 ≠ ['/', '/'])
          then '/' :: '/' :: (NL ++
            (if path ≠ [] ∧ path.take 1 ≠ ['/'] then '/' :: path else path))
          else path)
       else
        (if NL ≠ [] ∨ (sch ≠ [] ∧ sch ∈ usesNetloc ∧ path.take 2 ≠ ['/', '/'])
          then '/' :: '/' :: (NL ++
            (if path ≠ [] ∧ path.take 1 ≠ ['/'] then '/' :: path else path))
          else path)) ++ '?' :: nq
    else
      (if sch ≠ [] then sch ++ ':' ::
        (if NL ≠ [] ∨ (sch ≠ [] ∧ sch ∈ usesNetloc ∧ path.take 2 ≠ ['/', '/'])
          then '/' :: '/' :: (NL ++
            (if path ≠ [] ∧ path.take 1 ≠ ['/'] then '/' :: path else path))
          else path)
       else
        (if NL ≠ [] ∨ (sch ≠ [] ∧ sch ∈ usesNetloc ∧ path.take 2 ≠ ['/', '/'])
          then '/' :: '/' :: (NL ++
            (if path ≠ [] ∧ path.take 1 ≠ ['/'] then '/' :: path else path))
          else path))) = _
  rw [if_pos hs1]
  by_cases hnq : nq ≠ []
  · rw [if_pos hnq, if_pos hnq, List.append_assoc, List.cons_append]
  · rw [if_neg hnq, if_neg hnq, List.append_nil]

/-- The general branch of `normalize_link` is a fixed point of a second
pass: re-normalizing a URL rebuilt from a valid scheme, delimiter-free
non-article netloc, rstripped slash-rooted path and re-encoded clean query
returns it unchanged. -/
theorem normalizeLink_reparse (sch NL np : List Char)
    (grps : List (List Char × List (List Char)))
    (hs1 : sch ≠ []) (hs2 : isAsciiAlpha (sch.headD ' ') = true)
    (hs3 : sch.all isSchemeChar = true) (hs4 : lowerStr sch = sch)
    (hclsch : Clean sch)
    (hnl1 : ∀ c ∈ NL, isNetlocDelim c = false)
    (hnl2 : ('[' : Char) ∉ NL) (hnl3 : (']' : Char) ∉ NL)
    (hnl4 : lowerStr NL = NL) (hclNL : Clean NL)
    (hnlsuf : NAVER_SUFFIX.isSuffixOf NL = false)
    (hp1 : np ≠ []) (hp2 : ('?' : Char) ∉ np) (hp3 : ('#' : Char) ∉ np)
    (hp4 : (';' : Char) ∉ np)
    (hp5 : rstripChar '/' np = np ∨ np = ['/'])
    (hp6 : NL ≠ [] → np.take 1 = ['/'])
    (hp7 : NL = [] → np.take 2 ≠ ['/', '/'])
    (hclnp : Clean np)
    (hg1 : List.Pairwise (fun a b => a.1 ≠ b.1) grps)
    (hg2 : ∀ g ∈ grps, g.1 ∉ TRACKING_PARAMS)
    (hg3 : ∀ g ∈ grps, g.2 ≠ [])
    (hg4 : ∀ g ∈ grps, sortStrs g.2 = g.2) :
    normalizeLink (urlunparsePy sch NL np [] (urlencodePy grps) []) =
      urlunparsePy sch NL np [] (urlencodePy grps) [] := by
  have hvne : ∀ (X : List Char), sch ++ ':' :: X ≠ [] := by
    intro X h
    match sch, hs1, h with
    | c :: t, _, h => simp at h
  have hnpx_id :
      (if rstripChar '/' np = [] then ['/'] else rstripChar '/' np) = np := by
    rcases hp5 with h | h
    · rw [h, if_neg hp1]
    · rw [h]
      have h2 : rstripChar '/' (['/'] : List Char) = [] := rfl
      rw [h2, if_pos rfl]
  have hqt : ((if urlencodePy grps ≠ [] then '?' :: urlencodePy grps else [])
        = [] ∧ urlencodePy grps = []) ∨
      ((if urlencodePy grps ≠ [] then '?' :: urlencodePy grps else []) =
        '?' :: urlencodePy grps ∧ ('#' : Char) ∉ urlencodePy grps ∧
        Clean (urlencodePy grps)) := by
    by_cases hnqe : urlencodePy grps = []
    · exact Or.inl ⟨by rw [if_neg (by simpa using hnqe)], hnqe⟩
    · exact Or.inr ⟨by rw [if_pos hnqe], hash_not_in_urlencode grps,
        urlencode_clean grps⟩
  generalize hqtd : (if urlencodePy grps ≠ [] then '?' :: urlencodePy grps
    else []) = qt at hqt
  have hqt2 : (qt = [] ∧ urlencodePy grps = []) ∨
      (qt = '?' :: urlencodePy grps ∧ ('#' : Char) ∉ urlencodePy grps ∧
        Clean (urlencodePy grps)) := hqt
  by_cases hNLe : NL = []
  · subst hNLe
    by_cases huse : sch ∈ usesNetloc
    · by_cases hsl2 : np.take 1 = ['/']
      · -- netloc-insertion branch, path already rooted
        have hE : urlunparsePy sch [] np [] (urlencodePy grps) [] =
            sch ++ ':' :: '/' :: '/' :: (np ++ qt) := by
          rw [urlunparse_empty sch [] np (urlencodePy grps) hs1, hqtd,
            if_pos (Or.inr ⟨hs1, huse, hp7 rfl⟩),
            if_neg (fun hand => hand.2 hsl2)]
          simp only [List.cons_append, List.append_assoc, List.nil_append]
        rw [hE]
        have hsplit := urlsplit_build_netloc sch [] np (urlencodePy grps) qt
          hs1 hs2 hs3 hs4 hclsch (by simp) (by simp) (by simp)
          (fun c hc => absurd hc (List.not_mem_nil c))
          hsl2 hp2 hp3 hclnp hqt2
        rw [List.nil_append] at hsplit
        have hparse := urlparse_of_split hsplit hp4
        rw [normalizeLink_rebuild _ sch [] np grps hparse (hvne _) hs1 hs4
          rfl hnlsuf hg1 hg2 hg3 hg4]
        rw [hnpx_id]
        exact hE
      · -- netloc-insertion branch, slash prepended
        have htake2 : (('/' : Char) :: np).take 2 ≠ ['/', '/'] := by
          intro h
          have h3 : ('/' : Char) :: np.take 1 = ['/', '/'] := h
          injection h3 with _ h4
          exact hsl2 h4
        have hE : urlunparsePy sch [] np [] (urlencodePy grps) [] =
            sch ++ ':' :: '/' :: '/' :: '/' :: (np ++ qt) := by
          rw [urlunparse_empty sch [] np (urlencodePy grps) hs1, hqtd,
            if_pos (Or.inr ⟨hs1, huse, hp7 rfl⟩),
            if_pos ⟨hp1, hsl2⟩]
          simp only [List.cons_append, List.append_assoc, List.nil_append]
        rw [hE]
        have hnpne : np ≠ ['/'] := by
          intro h
          rw [h] at hsl2
          exact hsl2 rfl
        have hrs : rstripChar '/' np = np := by
          rcases hp5 with h | h
          · exact h
          · exact absurd h hnpne
        have hsplit := urlsplit_build_netloc sch [] ('/' :: np)
          (urlencodePy grps) qt hs1 hs2 hs3 hs4 hclsch (by simp) (by simp)
          (by simp) (fun c hc => absurd hc (List.not_mem_nil c))
          rfl (by
            intro hmem
            rcases List.mem_cons.mp hmem with h | h
            · exact absurd h (by decide)
            · exact hp2 h)
          (by
            intro hmem
            rcases List.mem_cons.mp hmem with h | h
            · exact absurd h (by decide)
            · exact hp3 h)
          (clean_cons (by decide) hclnp) hqt2
        rw [List.nil_append] at hsplit
        simp only [List.cons_append, List.append_assoc, List.nil_append]
          at hsplit
        have hparse := urlparse_of_split hsplit (by
          intro hmem
          rcases List.mem_cons.mp hmem with h | h
          · exact absurd h (by decide)
          · exact hp4 h)
        rw [normalizeLink_rebuild _ sch [] ('/' :: np) grps hparse (hvne _)
          hs1 hs4 rfl hnlsuf hg1 hg2 hg3 hg4]
        have hrs2 : rstripChar '/' ('/' :: np) = '/' :: np := by
          have h5 := rstripChar_append_keep hrs hp1 (x := ['/'])
          simpa using h5
        rw [hrs2, if_neg (by simp)]
        rw [urlunparse_empty sch [] ('/' :: np) (urlencodePy grps) hs1, hqtd,
          if_pos (Or.inr ⟨hs1, huse, htake2⟩),
          if_neg (fun hand => hand.2 rfl)]
        simp only [List.cons_append, List.append_assoc, List.nil_append]
    · -- no netloc, relative form
      have hta : (np ++ qt).take 2 ≠ ['/', '/'] := by
        match np, hp1 with
        | [c], _ =>
          rcases hqt2 with ⟨rfl, _⟩ | ⟨rfl, _, _⟩
          · intro h
            simp at h
          · intro h
            have h3 : c :: '?' :: (urlencodePy grps).take 0 = ['/', '/'] := h
            injection h3 with _ h4
            injection h4 with h5 _
            exact absurd h5 (by decide)
        | c₁ :: c₂ :: t, _ =>
          intro h
          have h3 : c₁ :: c₂ :: (t ++ qt).take 0 = ['/', '/'] := h
          have h4 : (c₁ :: c₂ :: t).take 2 = ['/', '/'] := by
            rw [show (c₁ :: c₂ :: t).take 2 = c₁ :: c₂ :: t.take 0 from rfl]
            rw [show (t ++ qt).take 0 = t.take 0 from by simp] at h3
            exact h3
          exact hp7 rfl h4
      have hE : urlunparsePy sch [] np [] (urlencodePy grps) [] =
          sch ++ ':' :: (np ++ qt) := by
        rw [urlunparse_empty sch [] np (urlencodePy grps) hs1, hqtd,
          if_neg (by
            rintro (h | ⟨_, h2, _⟩)
            · exact h rfl
            · exact huse h2)]
      rw [hE]
      have hsplit := urlsplit_build_plain sch np (urlencodePy grps) qt
        hs1 hs2 hs3 hs4 hclsch hp1 hta hp2 hp3 hclnp hqt2
      have hparse := urlparse_of_split hsplit hp4
      rw [normalizeLink_rebuild _ sch [] np grps hparse (hvne _) hs1 hs4
        rfl hnlsuf hg1 hg2 hg3 hg4]
      rw [hnpx_id]
      exact hE
  · -- netloc present
    have hsl := hp6 hNLe
    have hE : urlunparsePy sch NL np [] (urlencodePy grps) [] =
        sch ++ ':' :: '/' :: '/' :: (NL ++ (np ++ qt)) := by
      rw [urlunparse_empty sch NL np (urlencodePy grps) hs1, hqtd,
        if_pos (Or.inl hNLe), if_neg (fun hand => hand.2 hsl)]
      simp only [List.cons_append, List.append_assoc, List.nil_append]
    rw [hE]
    have hsplit := urlsplit_build_netloc sch NL np (urlencodePy grps) qt
      hs1 hs2 hs3 hs4 hclsch hnl1 hnl2 hnl3 hclNL hsl hp2 hp3 hclnp hqt2
    have hparse := urlparse_of_split hsplit hp4
    rw [normalizeLink_rebuild _ sch NL np grps hparse (hvne _) hs1 hs4
      hnl4 hnlsuf hg1 hg2 hg3 hg4]
    rw [hnpx_id]
    exact hE

theorem schemeChar_clean {c : Char} (h : isSchemeChar c = true) :
    c ≠ '\t' ∧ c ≠ '\r' ∧ c ≠ '\n' := by
  have h2 := isSchemeChar_iff.mp h
  have h9 : ('\t' : Char).toNat = 9 := rfl
  have h13 : ('\r' : Char).toNat = 13 := rfl
  have h10 : ('\n' : Char).toNat = 10 := rfl
  refine ⟨?_, ?_, ?_⟩
  · rw [ne_eq, char_eq_iff, h9]; omega
  · rw [ne_eq, char_eq_iff, h13]; omega
  · rw [ne_eq, char_eq_iff, h10]; omega

theorem rstripChar_no_strip {ch : Char} {l : List Char}
    (h : ∀ c ∈ l, ¬ c = ch) : rstripChar ch l = l := by
  unfold rstripChar
  rw [List.dropWhile_eq_self_iff.mpr ?_, List.reverse_reverse]
  intro h2
  have hm : l.reverse.get ⟨0, h2⟩ ∈ l.reverse := List.get_mem l.reverse 0 h2
  rw [List.mem_reverse] at hm
  simpa using h _ hm

/-- The take-1 prefix survives an rstrip that leaves something. -/
theorem rstripChar_take1 {ch : Char} {l : List Char}
    (h : rstripChar ch l ≠ []) :
    (rstripChar ch l).take 1 = l.take 1 := by
  obtain ⟨n, hn⟩ := rstripChar_eq_take ch l
  rw [hn] at h ⊢
  rw [List.take_take]
  congr 1
  have h1 : 1 ≤ n := by
    by_contra h2
    have h3 : n = 0 := by omega
    rw [h3] at h
    exact h (List.take_zero l)
  omega

/-- The compact article key `naver:oid=<digits>&aid=<digits>` is a fixed
point of `normalize_link`. -/
theorem naverKey_fixed (o a : List Char) (ho : o ≠ []) (ha : a ≠ [])
    (hod : o.all isAsciiDigit = true) (had : a.all isAsciiDigit = true) :
    normalizeLink ("naver:oid=".toList ++ o ++ "&aid=".toList ++ a) =
      "naver:oid=".toList ++ o ++ "&aid=".toList ++ a := by
  have hdigit_facts : ∀ c ∈ o ++ '&' :: 'a' :: 'i' :: 'd' :: '=' :: a,
      (48 ≤ c.toNat ∧ c.toNat ≤ 57) ∨ c.toNat = 38 ∨ c.toNat = 97 ∨
      c.toNat = 105 ∨ c.toNat = 100 ∨ c.toNat = 61 := by
    intro c hc
    rcases List.mem_append.mp hc with h | h
    · have h2 := List.all_eq_true.mp hod c h
      rw [isAsciiDigit_iff] at h2
      exact Or.inl h2
    · rcases List.mem_cons.mp h with rfl | h
      · right; left; rfl
      · rcases List.mem_cons.mp h with rfl | h
        · right; right; left; rfl
        · rcases List.mem_cons.mp h with rfl | h
          · right; right; right; left; rfl
          · rcases List.mem_cons.mp h with rfl | h
            · right; right; right; right; left; rfl
            · rcases List.mem_cons.mp h with rfl | h
              · right; right; right; right; right; rfl
              · have h2 := List.all_eq_true.mp had c h
                rw [isAsciiDigit_iff] at h2
                exact Or.inl h2
  have hkey : "naver:oid=".toList ++ o ++ "&aid=".toList ++ a =
      "naver".toList ++ ':' ::
        (('o' :: 'i' :: 'd' :: '=' ::
          (o ++ '&' :: 'a' :: 'i' :: 'd' :: '=' :: a)) ++ []) := by
    rw [List.append_nil]
    rw [show "naver:oid=".toList =
      'n' :: 'a' :: 'v' :: 'e' :: 'r' :: ':' :: 'o' :: 'i' :: 'd' :: '=' :: []
      from rfl]
    rw [show "naver".toList = 'n' :: 'a' :: 'v' :: 'e' :: 'r' :: [] from rfl]
    rw [show "&aid=".toList = '&' :: 'a' :: 'i' :: 'd' :: '=' :: [] from rfl]
    simp only [List.cons_append, List.append_assoc, List.nil_append]
  rw [hkey]
  have hR2 : ∀ c ∈ 'o' :: 'i' :: 'd' :: '=' ::
      (o ++ '&' :: 'a' :: 'i' :: 'd' :: '=' :: a),
      (48 ≤ c.toNat ∧ c.toNat ≤ 57) ∨ c.toNat = 38 ∨ c.toNat = 97 ∨
      c.toNat = 105 ∨ c.toNat = 100 ∨ c.toNat = 61 ∨ c.toNat = 111 := by
    intro c hc
    rcases List.mem_cons.mp hc with rfl | hc
    · right; right; right; right; right; right; rfl
    · rcases List.mem_cons.mp hc with rfl | hc
      · right; right; right; left; rfl
      · rcases List.mem_cons.mp hc with rfl | hc
        · right; right; right; right; left; rfl
        · rcases List.mem_cons.mp hc with rfl | hc
          · right; right; right; right; right; left; rfl
          · have hd := hdigit_facts c hc
            tauto
  have hsplit := urlsplit_build_plain "naver".toList
    ('o' :: 'i' :: 'd' :: '=' :: (o ++ '&' :: 'a' :: 'i' :: 'd' :: '=' :: a))
    [] [] (by decide) (by decide) (by decide) (by decide)
    (by unfold Clean; decide)
    (by simp)
    (by
      intro h
      rw [List.append_nil] at h
      simp only [List.take_succ_cons, List.take_zero] at h
      injection h with h1 _
      exact absurd h1 (by decide))
    (by
      intro hmem
      rcases hR2 '?' hmem with h | h | h | h | h | h | h <;> revert h <;> decide)
    (by
      intro hmem
      rcases hR2 '#' hmem with h | h | h | h | h | h | h <;> revert h <;> decide)
    (by
      intro c hc
      rcases hR2 c hc with h | h | h | h | h | h | h <;>
      · refine ⟨?_, ?_, ?_⟩ <;>
        · rw [ne_eq, char_eq_iff]
          first
          | rw [show ('\t' : Char).toNat = 9 from rfl]
          | rw [show ('\x0d' : Char).toNat = 13 from rfl]
          | rw [show ('\n' : Char).toNat = 10 from rfl]
          omega)
    (Or.inl ⟨rfl, rfl⟩)
  have hparse := urlparse_of_split hsplit (by
    intro hmem
    rcases hR2 ';' hmem with h | h | h | h | h | h | h <;> revert h <;> decide)
  have hgen := normalizeLink_general _ _ hparse
    (by
      show NAVER_SUFFIX.isSuffixOf (lowerStr ([] : List Char)) = false
      decide)
    (by
      intro h
      have h2 := congrArg List.length h
      simp at h2)
  rw [hgen]
  have hnoslash : rstripChar '/' ('o' :: 'i' :: 'd' :: '=' ::
      (o ++ '&' :: 'a' :: 'i' :: 'd' :: '=' :: a)) =
      'o' :: 'i' :: 'd' :: '=' :: (o ++ '&' :: 'a' :: 'i' :: 'd' :: '=' :: a) := by
    apply rstripChar_no_strip
    intro c hc heq
    rcases hR2 c hc with h | h | h | h | h | h | h <;>
    · rw [heq] at h
      revert h
      decide
  show urlunparsePy (if lowerStr "naver".toList = [] then "https".toList
      else lowerStr "naver".toList) (lowerStr []) _ [] _ [] = _
  rw [hnoslash]
  rw [if_neg (show ¬ lowerStr "naver".toList = [] by decide)]
  rw [show lowerStr "naver".toList = "naver".toList from rfl]
  rw [show lowerStr ([] : List Char) = [] from rfl]
  rw [show urlencodePy (((parseQs ([] : List Char) true).filter
      fun g => ¬ g.1 ∈ TRACKING_PARAMS).map
      fun g => (g.1, sortStrs g.2)) = [] from rfl]
  rw [urlunparse_empty _ _ _ _ (by decide)]
  rw [if_neg (by
    rintro (h | ⟨_, h2, _⟩)
    · exact h rfl
    · revert h2
      decide)]
  rw [if_neg (show ¬ (([] : List Char) ≠ []) by simp)]
  rw [if_neg (List.cons_ne_nil 'o' _)]

/-! ## Claims C6 and C7: the two branches of `normalize_link` -/

theorem normalizeLink_compact (url : List Char) (p : URLParts) (o a : List Char)
    (hp : urlparsePy url = some p)
    (hsuf : NAVER_SUFFIX.isSuffixOf (lowerStr p.netloc) = true)
    (ho : firstVal (parseQs p.query false) "oid".toList = some o)
    (ha : firstVal (parseQs p.query false) "aid".toList = some a)
    (hno : o ≠ []) (hna : a ≠ []) :
    normalizeLink url = "naver:oid=".toList ++ o ++ "&aid=".toList ++ a := by
  have hne : url ≠ [] := by
    intro h
    subst h
    have h0 : urlparsePy ([] : List Char) = some ⟨[], [], [], [], [], []⟩ := rfl
    rw [h0] at hp
    injection hp with hp
    rw [← hp] at hsuf
    exact absurd hsuf (by decide)
  unfold normalizeLink
  rw [if_neg hne, hp]
  simp only [hsuf, if_true, ho, ha]
  rw [if_pos ⟨hno, hna⟩]

/-- C6: a URL whose lowered netloc ends in the article-host suffix and whose
query carries non-empty `oid` and `aid` values normalizes to the compact
`naver:oid=..&aid=..` key, which depends only on those two values; hence any
two such URLs with the same `oid`/`aid` normalize identically. -/
theorem claim_C6 (url : List Char) (p : URLParts) (o a : List Char)
    (hp : urlparsePy url = some p)
    (hsuf : NAVER_SUFFIX.isSuffixOf (lowerStr p.netloc) = true)
    (ho : firstVal (parseQs p.query false) "oid".toList = some o)
    (ha : firstVal (parseQs p.query false) "aid".toList = some a)
    (hno : o ≠ []) (hna : a ≠ []) :
    normalizeLink url = "naver:oid=".toList ++ o ++ "&aid=".toList ++ a ∧
    (∀ (url₂ : List Char) (p₂ : URLParts),
      urlparsePy url₂ = some p₂ →
      NAVER_SUFFIX.isSuffixOf (lowerStr p₂.netloc) = true →
      firstVal (parseQs p₂.query false) "oid".toList = some o →
      firstVal (parseQs p₂.query false) "aid".toList = some a →
      normalizeLink url₂ = normalizeLink url) := by
  refine ⟨normalizeLink_compact url p o a hp hsuf ho ha hno hna, ?_⟩
  intro url₂ p₂ hp₂ hsuf₂ ho₂ ha₂
  rw [normalizeLink_compact url p o a hp hsuf ho ha hno hna,
    normalizeLink_compact url₂ p₂ o a hp₂ hsuf₂ ho₂ ha₂ hno hna]

/-- C7: on a non-article-host URL the function rebuilds the URL from the
lowered scheme (defaulting to https), lowered netloc, slash-rstripped path
(root stays /), no params, the re-encoded query of the first-seen-key-ordered
groups with tracking-listed names dropped and surviving value lists sorted,
and no fragment; concretely, a utm_source parameter is dropped so the URL
normalizes like its utm-free variant, the block-list match is case-sensitive
(Ref survives while ref is dropped), multi-valued parameters get sorted
values, a trailing slash is stripped, an empty path becomes /, and the
fragment is removed. -/
theorem claim_C7 (url : List Char) (p : URLParts)
    (hp : urlparsePy url = some p)
    (hsuf : NAVER_SUFFIX.isSuffixOf (lowerStr p.netloc) = false)
    (hne : url ≠ []) :
    (normalizeLink url =
      urlunparsePy
        (if lowerStr p.scheme = [] then "https".toList else lowerStr p.scheme)
        (lowerStr p.netloc)
        (if rstripChar '/' p.path = [] then ['/'] else rstripChar '/' p.path)
        []
        (urlencodePy
          (((parseQs p.query true).filter fun g => ¬ g.1 ∈ TRACKING_PARAMS).map
            fun g => (g.1, sortStrs g.2)))
        []) ∧
    normalizeLink "https://example.com/a?utm_source=x&id=5".toList =
      normalizeLink "https://example.com/a?id=5".toList ∧
    normalizeLink "https://example.com/a?ref=1".toList =
      "https://example.com/a".toList ∧
    normalizeLink "https://example.com/a?Ref=1".toList =
      "https://example.com/a?Ref=1".toList ∧
    normalizeLink "https://example.com/a?b=2&b=1&c=0".toList =
      "https://example.com/a?b=1&b=2&c=0".toList ∧
    normalizeLink "https://example.com/a/".toList =
      "https://example.com/a".toList ∧
    normalizeLink "https://example.com".toList =
      "https://example.com/".toList ∧
    normalizeLink "https://example.com/a?id=5#frag".toList =
      "https://example.com/a?id=5".toList := by
  exact ⟨normalizeLink_general url p hp hsuf hne, by decide, by decide,
    by decide, by decide, by decide, by decide, by decide⟩

/-- C7, witness: the characterization applied to a concrete URL with a
tracking parameter and a trailing slash. -/
theorem claim_C7_witness :
    normalizeLink "https://example.com/b/?utm_source=x&id=5".toList =
      "https://example.com/b?id=5".toList := by
  have h := claim_C7 "https://example.com/b/?utm_source=x&id=5".toList
    ⟨"https".toList, "example.com".toList, "/b/".toList, [],
      "utm_source=x&id=5".toList, []⟩
    (by decide) (by decide) (by decide)
  exact h.1.trans (by decide)

/-- C6, witness: a desktop article URL with tracking parameters and a mobile
variant with a different path and parameter order share one compact key. -/
theorem claim_C6_witness :
    normalizeLink
        "https://news.naver.com/main/read.naver?oid=001&aid=0012345&utm_source=x".toList =
      "naver:oid=001&aid=0012345".toList ∧
    normalizeLink "https://m.news.naver.com/amp/read?aid=0012345&oid=001".toList =
      normalizeLink
        "https://news.naver.com/main/read.naver?oid=001&aid=0012345&utm_source=x".toList := by
  have h := claim_C6
    "https://news.naver.com/main/read.naver?oid=001&aid=0012345&utm_source=x".toList
    ⟨"https".toList, "news.naver.com".toList, "/main/read.naver".toList, [],
      "oid=001&aid=0012345&utm_source=x".toList, []⟩
    "001".toList "0012345".toList (by decide) (by decide) (by decide)
    (by decide) (by decide) (by decide)
  refine ⟨h.1, ?_⟩
  exact h.2 "https://m.news.naver.com/amp/read?aid=0012345&oid=001".toList
    ⟨"https".toList, "m.news.naver.com".toList, "/amp/read".toList, [],
      "aid=0012345&oid=001".toList, []⟩
    (by decide) (by decide) (by decide) (by decide)

/-- C1, counterexample: three failures of unconditional idempotence, one per
excluded family.  The article-host fallback output re-parses with an empty
netloc and gains a `https:///` prefix; a `;` left in the last path segment
after the trailing-slash strip is re-split as params on the second pass; a
path starting `//` under an empty netloc is re-parsed as a netloc. -/
theorem claim_C1_counterexample :
    (normalizeLink (normalizeLink "https://news.naver.com/main".toList) ≠
      normalizeLink "https://news.naver.com/main".toList) ∧
    (normalizeLink (normalizeLink "http://h/a;x/".toList) ≠
      normalizeLink "http://h/a;x/".toList) ∧
    (normalizeLink (normalizeLink "x:////a".toList) ≠
      normalizeLink "x:////a".toList) := by decide

/-- C1 (amended): `normalize_link` is idempotent on every URL that parses and
takes the general (non-article-host) branch, provided the parsed path keeps
no `;` and does not begin with `//` while the netloc is empty; and the
compact `naver:oid=<digits>&aid=<digits>` keys of the article branch are
fixed points.  (The scheme-less article fallback is not.) -/
theorem claim_C1 (url : List Char) (p : URLParts)
    (hp : urlparsePy url = some p)
    (hsuf : NAVER_SUFFIX.isSuffixOf (lowerStr p.netloc) = false)
    (hne : url ≠ [])
    (hsemi : (';' : Char) ∉ p.path)
    (hslash : p.netloc = [] → (rstripChar '/' p.path).take 2 ≠ ['/', '/']) :
    normalizeLink (normalizeLink url) = normalizeLink url ∧
    (∀ o a : List Char, o ≠ [] → a ≠ [] → o.all isAsciiDigit = true →
      a.all isAsciiDigit = true →
      normalizeLink ("naver:oid=".toList ++ o ++ "&aid=".toList ++ a) =
        "naver:oid=".toList ++ o ++ "&aid=".toList ++ a) := by
  refine ⟨?_, fun o a ho ha hod had => naverKey_fixed o a ho ha hod had⟩
  obtain ⟨hscOK, hnld, hbr1, hbr2, hq1, hq2, hph, hclNL0, hclP0⟩ :=
    urlparse_inv url p hp
  rw [normalizeLink_general url p hp hsuf hne]
  obtain ⟨sch, hseq, hs1, hs2, hs3, hs4, hcls⟩ :
      ∃ sch, (if lowerStr p.scheme = [] then "https".toList
        else lowerStr p.scheme) = sch ∧ sch ≠ [] ∧
        isAsciiAlpha (sch.headD ' ') = true ∧ sch.all isSchemeChar = true ∧
        lowerStr sch = sch ∧ Clean sch := by
    rcases hscOK with h0 | ⟨hne2, halpha, hchars, hstab⟩
    · refine ⟨"https".toList, ?_, by decide, by decide, by decide, by decide,
        by unfold Clean; decide⟩
      rw [h0]
      decide
    · refine ⟨p.scheme, ?_, hne2, halpha, hchars, hstab, ?_⟩
      · rw [hstab, if_neg hne2]
      · intro c hc
        exact schemeChar_clean (List.all_eq_true.mp hchars c hc)
  rw [hseq]
  have hnl1 : ∀ c ∈ lowerStr p.netloc, isNetlocDelim c = false := by
    intro c hc
    obtain ⟨d, hd, he⟩ := mem_lowerStr hc
    rw [he]
    exact asciiLower_not_delim (hnld d hd)
  have hnl2 : ('[' : Char) ∉ lowerStr p.netloc := by
    intro hmem
    obtain ⟨d, hd, he⟩ := mem_lowerStr hmem
    have h2 : d = '[' := asciiLower_not_bracket d (Or.inl rfl) he.symm
    rw [h2] at hd
    exact hbr1 hd
  have hnl3 : (']' : Char) ∉ lowerStr p.netloc := by
    intro hmem
    obtain ⟨d, hd, he⟩ := mem_lowerStr hmem
    have h2 : d = ']' := asciiLower_not_bracket d (Or.inr rfl) he.symm
    rw [h2] at hd
    exact hbr2 hd
  have hclNL : Clean (lowerStr p.netloc) := clean_lowerStr hclNL0
  obtain ⟨hwfp, hwfv⟩ := parseQs_wf p.query true
  have hg1 : List.Pairwise (fun a b => a.1 ≠ b.1)
      (((parseQs p.query true).filter fun g =>
        ¬ g.1 ∈ TRACKING_PARAMS).map fun g => (g.1, sortStrs g.2)) :=
    List.pairwise_map.mpr
      (List.Pairwise.sublist (List.filter_sublist _) hwfp)
  have hg2 : ∀ g ∈ ((parseQs p.query true).filter fun g =>
      ¬ g.1 ∈ TRACKING_PARAMS).map fun g => (g.1, sortStrs g.2),
      g.1 ∉ TRACKING_PARAMS := by
    intro g hg
    obtain ⟨g0, hg0, he⟩ := List.mem_map.mp hg
    have h2 := List.of_mem_filter hg0
    rw [← he]
    simpa using h2
  have hg3 : ∀ g ∈ ((parseQs p.query true).filter fun g =>
      ¬ g.1 ∈ TRACKING_PARAMS).map fun g => (g.1, sortStrs g.2),
      g.2 ≠ [] := by
    intro g hg
    obtain ⟨g0, hg0, he⟩ := List.mem_map.mp hg
    rw [← he]
    exact sortStrs_ne_nil (hwfv g0 (List.mem_of_mem_filter hg0))
  have hg4 : ∀ g ∈ ((parseQs p.query true).filter fun g =>
      ¬ g.1 ∈ TRACKING_PARAMS).map fun g => (g.1, sortStrs g.2),
      sortStrs g.2 = g.2 := by
    intro g hg
    obtain ⟨g0, hg0, he⟩ := List.mem_map.mp hg
    rw [← he]
    exact sortStrs_idem g0.2
  by_cases hrs : rstripChar '/' p.path = []
  · rw [if_pos hrs]
    exact normalizeLink_reparse sch (lowerStr p.netloc) ['/'] _
      hs1 hs2 hs3 hs4 hcls hnl1 hnl2 hnl3 (lowerStr_idem p.netloc) hclNL hsuf
      (by simp) (by decide) (by decide) (by decide) (Or.inr rfl)
      (fun _ => rfl) (fun _ => by decide) (by unfold Clean; decide)
      hg1 hg2 hg3 hg4
  · rw [if_neg hrs]
    obtain ⟨n, hn⟩ := rstripChar_eq_take '/' p.path
    have hsub : ∀ c ∈ rstripChar '/' p.path, c ∈ p.path := by
      intro c hc
      rw [hn] at hc
      exact List.take_subset n p.path hc
    refine normalizeLink_reparse sch (lowerStr p.netloc) _ _
      hs1 hs2 hs3 hs4 hcls hnl1 hnl2 hnl3 (lowerStr_idem p.netloc) hclNL hsuf
      hrs (fun hmem => hq1 (hsub _ hmem)) (fun hmem => hq2 (hsub _ hmem))
      (fun hmem => hsemi (hsub _ hmem)) (Or.inl (rstripChar_idem '/' p.path))
      ?_ ?_ (clean_of_clean_mem hclP0 hsub) hg1 hg2 hg3 hg4
    · intro hNLne
      have hpne : p.netloc ≠ [] := by
        intro h0
        exact hNLne (by rw [h0]; rfl)
      rcases hph hpne with h0 | h0
      · exfalso
        apply hrs
        rw [h0]
        rfl
      · rw [rstripChar_take1 hrs, h0]
    · intro hNLeq
      exact hslash (lowerStr_eq_nil hNLeq)

/-- C1, witness: the amended theorem applied to a URL with a trailing slash
and a multi-valued parameter, and to a concrete compact article key. -/
theorem claim_C1_witness :
    normalizeLink (normalizeLink "https://example.com/a/?b=2&b=1".toList) =
      normalizeLink "https://example.com/a/?b=2&b=1".toList ∧
    normalizeLink "naver:oid=001&aid=0012345".toList =
      "naver:oid=001&aid=0012345".toList := by
  have h := claim_C1 "https://example.com/a/?b=2&b=1".toList
    ⟨"https".toList, "example.com".toList, "/a/".toList, [],
      "b=2&b=1".toList, []⟩
    (by decide) (by decide) (by decide) (by decide) (by decide)
  refine ⟨h.1, ?_⟩
  have h2 := h.2 "001".toList "0012345".toList (by decide) (by decide)
    (by decide) (by decide)
  have hAB : ("naver:oid=".toList ++ "001".toList ++ "&aid=".toList ++
      "0012345".toList) = "naver:oid=001&aid=0012345".toList := by decide
  rw [hAB] at h2
  exact h2

end NaverNews

